import Mathlib

/-!
AVL tree (avlbst.h / bst.h): embedding and verification.

The pointer graph of `AVLNode<Key,Value>` objects is embedded as an inductive tree.
A null pointer is `AVLNode.nil`; a non-null pointer to a node is the subtree rooted
at that node.  The `parent_` back-link of a node is not stored: it is the position of
the node in the tree (the parent links are the subject of the pointer-level model
`LinkedNode` further down, which is shown to yield this one when addresses and parent
links are left out).  Keys are taken from a linear order (the C++ `operator<` and
`operator>` of the key type).

* `balance_` is an `int8_t`; every store into it goes through `wrap8`.
* `calcHeight` returns a C++ `int`; heights are natural numbers here and the
  subtraction of two heights is done in `Int`.
* Dereferencing a null pointer is undefined behaviour in C++; the functions that
  dereference a child (`rotateLeft`, `rotateRight`, `balanceLeft`, `balanceRight`)
  return `none` in that case, and the helpers propagate it.
* `insertHelper` and `removeHelper` write their `bool&` out-parameters on every path,
  so these are returned as results.  The field `rebalances` is a ghost counter: the
  number of calls to `balanceLeft` / `balanceRight` made so far (the only callers of
  the rotations).
-/

set_option autoImplicit false
set_option linter.unusedSectionVars false
set_option linter.unusedVariables false
set_option linter.unusedTactic false
set_option linter.unreachableTactic false

/-- An `AVLNode<Key,Value>*`: either `nullptr` or a node with its left subtree, key,
value, balance factor and right subtree. -/
inductive AVLNode (K V : Type) where
  | nil : AVLNode K V
  | node (left : AVLNode K V) (key : K) (value : V) (balance : Int)
      (right : AVLNode K V) : AVLNode K V
  deriving DecidableEq

namespace AVLNode

variable {K V : Type}

/-- Number of nodes reachable from the pointer. -/
def size : AVLNode K V → Nat
  | nil => 0
  | node l _ _ _ r => size l + 1 + size r

/-- In-order sequence of the items (`getItem()`) of the subtree. -/
def inorder : AVLNode K V → List (K × V)
  | nil => []
  | node l k v _ r => inorder l ++ (k, v) :: inorder r

/-- In-order sequence of the keys of the subtree. -/
def keys (t : AVLNode K V) : List K := (inorder t).map Prod.fst

/-- The item stored in the node a pointer designates (`none` for `nullptr`). -/
def item : AVLNode K V → Option (K × V)
  | nil => none
  | node _ k v _ _ => some (k, v)

/-- Conversion of a C++ `int` to `int8_t` (two's-complement wrap-around). -/
def wrap8 (x : Int) : Int := (x + 128) % 256 - 128

end AVLNode

open AVLNode

namespace AVLTree

variable {K V : Type}

/-- `AVLTree::calcHeight`: 0 for `nullptr`, else `1 + max(leftH, rightH)`. -/
def calcHeight : AVLNode K V → Nat
  | nil => 0
  | node l _ _ _ r => 1 + max (calcHeight l) (calcHeight r)

/-- `AVLTree::rotateRight(root)`: the left child becomes the subtree root; both
balance factors are recomputed from `calcHeight`.  `none` when `root` or its left
child is null (the source dereferences them). -/
def rotateRight : AVLNode K V → Option (AVLNode K V)
  | node (node ll lk lv _ lr) k v _ r =>
      let root := node lr k v (wrap8 ((calcHeight lr : Int) - (calcHeight r : Int))) r
      some (node ll lk lv (wrap8 ((calcHeight ll : Int) - (calcHeight root : Int))) root)
  | _ => none

/-- `AVLTree::rotateLeft(root)`: the right child becomes the subtree root; both
balance factors are recomputed from `calcHeight`.  `none` when `root` or its right
child is null. -/
def rotateLeft : AVLNode K V → Option (AVLNode K V)
  | node l k v _ (node rl rk rv _ rr) =>
      let root := node l k v (wrap8 ((calcHeight l : Int) - (calcHeight rl : Int))) rl
      some (node root rk rv (wrap8 ((calcHeight root : Int) - (calcHeight rr : Int))) rr)
  | _ => none

/-- `AVLTree::balanceLeft(root)`: one right rotation when the left child's balance
is `>= 0`, otherwise a left rotation of the left child followed by a right rotation. -/
def balanceLeft : AVLNode K V → Option (AVLNode K V)
  | node (node ll lk lv lb lr) k v b r =>
      if lb ≥ 0 then rotateRight (node (node ll lk lv lb lr) k v b r)
      else
        match rotateLeft (node ll lk lv lb lr) with
        | some l1 => rotateRight (node l1 k v b r)
        | none => none
  | _ => none

/-- `AVLTree::balanceRight(root)`: one left rotation when the right child's balance
is `<= 0`, otherwise a right rotation of the right child followed by a left rotation. -/
def balanceRight : AVLNode K V → Option (AVLNode K V)
  | node l k v b (node rl rk rv rb rr) =>
      if rb ≤ 0 then rotateLeft (node l k v b (node rl rk rv rb rr))
      else
        match rotateRight (node rl rk rv rb rr) with
        | some r1 => rotateLeft (node l k v b r1)
        | none => none
  | _ => none

/-- Result of `insertHelper`: the returned subtree root, the out-parameter `taller`,
and the ghost count of `balanceLeft` / `balanceRight` calls. -/
structure InsertResult (K V : Type) where
  root : AVLNode K V
  taller : Bool
  rebalances : Nat
  deriving DecidableEq

variable [LinearOrder K]

/-- `AVLTree::insertHelper(root, new_item, taller)`. -/
def insertHelper : AVLNode K V → K → V → Option (InsertResult K V)
  | nil, k, v => some ⟨node nil k v 0 nil, true, 0⟩
  | node l key value b r, k, v =>
      if k < key then
        match insertHelper l k v with
        | none => none
        | some res =>
            if res.taller then
              let b1 := wrap8 (b + 1)
              if b1 = 0 then some ⟨node res.root key value b1 r, false, res.rebalances⟩
              else if b1 = 2 then
                match balanceLeft (node res.root key value b1 r) with
                | none => none
                | some t => some ⟨t, false, res.rebalances + 1⟩
              else some ⟨node res.root key value b1 r, true, res.rebalances⟩
            else some ⟨node res.root key value b r, false, res.rebalances⟩
      else if k > key then
        match insertHelper r k v with
        | none => none
        | some res =>
            if res.taller then
              let b1 := wrap8 (b + -1)
              if b1 = 0 then some ⟨node l key value b1 res.root, false, res.rebalances⟩
              else if b1 = -2 then
                match balanceRight (node l key value b1 res.root) with
                | none => none
                | some t => some ⟨t, false, res.rebalances + 1⟩
              else some ⟨node l key value b1 res.root, true, res.rebalances⟩
            else some ⟨node l key value b res.root, false, res.rebalances⟩
      else some ⟨node l key v b r, false, 0⟩

/-- `AVLTree::insert(new_item)`: the new `root_` (its parent link is cleared). -/
def insert (root_ : AVLNode K V) (new_item : K × V) : Option (AVLNode K V) :=
  (insertHelper root_ new_item.1 new_item.2).map InsertResult.root

/-- The loop `while(current->getRight() != nullptr) current = current->getRight();`
of `BinarySearchTree::predecessor`: the rightmost node below (and including) `current`. -/
def rightmost : AVLNode K V → AVLNode K V
  | nil => nil
  | node l k v b r =>
      match r with
      | nil => node l k v b nil
      | node rl rk rv rb rr => rightmost (node rl rk rv rb rr)

/-- `BinarySearchTree::predecessor(current)`.  With a left child the result is the
rightmost node of the left subtree.  Without one the source climbs the parent links
out of the subtree; for the tree root that climb ends in `nullptr`. -/
def predecessor : AVLNode K V → AVLNode K V
  | nil => nil
  | node l _ _ _ _ =>
      match l with
      | nil => nil
      | node ll lk lv lb lr => rightmost (node ll lk lv lb lr)

/-- The pointer comparison `root->getLeft() == pred` of `removeHelper`, where `pred`
is `predecessor(root)`: the two pointers coincide exactly when the loop of
`predecessor` made no step, that is when the left child has no right child. -/
def isAdjacent : AVLNode K V → Bool
  | node (node _ _ _ _ nil) _ _ _ _ => true
  | _ => false

/-- The subtree `t` after the node `n1` (item `(k, v)`) has taken the place of its
rightmost node `n2`: `n1` has the former children of `n2` there and, after the
exchange of the balance factors, the former balance of `n2`. -/
def placeAtRightmost (k : K) (v : V) : AVLNode K V → AVLNode K V
  | nil => nil
  | node l k0 v0 b0 r =>
      match r with
      | nil => node l k v b0 nil
      | node rl rk rv rb rr => node l k0 v0 b0 (placeAtRightmost k v (node rl rk rv rb rr))

/-- `AVLTree::nodeSwap(n1, n2)` as called by `removeHelper`: `n1` is the root of a
subtree and `n2 = predecessor(n1)` is the rightmost node of its left subtree.  The
result is the subtree that stands where `n1` stood (`none`: a null pointer is
dereferenced).

* `n1->getLeft() == n2`: `n2` takes `n1` as right child, `n1` takes `temp`, the former
  right child of `n2`, as left child and keeps its right child; balances exchanged.
* otherwise (`n1->getRight() == n2` cannot hold for a predecessor) the base-class
  `nodeSwap` exchanges the parent, left and right links of the two nodes, and the
  balances are exchanged: `n2` stands at the root with both children of `n1`, and `n1`
  stands at the former position of `n2`. -/
def nodeSwap (n1 n2 : AVLNode K V) : Option (AVLNode K V) :=
  match n1, n2 with
  | node l k v b r, node pl pk pv pb temp =>
      if isAdjacent (node l k v b r) then some (node pl pk pv b (node temp k v pb r))
      else some (node (placeAtRightmost k v l) pk pv b r)
  | _, _ => none

/-- Result of `removeHelper`: the returned subtree root, the out-parameters `shorter`
and `success`, and the ghost count of `balanceLeft` / `balanceRight` calls. -/
structure RemoveResult (K V : Type) where
  root : AVLNode K V
  shorter : Bool
  success : Bool
  rebalances : Nat
  deriving DecidableEq

/-- The common tail of `removeHelper` (from the comment "Recompute balance factor from
scratch" to `return root`): store `calcHeight(left) - calcHeight(right)` as balance,
rebalance at `2` / `-2`, and set `shorter`. -/
def recomputeBalance (root : AVLNode K V) (success : Bool) (n : Nat) :
    Option (RemoveResult K V) :=
  match root with
  | nil => none
  | node l k v _ r =>
      let bal := wrap8 ((calcHeight l : Int) - (calcHeight r : Int))
      if bal = 2 then
        match balanceLeft (node l k v bal r) with
        | none => none
        | some t => some ⟨t, false, success, n + 1⟩
      else if bal = -2 then
        match balanceRight (node l k v bal r) with
        | none => none
        | some t => some ⟨t, false, success, n + 1⟩
      else some ⟨node l k v bal r, decide (bal = 0), success, n⟩

/-- `AVLTree::removeHelper(root, key, shorter, success)`. -/
def removeHelper : AVLNode K V → K → Option (RemoveResult K V)
  | nil, _ => some ⟨nil, false, false, 0⟩
  | node l k v b r, key =>
      if key < k then
        (removeHelper l key).bind fun res =>
          recomputeBalance (node res.root k v (if res.shorter then wrap8 (b + -1) else b) r)
            res.success res.rebalances
      else if key > k then
        (removeHelper r key).bind fun res =>
          recomputeBalance (node l k v (if res.shorter then wrap8 (b + 1) else b) res.root)
            res.success res.rebalances
      else
        match l, r with
        | nil, r => some ⟨r, true, true, 0⟩
        | node ll lk lv lb lr, nil => some ⟨node ll lk lv lb lr, true, true, 0⟩
        | node ll lk lv lb lr, node rl rk rv rb rr =>
            match h : nodeSwap (node (node ll lk lv lb lr) k v b (node rl rk rv rb rr))
                (predecessor (node (node ll lk lv lb lr) k v b (node rl rk rv rb rr))) with
            | none => none
            | some nil => none
            | some (node sl sk sv sb sr) =>
                if isAdjacent (node (node ll lk lv lb lr) k v b (node rl rk rv rb rr)) then
                  (removeHelper sr key).bind fun res =>
                    recomputeBalance (node sl sk sv sb res.root) res.success res.rebalances
                else
                  (removeHelper sl key).bind fun res =>
                    recomputeBalance (node res.root sk sv sb sr) res.success res.rebalances
termination_by t => size t
decreasing_by
  all_goals simp_wf
  · simp only [size]; omega
  · simp only [size]; omega
  all_goals
    have hp : ∀ t : AVLNode K V, size (placeAtRightmost k v t) = size t := by
      intro t
      induction t with
      | nil => rfl
      | node l0 k0 v0 b0 r0 _ ihr =>
          cases r0 with
          | nil => simp [placeAtRightmost, size]
          | node _ _ _ _ _ => simp only [placeAtRightmost, size] at ihr ⊢; omega
    have hl := hp (node ll lk lv lb lr)
    cases lr with
    | nil =>
        simp only [nodeSwap, predecessor, rightmost, isAdjacent, if_true,
          Option.some.injEq, node.injEq] at h
        obtain ⟨h1, -, -, -, h5⟩ := h
        subst h1 h5
        simp only [size]; omega
    | node rl1 rk1 rv1 rb1 rr1 =>
        cases hr : rightmost (node rl1 rk1 rv1 rb1 rr1) with
        | nil => simp [nodeSwap, predecessor, rightmost, hr] at h
        | node pl pk pv pb temp =>
            simp only [nodeSwap, predecessor, rightmost, hr, isAdjacent,
              Bool.false_eq_true, if_false, Option.some.injEq, node.injEq] at h
            obtain ⟨h1, -, -, -, h5⟩ := h
            subst h1 h5
            simp only [size] at hl ⊢; omega

/-- `AVLTree::remove(key)`: the new `root_` (its parent link is cleared). -/
def remove (root_ : AVLNode K V) (key : K) : Option (AVLNode K V) :=
  (removeHelper root_ key).map RemoveResult.root

end AVLTree

namespace BinarySearchTree

variable {K V : Type} [LinearOrder K]

/-- `BinarySearchTree::empty()`: `root_ == nullptr`. -/
def empty : AVLNode K V → Bool
  | nil => true
  | node _ _ _ _ _ => false

/-- `BinarySearchTree::internalFind(key)`: the descent loop from `root_`; the result
is the node found (the subtree rooted at it) or `nil` for `nullptr`. -/
def internalFind : AVLNode K V → K → AVLNode K V
  | nil, _ => nil
  | node l k v b r, key =>
      if key < k then internalFind l key
      else if k < key then internalFind r key
      else node l k v b r

/-- `BinarySearchTree::find(key)`: `iterator(internalFind(key))`; an iterator is its
`current_` pointer and `end()` is `iterator(nullptr)`, that is `nil`. -/
def find (root_ : AVLNode K V) (key : K) : AVLNode K V := internalFind root_ key

/-- `BinarySearchTree::isBalancedHelper(node)`: `-1` for an unbalanced subtree, else
its height. -/
def isBalancedHelper : AVLNode K V → Int
  | nil => 0
  | node l _ _ _ r =>
      let leftHeight := isBalancedHelper l
      if leftHeight = -1 then -1
      else
        let rightHeight := isBalancedHelper r
        if rightHeight = -1 then -1
        else if |leftHeight - rightHeight| > 1 then -1
        else max leftHeight rightHeight + 1

/-- `BinarySearchTree::isBalanced()`. -/
def isBalanced (root_ : AVLNode K V) : Bool := decide (isBalancedHelper root_ ≠ -1)

end BinarySearchTree

/-! ## The core invariants of the specification -/

section Invariants

variable {K V : Type} [LinearOrder K]

/-- Invariant 1, binary-search-tree ordering: at every node all keys of the left
subtree are smaller than its key and all keys of the right subtree are larger. -/
def BSTOrdered : AVLNode K V → Prop
  | nil => True
  | node l k _ _ r =>
      BSTOrdered l ∧ BSTOrdered r ∧ (∀ x ∈ keys l, x < k) ∧ (∀ x ∈ keys r, k < x)

/-- Invariant 2, height balance: at every node the stored balance factor equals
`height(left) - height(right)` and is one of `-1`, `0`, `1`. -/
def HeightBalanced : AVLNode K V → Prop
  | nil => True
  | node l _ _ b r =>
      HeightBalanced l ∧ HeightBalanced r ∧
        b = (AVLTree.calcHeight l : Int) - (AVLTree.calcHeight r : Int) ∧
        (b = -1 ∨ b = 0 ∨ b = 1)

/-- The shape condition that `isBalanced()` re-verifies: at every node the heights of
the left and the right subtree differ by at most 1 (stored balance factors are not
looked at). -/
def HeightsDifferAtMostOne : AVLNode K V → Prop
  | nil => True
  | node l _ _ _ r =>
      HeightsDifferAtMostOne l ∧ HeightsDifferAtMostOne r ∧
        AVLTree.calcHeight l ≤ AVLTree.calcHeight r + 1 ∧
        AVLTree.calcHeight r ≤ AVLTree.calcHeight l + 1

/-- Invariant 4, uniqueness: no two nodes share a key. -/
def KeysUnique (t : AVLNode K V) : Prop := (keys t).Nodup

/-- The three core invariants that do not concern the parent links. -/
def CoreInvariants (t : AVLNode K V) : Prop :=
  BSTOrdered t ∧ KeysUnique t ∧ HeightBalanced t

/-- Decision procedure for `BSTOrdered`. -/
instance decBSTOrdered : (t : AVLNode K V) → Decidable (BSTOrdered t)
  | nil => isTrue trivial
  | node l k _ _ r =>
      have := decBSTOrdered l
      have := decBSTOrdered r
      inferInstanceAs (Decidable
        (BSTOrdered l ∧ BSTOrdered r ∧ (∀ x ∈ keys l, x < k) ∧ (∀ x ∈ keys r, k < x)))

/-- Decision procedure for `HeightBalanced`. -/
instance decHeightBalanced : (t : AVLNode K V) → Decidable (HeightBalanced t)
  | nil => isTrue trivial
  | node l _ _ b r =>
      have := decHeightBalanced l
      have := decHeightBalanced r
      inferInstanceAs (Decidable
        (HeightBalanced l ∧ HeightBalanced r ∧
          b = (AVLTree.calcHeight l : Int) - (AVLTree.calcHeight r : Int) ∧
          (b = -1 ∨ b = 0 ∨ b = 1)))

/-- Decision procedure for `HeightsDifferAtMostOne`. -/
instance decHeightsDifferAtMostOne : (t : AVLNode K V) → Decidable (HeightsDifferAtMostOne t)
  | nil => isTrue trivial
  | node l _ _ _ r =>
      have := decHeightsDifferAtMostOne l
      have := decHeightsDifferAtMostOne r
      inferInstanceAs (Decidable
        (HeightsDifferAtMostOne l ∧ HeightsDifferAtMostOne r ∧
          AVLTree.calcHeight l ≤ AVLTree.calcHeight r + 1 ∧
          AVLTree.calcHeight r ≤ AVLTree.calcHeight l + 1))

instance decKeysUnique (t : AVLNode K V) : Decidable (KeysUnique t) :=
  inferInstanceAs (Decidable (keys t).Nodup)

instance decCoreInvariants (t : AVLNode K V) : Decidable (CoreInvariants t) :=
  inferInstanceAs (Decidable (BSTOrdered t ∧ KeysUnique t ∧ HeightBalanced t))

end Invariants



/-! ## Specification-level notions used to state the properties -/

section SpecNotions

variable {K V : Type} [LinearOrder K]

/-- Ordered insertion of `(k, v)` into an association list sorted by key: the entry
with key `k` is replaced when there is one. -/
def upsertList (k : K) (v : V) : List (K × V) → List (K × V)
  | [] => [(k, v)]
  | (a, b) :: xs =>
      if k < a then (k, v) :: (a, b) :: xs
      else if a < k then (a, b) :: upsertList k v xs
      else (k, v) :: xs

/-- Removal of the entries with key `k` from an association list. -/
def eraseList (k : K) (xs : List (K × V)) : List (K × V) :=
  xs.filter (fun p => decide (p.1 ≠ k))

/-- The tree `t` with the value `v` stored at every node whose key is `k`; shape, keys
and balance factors are those of `t`. -/
def withValue (k : K) (v : V) : AVLNode K V → AVLNode K V
  | nil => nil
  | node l a w b r => node (withValue k v l) a (if a = k then v else w) b (withValue k v r)

/-- The pointer `s` designates a node of the tree `t` (`s` is the subtree rooted at that
node). -/
def IsNodeOf (s : AVLNode K V) : AVLNode K V → Prop
  | nil => False
  | node l k v b r => s = node l k v b r ∨ IsNodeOf s l ∨ IsNodeOf s r

/-- A public mutation of the tree. -/
inductive Op (K V : Type) where
  | insert (k : K) (v : V) : Op K V
  | remove (k : K) : Op K V
  deriving DecidableEq

/-- One public mutation applied to the tree with root `t`. -/
def applyOp (t : AVLNode K V) : Op K V → Option (AVLNode K V)
  | Op.insert k v => AVLTree.insert t (k, v)
  | Op.remove k => AVLTree.remove t k

/-- A finite sequence of mutations applied in order, starting from `t`. -/
def runOps : AVLNode K V → List (Op K V) → Option (AVLNode K V)
  | t, [] => some t
  | t, op :: ops => (applyOp t op).bind fun t1 => runOps t1 ops

/-- The key `k` was inserted by the sequence and not subsequently removed: some
operation of the sequence inserts `k` and no later one removes it. -/
def InsertedNotRemoved (ops : List (Op K V)) (k : K) : Prop :=
  ∃ pre post v, ops = pre ++ Op.insert k v :: post ∧ Op.remove k ∉ post

/-- Following the words of the specification, the interchange of the tree positions of
a node `n1` (the root of the given subtree) and its in-order predecessor `n2` (the
rightmost node of its left subtree): `n2` stands where `n1` stood, `n1` stands where
`n2` stood, every other node keeps its place, and the balance factors are exchanged.
Every position thus keeps its children and its balance factor, and the items of the
two positions are exchanged. -/
def interchangeWithPredecessor : AVLNode K V → AVLNode K V
  | nil => nil
  | node l k v b r =>
      match AVLTree.rightmost l with
      | nil => node l k v b r
      | node _ pk pv _ _ => node (AVLTree.placeAtRightmost k v l) pk pv b r

end SpecNotions

/-! ## The equal-leaf-depth check (equal-paths.cpp) -/

namespace EqualPaths

/-- Modelled from the spec: the `Node` struct of `equal-paths.h`, which is not among
the sources, is the node of a plain binary tree; `checkPaths` and `equalPaths` only read
its `left` and `right` links.  `null` is `nullptr`. -/
inductive Node where
  | null : Node
  | branch (left : Node) (key : Int) (right : Node) : Node
  deriving DecidableEq

open Node

/-- `checkPaths(node, depth)`: the depth of the leaves of the subtree if uniform, or
`-1`.  The C++ `int` depth is an unbounded integer here. -/
def checkPaths : Node → Int → Int
  | null, depth => depth
  | branch l _ r, depth =>
      if l = null ∧ r = null then depth
      else
        let leftDepth := if l ≠ null then checkPaths l (depth + 1) else -1
        if l ≠ null ∧ leftDepth = -1 then -1
        else
          let rightDepth := if r ≠ null then checkPaths r (depth + 1) else -1
          if r ≠ null ∧ rightDepth = -1 then -1
          else if l ≠ null ∧ r ≠ null then
            if leftDepth ≠ rightDepth then -1 else leftDepth
          else if l ≠ null then leftDepth else rightDepth

/-- `equalPaths(root)`. -/
def equalPaths (root : Node) : Bool :=
  if root = null then true else decide (checkPaths root 0 ≠ -1)

/-- The depths of the leaves of a tree whose root lies at depth `depth`, from left to
right. -/
def leafDepths : Node → Int → List Int
  | null, _ => []
  | branch l _ r, depth =>
      if l = null ∧ r = null then [depth]
      else leafDepths l (depth + 1) ++ leafDepths r (depth + 1)

/-- All leaves lie at the same depth. -/
def AllSame (L : List Int) : Prop := ∀ x ∈ L, ∀ y ∈ L, x = y

end EqualPaths

/-! ## The pointer-level model: node objects with addresses and parent links

The functions of `avlbst.h` once more, on trees whose nodes carry the address of the node
object and the content of its `parent_` field, so that every `setParent` call of the
source is visible.  A pointer to a node is the address of the node; the pointer graph is
still tree-shaped: the child links are the positions in the tree.  Where the source
reaches a node through a parent link (the base-class `nodeSwap`), the model uses the
position, which is the same node when the links are consistent on entry. -/

/-- A node object with its address, the content of its `parent_` field (`none` for
`nullptr`), and its left subtree, key, value, balance factor and right subtree. -/
inductive LinkedNode (K V : Type) where
  | null : LinkedNode K V
  | cell (addr : Nat) (parent : Option Nat) (left : LinkedNode K V) (key : K) (value : V)
      (balance : Int) (right : LinkedNode K V) : LinkedNode K V
  deriving DecidableEq

namespace LinkedNode

variable {K V : Type}

/-- The tree without addresses and parent links. -/
def erase : LinkedNode K V → AVLNode K V
  | null => AVLNode.nil
  | cell _ _ l k v b r => AVLNode.node (erase l) k v b (erase r)

/-- Number of nodes. -/
def size : LinkedNode K V → Nat
  | null => 0
  | cell _ _ l _ _ _ r => size l + 1 + size r

/-- `n->setParent(p)` guarded by `n != nullptr`. -/
def setParent : LinkedNode K V → Option Nat → LinkedNode K V
  | null, _ => null
  | cell a _ l k v b r, p => cell a p l k v b r

/-- The addresses of the node objects of the tree. -/
def addresses : LinkedNode K V → Multiset Nat
  | null => 0
  | cell a _ l _ _ _ r => a ::ₘ (addresses l + addresses r)

/-- `AVLTree::calcHeight` (it reads child links only). -/
def calcHeight (t : LinkedNode K V) : Nat := AVLTree.calcHeight (erase t)

end LinkedNode

namespace Linked

open LinkedNode

variable {K V : Type}

/-- `AVLTree::rotateRight(root)` with its `setParent` calls. -/
def rotateRight : LinkedNode K V → Option (LinkedNode K V)
  | cell a p (cell la _ ll lk lv _ lr) k v _ r =>
      let root := cell a (some la) (setParent lr (some a)) k v
        (wrap8 ((calcHeight lr : Int) - (calcHeight r : Int))) r
      some (cell la p ll lk lv (wrap8 ((calcHeight ll : Int) - (calcHeight root : Int))) root)
  | _ => none

/-- `AVLTree::rotateLeft(root)` with its `setParent` calls. -/
def rotateLeft : LinkedNode K V → Option (LinkedNode K V)
  | cell a p l k v _ (cell ra _ rl rk rv _ rr) =>
      let root := cell a (some ra) l k v
        (wrap8 ((calcHeight l : Int) - (calcHeight rl : Int))) (setParent rl (some a))
      some (cell ra p root rk rv (wrap8 ((calcHeight root : Int) - (calcHeight rr : Int))) rr)
  | _ => none

/-- `AVLTree::balanceLeft(root)` with its `setParent` call. -/
def balanceLeft : LinkedNode K V → Option (LinkedNode K V)
  | cell a p (cell la lp ll lk lv lb lr) k v b r =>
      if lb ≥ 0 then rotateRight (cell a p (cell la lp ll lk lv lb lr) k v b r)
      else
        match rotateLeft (cell la lp ll lk lv lb lr) with
        | some l1 => rotateRight (cell a p (setParent l1 (some a)) k v b r)
        | none => none
  | _ => none

/-- `AVLTree::balanceRight(root)` with its `setParent` call. -/
def balanceRight : LinkedNode K V → Option (LinkedNode K V)
  | cell a p l k v b (cell ra rp rl rk rv rb rr) =>
      if rb ≤ 0 then rotateLeft (cell a p l k v b (cell ra rp rl rk rv rb rr))
      else
        match rotateRight (cell ra rp rl rk rv rb rr) with
        | some r1 => rotateLeft (cell a p l k v b (setParent r1 (some a)))
        | none => none
  | _ => none

/-- Result of `insertHelper` on linked nodes. -/
structure InsertResult (K V : Type) where
  root : LinkedNode K V
  taller : Bool
  rebalances : Nat
  deriving DecidableEq

/-- Result of `removeHelper` on linked nodes. -/
structure RemoveResult (K V : Type) where
  root : LinkedNode K V
  shorter : Bool
  success : Bool
  rebalances : Nat
  deriving DecidableEq

/-- The result of `insertHelper` without addresses and parent links. -/
def InsertResult.erase (res : InsertResult K V) : AVLTree.InsertResult K V :=
  ⟨LinkedNode.erase res.root, res.taller, res.rebalances⟩

/-- The result of `removeHelper` without addresses and parent links. -/
def RemoveResult.erase (res : RemoveResult K V) : AVLTree.RemoveResult K V :=
  ⟨LinkedNode.erase res.root, res.shorter, res.success, res.rebalances⟩

/-- The loop of `BinarySearchTree::predecessor` on linked nodes. -/
def rightmost : LinkedNode K V → LinkedNode K V
  | null => null
  | cell a p l k v b r =>
      match r with
      | null => cell a p l k v b null
      | cell ra rp rl rk rv rb rr => rightmost (cell ra rp rl rk rv rb rr)

/-- `BinarySearchTree::predecessor(current)` for a cell with a left child. -/
def predecessor : LinkedNode K V → LinkedNode K V
  | null => null
  | cell _ _ l _ _ _ _ =>
      match l with
      | null => null
      | cell la lp ll lk lv lb lr => rightmost (cell la lp ll lk lv lb lr)

/-- The pointer comparison `root->getLeft() == pred` for `pred = predecessor(root)`. -/
def isAdjacent : LinkedNode K V → Bool
  | cell _ _ (cell _ _ _ _ _ _ null) _ _ _ _ => true
  | _ => false

/-- The subtree after the base-class `nodeSwap` has put the node object `n1` (address
`a1`, item `(k, v)`) at the place of the rightmost node `n2`: `n1` has the former parent
link, balance factor and children of `n2`, and the parent links of these children are
set to `n1`. -/
def placeAtRightmost (a1 : Nat) (k : K) (v : V) : LinkedNode K V → LinkedNode K V
  | null => null
  | cell a p l k0 v0 b0 r =>
      match r with
      | null => cell a1 p (setParent l (some a1)) k v b0 null
      | cell ra rp rl rk rv rb rr =>
          cell a p l k0 v0 b0 (placeAtRightmost a1 k v (cell ra rp rl rk rv rb rr))

/-- `AVLTree::nodeSwap(n1, n2)` for `n2 = predecessor(n1)`, with its `setParent` calls;
the result is the subtree that stands where `n1` stood. -/
def nodeSwap (n1 n2 : LinkedNode K V) : Option (LinkedNode K V) :=
  match n1, n2 with
  | cell a1 p1 l k v b r, cell a2 _ pl pk pv pb temp =>
      if isAdjacent (cell a1 p1 l k v b r) then
        some (cell a2 p1 pl pk pv b (cell a1 (some a2) (setParent temp (some a1)) k v pb r))
      else
        some (cell a2 p1 (setParent (placeAtRightmost a1 k v l) (some a2)) pk pv b
          (setParent r (some a2)))
  | _, _ => none

/-- The common tail of `removeHelper` on linked nodes. -/
def recomputeBalance (root : LinkedNode K V) (success : Bool) (n : Nat) :
    Option (RemoveResult K V) :=
  match root with
  | null => none
  | cell a p l k v _ r =>
      let bal := wrap8 ((calcHeight l : Int) - (calcHeight r : Int))
      if bal = 2 then
        match balanceLeft (cell a p l k v bal r) with
        | none => none
        | some t => some ⟨t, false, success, n + 1⟩
      else if bal = -2 then
        match balanceRight (cell a p l k v bal r) with
        | none => none
        | some t => some ⟨t, false, success, n + 1⟩
      else some ⟨cell a p l k v bal r, decide (bal = 0), success, n⟩

variable [LinearOrder K]

/-- `AVLTree::insertHelper(root, new_item, taller)` with its `setParent` calls; `fresh`
is the address of the node object that `new` returns. -/
def insertHelper : LinkedNode K V → K → V → Nat → Option (InsertResult K V)
  | null, k, v, fresh => some ⟨cell fresh none null k v 0 null, true, 0⟩
  | cell a p l key value b r, k, v, fresh =>
      if k < key then
        match insertHelper l k v fresh with
        | none => none
        | some res =>
            if res.taller then
              let b1 := wrap8 (b + 1)
              if b1 = 0 then
                some ⟨cell a p (setParent res.root (some a)) key value b1 r, false,
                  res.rebalances⟩
              else if b1 = 2 then
                match balanceLeft (cell a p (setParent res.root (some a)) key value b1 r) with
                | none => none
                | some t => some ⟨t, false, res.rebalances + 1⟩
              else
                some ⟨cell a p (setParent res.root (some a)) key value b1 r, true,
                  res.rebalances⟩
            else
              some ⟨cell a p (setParent res.root (some a)) key value b r, false,
                res.rebalances⟩
      else if k > key then
        match insertHelper r k v fresh with
        | none => none
        | some res =>
            if res.taller then
              let b1 := wrap8 (b + -1)
              if b1 = 0 then
                some ⟨cell a p l key value b1 (setParent res.root (some a)), false,
                  res.rebalances⟩
              else if b1 = -2 then
                match balanceRight (cell a p l key value b1 (setParent res.root (some a))) with
                | none => none
                | some t => some ⟨t, false, res.rebalances + 1⟩
              else
                some ⟨cell a p l key value b1 (setParent res.root (some a)), true,
                  res.rebalances⟩
            else
              some ⟨cell a p l key value b (setParent res.root (some a)), false,
                res.rebalances⟩
      else some ⟨cell a p l key v b r, false, 0⟩

/-- `AVLTree::insert(new_item)`: the new root, with its parent link cleared. -/
def insert (root_ : LinkedNode K V) (new_item : K × V) (fresh : Nat) :
    Option (LinkedNode K V) :=
  (insertHelper root_ new_item.1 new_item.2 fresh).map fun res => setParent res.root none

/-- `AVLTree::removeHelper(root, key, shorter, success)` with its `setParent` calls. -/
def removeHelper : LinkedNode K V → K → Option (RemoveResult K V)
  | null, _ => some ⟨null, false, false, 0⟩
  | cell a p l k v b r, key =>
      if key < k then
        (removeHelper l key).bind fun res =>
          recomputeBalance
            (cell a p (setParent res.root (some a)) k v
              (if res.shorter then wrap8 (b + -1) else b) r)
            res.success res.rebalances
      else if key > k then
        (removeHelper r key).bind fun res =>
          recomputeBalance
            (cell a p l k v (if res.shorter then wrap8 (b + 1) else b)
              (setParent res.root (some a)))
            res.success res.rebalances
      else
        match l, r with
        | null, r => some ⟨r, true, true, 0⟩
        | cell la lp ll lk lv lb lr, null => some ⟨cell la lp ll lk lv lb lr, true, true, 0⟩
        | cell la lp ll lk lv lb lr, cell ra rp rl rk rv rb rr =>
            match h : nodeSwap (cell a p (cell la lp ll lk lv lb lr) k v b (cell ra rp rl rk rv rb rr))
                (predecessor
                  (cell a p (cell la lp ll lk lv lb lr) k v b (cell ra rp rl rk rv rb rr))) with
            | none => none
            | some null => none
            | some (cell sa sp sl sk sv sb sr) =>
                if isAdjacent
                    (cell a p (cell la lp ll lk lv lb lr) k v b (cell ra rp rl rk rv rb rr)) then
                  (removeHelper sr key).bind fun res =>
                    recomputeBalance
                      (cell sa sp (setParent sl (some sa)) sk sv sb (setParent res.root (some sa)))
                      res.success res.rebalances
                else
                  (removeHelper sl key).bind fun res =>
                    recomputeBalance
                      (cell sa sp (setParent res.root (some sa)) sk sv sb (setParent sr (some sa)))
                      res.success res.rebalances
termination_by t => LinkedNode.size t
decreasing_by
  all_goals simp_wf
  · simp only [LinkedNode.size]; omega
  · simp only [LinkedNode.size]; omega
  all_goals
    have hsp : ∀ (t : LinkedNode K V) (q : Option Nat), LinkedNode.size (setParent t q) = LinkedNode.size t := by
      intro t q; cases t <;> rfl
    have hp : ∀ t : LinkedNode K V, LinkedNode.size (placeAtRightmost a k v t) = LinkedNode.size t := by
      intro t
      induction t with
      | null => rfl
      | cell a0 p0 l0 k0 v0 b0 r0 _ ihr =>
          cases r0 with
          | null => simp [placeAtRightmost, LinkedNode.size, hsp]
          | cell _ _ _ _ _ _ _ => simp only [placeAtRightmost, LinkedNode.size] at ihr ⊢; omega
    have hl := hp (cell la lp ll lk lv lb lr)
    cases lr with
    | null =>
        simp only [nodeSwap, predecessor, rightmost, isAdjacent, if_true,
          Option.some.injEq, cell.injEq] at h
        obtain ⟨-, -, h1, -, -, -, h5⟩ := h
        subst h1 h5
        simp only [LinkedNode.size, hsp]; omega
    | cell ra1 rp1 rl1 rk1 rv1 rb1 rr1 =>
        cases hr : rightmost (cell ra1 rp1 rl1 rk1 rv1 rb1 rr1) with
        | null => simp [nodeSwap, predecessor, rightmost, hr] at h
        | cell pa pp pl pk pv pb temp =>
            simp only [nodeSwap, predecessor, rightmost, hr, isAdjacent,
              Bool.false_eq_true, if_false, Option.some.injEq, cell.injEq] at h
            obtain ⟨-, -, h1, -, -, -, h5⟩ := h
            subst h1 h5
            simp only [LinkedNode.size, hsp] at hl ⊢; omega

/-- `AVLTree::remove(key)`: the new root, with its parent link cleared. -/
def remove (root_ : LinkedNode K V) (key : K) : Option (LinkedNode K V) :=
  (removeHelper root_ key).map fun res => setParent res.root none

/-- The parent link of the root of `c` designates the cell at address `a` (nothing to
check for `nullptr`). -/
def ChildLinked (a : Nat) : LinkedNode K V → Prop
  | null => True
  | cell _ p _ _ _ _ _ => p = some a

/-- Below the root, every cell that is the left or right child of a cell `p` has `p` in
its parent link. -/
def ParentsBelow : LinkedNode K V → Prop
  | null => True
  | cell a _ l _ _ _ r => ChildLinked a l ∧ ChildLinked a r ∧ ParentsBelow l ∧ ParentsBelow r

/-- The parent link of the tree root is `nullptr`. -/
def RootUnlinked : LinkedNode K V → Prop
  | null => True
  | cell _ p _ _ _ _ _ => p = none

/-- Invariant 3, parent/child back-reference consistency: node objects are distinct,
every non-root cell has in its parent link the cell of which it is the left or the right
child, and the root has no parent. -/
def LinksConsistent (t : LinkedNode K V) : Prop :=
  (addresses t).Nodup ∧ ParentsBelow t ∧ RootUnlinked t

/-- Decision procedure for `ChildLinked`. -/
instance decChildLinked (a : Nat) : (c : LinkedNode K V) → Decidable (ChildLinked a c)
  | null => isTrue trivial
  | cell _ p _ _ _ _ _ => inferInstanceAs (Decidable (p = some a))

/-- Decision procedure for `ParentsBelow`. -/
instance decParentsBelow : (t : LinkedNode K V) → Decidable (ParentsBelow t)
  | null => isTrue trivial
  | cell a _ l _ _ _ r =>
      have := decParentsBelow l
      have := decParentsBelow r
      inferInstanceAs (Decidable
        (ChildLinked a l ∧ ChildLinked a r ∧ ParentsBelow l ∧ ParentsBelow r))

/-- Decision procedure for `RootUnlinked`. -/
instance decRootUnlinked : (t : LinkedNode K V) → Decidable (RootUnlinked t)
  | null => isTrue trivial
  | cell _ p _ _ _ _ _ => inferInstanceAs (Decidable (p = none))

instance decLinksConsistent (t : LinkedNode K V) : Decidable (LinksConsistent t) :=
  inferInstanceAs (Decidable ((addresses t).Nodup ∧ ParentsBelow t ∧ RootUnlinked t))

end Linked

/-! ## Subscript access, rebalancing-call logs and removal by payload replacement -/

namespace BinarySearchTree

variable {K V : Type} [LinearOrder K]

/-- Exceptions thrown by the container: `std::out_of_range` with its message. -/
inductive Exception where
  | out_of_range (what : String)
  deriving DecidableEq

/-- `BinarySearchTree::operator[](key)`: `curr = internalFind(key)`; a null `curr`
throws `std::out_of_range("Invalid key")`, otherwise the value of `curr` is returned.
The second component is `root_` after the call: no statement of the function writes
to the tree. -/
def operatorSubscript (root_ : AVLNode K V) (key : K) : Except Exception V × AVLNode K V :=
  match internalFind root_ key with
  | nil => (Except.error (Exception.out_of_range "Invalid key"), root_)
  | node _ _ value _ _ => (Except.ok value, root_)

end BinarySearchTree

namespace AVLTree

variable {K V : Type}

/-- The read `leftChild->getBalance()` at the entry of `balanceLeft(root)`: the balance
factor of the heavy (left) child; `none` when `root` or that child is null. -/
def leftChildBalance : AVLNode K V → Option Int
  | node (node _ _ _ lb _) _ _ _ _ => some lb
  | _ => none

/-- The read `rightChild->getBalance()` at the entry of `balanceRight(root)`: the
balance factor of the heavy (right) child; `none` when `root` or that child is null. -/
def rightChildBalance : AVLNode K V → Option Int
  | node _ _ _ _ (node _ _ _ rb _) => some rb
  | _ => none

variable [LinearOrder K]

/-- `AVLTree::insertHelper` with a ghost log: one entry for each call of `balanceLeft`
or `balanceRight`, in call order, holding the balance factor that the call reads from
the heavy child. -/
def insertHelperLog : AVLNode K V → K → V → Option (InsertResult K V × List Int)
  | nil, k, v => some (⟨node nil k v 0 nil, true, 0⟩, [])
  | node l key value b r, k, v =>
      if k < key then
        match insertHelperLog l k v with
        | none => none
        | some (res, log) =>
            if res.taller then
              let b1 := wrap8 (b + 1)
              if b1 = 0 then some (⟨node res.root key value b1 r, false, res.rebalances⟩, log)
              else if b1 = 2 then
                match balanceLeft (node res.root key value b1 r),
                    leftChildBalance (node res.root key value b1 r) with
                | some t, some lb => some (⟨t, false, res.rebalances + 1⟩, log ++ [lb])
                | _, _ => none
              else some (⟨node res.root key value b1 r, true, res.rebalances⟩, log)
            else some (⟨node res.root key value b r, false, res.rebalances⟩, log)
      else if k > key then
        match insertHelperLog r k v with
        | none => none
        | some (res, log) =>
            if res.taller then
              let b1 := wrap8 (b + -1)
              if b1 = 0 then some (⟨node l key value b1 res.root, false, res.rebalances⟩, log)
              else if b1 = -2 then
                match balanceRight (node l key value b1 res.root),
                    rightChildBalance (node l key value b1 res.root) with
                | some t, some rb => some (⟨t, false, res.rebalances + 1⟩, log ++ [rb])
                | _, _ => none
              else some (⟨node l key value b1 res.root, true, res.rebalances⟩, log)
            else some (⟨node l key value b res.root, false, res.rebalances⟩, log)
      else some (⟨node l key v b r, false, 0⟩, [])

/-- The common tail of `removeHelper` with the ghost log of `insertHelperLog`. -/
def recomputeBalanceLog (root : AVLNode K V) (success : Bool) (n : Nat) (log : List Int) :
    Option (RemoveResult K V × List Int) :=
  match root with
  | nil => none
  | node l k v _ r =>
      let bal := wrap8 ((calcHeight l : Int) - (calcHeight r : Int))
      if bal = 2 then
        match balanceLeft (node l k v bal r), leftChildBalance (node l k v bal r) with
        | some t, some lb => some (⟨t, false, success, n + 1⟩, log ++ [lb])
        | _, _ => none
      else if bal = -2 then
        match balanceRight (node l k v bal r), rightChildBalance (node l k v bal r) with
        | some t, some rb => some (⟨t, false, success, n + 1⟩, log ++ [rb])
        | _, _ => none
      else some (⟨node l k v bal r, decide (bal = 0), success, n⟩, log)

/-- `AVLTree::removeHelper` with the ghost log of the `balanceLeft` / `balanceRight`
calls (the balance factor each call reads from the heavy child). -/
def removeHelperLog : AVLNode K V → K → Option (RemoveResult K V × List Int)
  | nil, _ => some (⟨nil, false, false, 0⟩, [])
  | node l k v b r, key =>
      if key < k then
        (removeHelperLog l key).bind fun p =>
          recomputeBalanceLog (node p.1.root k v (if p.1.shorter then wrap8 (b + -1) else b) r)
            p.1.success p.1.rebalances p.2
      else if key > k then
        (removeHelperLog r key).bind fun p =>
          recomputeBalanceLog (node l k v (if p.1.shorter then wrap8 (b + 1) else b) p.1.root)
            p.1.success p.1.rebalances p.2
      else
        match l, r with
        | nil, r => some (⟨r, true, true, 0⟩, [])
        | node ll lk lv lb lr, nil => some (⟨node ll lk lv lb lr, true, true, 0⟩, [])
        | node ll lk lv lb lr, node rl rk rv rb rr =>
            match h : nodeSwap (node (node ll lk lv lb lr) k v b (node rl rk rv rb rr))
                (predecessor (node (node ll lk lv lb lr) k v b (node rl rk rv rb rr))) with
            | none => none
            | some nil => none
            | some (node sl sk sv sb sr) =>
                if isAdjacent (node (node ll lk lv lb lr) k v b (node rl rk rv rb rr)) then
                  (removeHelperLog sr key).bind fun p =>
                    recomputeBalanceLog (node sl sk sv sb p.1.root) p.1.success
                      p.1.rebalances p.2
                else
                  (removeHelperLog sl key).bind fun p =>
                    recomputeBalanceLog (node p.1.root sk sv sb sr) p.1.success
                      p.1.rebalances p.2
termination_by t => size t
decreasing_by
  all_goals simp_wf
  · simp only [size]; omega
  · simp only [size]; omega
  all_goals
    have hp : ∀ t : AVLNode K V, size (placeAtRightmost k v t) = size t := by
      intro t
      induction t with
      | nil => rfl
      | node l0 k0 v0 b0 r0 _ ihr =>
          cases r0 with
          | nil => simp [placeAtRightmost, size]
          | node _ _ _ _ _ => simp only [placeAtRightmost, size] at ihr ⊢; omega
    have hl := hp (node ll lk lv lb lr)
    cases lr with
    | nil =>
        simp only [nodeSwap, predecessor, rightmost, isAdjacent, if_true,
          Option.some.injEq, node.injEq] at h
        obtain ⟨h1, -, -, -, h5⟩ := h
        subst h1 h5
        simp only [size]; omega
    | node rl1 rk1 rv1 rb1 rr1 =>
        cases hr : rightmost (node rl1 rk1 rv1 rb1 rr1) with
        | nil => simp [nodeSwap, predecessor, rightmost, hr] at h
        | node pl pk pv pb temp =>
            simp only [nodeSwap, predecessor, rightmost, hr, isAdjacent,
              Bool.false_eq_true, if_false, Option.some.injEq, node.injEq] at h
            obtain ⟨h1, -, -, -, h5⟩ := h
            subst h1 h5
            simp only [size] at hl ⊢; omega

/-- Removal by payload replacement, the formulation of the specification: the
descent and the one-child cases are those of `removeHelper`; at a two-child target
the key and value of the in-order predecessor are copied into the target node, the
predecessor is then removed from the left subtree of the target by the same procedure,
and the target is unwound by the same recompute-and-rebalance step. -/
def removeHelperByCopy : AVLNode K V → K → Option (RemoveResult K V)
  | nil, _ => some ⟨nil, false, false, 0⟩
  | node l k v b r, key =>
      if key < k then
        (removeHelperByCopy l key).bind fun res =>
          recomputeBalance (node res.root k v (if res.shorter then wrap8 (b + -1) else b) r)
            res.success res.rebalances
      else if key > k then
        (removeHelperByCopy r key).bind fun res =>
          recomputeBalance (node l k v (if res.shorter then wrap8 (b + 1) else b) res.root)
            res.success res.rebalances
      else
        match l, r with
        | nil, r => some ⟨r, true, true, 0⟩
        | node ll lk lv lb lr, nil => some ⟨node ll lk lv lb lr, true, true, 0⟩
        | node ll lk lv lb lr, node rl rk rv rb rr =>
            match predecessor (node (node ll lk lv lb lr) k v b (node rl rk rv rb rr)) with
            | nil => none
            | node _ pk pv _ _ =>
                (removeHelperByCopy (node ll lk lv lb lr) pk).bind fun res =>
                  recomputeBalance (node res.root pk pv b (node rl rk rv rb rr))
                    res.success res.rebalances
termination_by t => size t
decreasing_by
  all_goals simp_wf
  all_goals simp only [size]; omega

/-- The public `remove` in the payload-replacement formulation. -/
def removeByCopy (root_ : AVLNode K V) (key : K) : Option (AVLNode K V) :=
  (removeHelperByCopy root_ key).map RemoveResult.root

/-- The state of `AVLTree::removeHelper(root, key, shorter, success)` on arrival at its
comment "Recompute balance factor from scratch": the node that `root` points to there,
with the child links and the balance factor it has at that moment, the flag `success`,
and the ghost count of rebalancing calls made so far.  `none` when the function has
returned before that point (`root == nullptr`, or the node found has fewer than two
children) or has dereferenced a null pointer. -/
def beforeRecompute : AVLNode K V → K → Option (AVLNode K V × Bool × Nat)
  | nil, _ => none
  | node l k v b r, key =>
      if key < k then
        (removeHelper l key).map fun res =>
          (node res.root k v (if res.shorter then wrap8 (b + -1) else b) r, res.success,
            res.rebalances)
      else if key > k then
        (removeHelper r key).map fun res =>
          (node l k v (if res.shorter then wrap8 (b + 1) else b) res.root, res.success,
            res.rebalances)
      else
        match l, r with
        | nil, _ => none
        | node _ _ _ _ _, nil => none
        | node ll lk lv lb lr, node rl rk rv rb rr =>
            match nodeSwap (node (node ll lk lv lb lr) k v b (node rl rk rv rb rr))
                (predecessor (node (node ll lk lv lb lr) k v b (node rl rk rv rb rr))) with
            | none => none
            | some nil => none
            | some (node sl sk sv sb sr) =>
                if isAdjacent (node (node ll lk lv lb lr) k v b (node rl rk rv rb rr)) then
                  (removeHelper sr key).map fun res =>
                    (node sl sk sv sb res.root, res.success, res.rebalances)
                else
                  (removeHelper sl key).map fun res =>
                    (node res.root sk sv sb sr, res.success, res.rebalances)

end AVLTree

/-! ## Heights, balance factors and rotations -/

section Rotations

variable {K V : Type}

open AVLTree

theorem wrap8_of_small (x : Int) (h1 : -128 ≤ x) (h2 : x ≤ 127) : wrap8 x = x := by
  unfold wrap8; omega

theorem balanceLeft_spec [LinearOrder K] (l r : AVLNode K V) (k : K) (v : V) (b : Int)
    (hl : HeightBalanced l) (hr : HeightBalanced r)
    (hh : calcHeight l = calcHeight r + 2) :
    ∃ t, balanceLeft (node l k v b r) = some t ∧ HeightBalanced t ∧
      inorder t = inorder (node l k v b r) ∧
      calcHeight l ≤ calcHeight t ∧ calcHeight t ≤ calcHeight l + 1 ∧
      (∀ ll lk lv lb lr, l = node ll lk lv lb lr → lb ≠ 0 → calcHeight t = calcHeight l) := by
  cases l with
  | nil => simp [calcHeight] at hh
  | node ll lk lv lb lr =>
      obtain ⟨hll, hlr, hb, hrange⟩ := hl
      by_cases hlb : lb ≥ 0
      · simp only [balanceLeft, if_pos hlb, rotateRight, Option.some.injEq, exists_eq_left']
        refine ⟨?_, ?_, ?_, ?_, ?_⟩
        · simp only [HeightBalanced, calcHeight, wrap8] at *
          refine ⟨hll, ⟨hlr, hr, ?_, ?_⟩, ?_, ?_⟩ <;> omega
        · simp [inorder]
        · simp only [calcHeight] at *; omega
        · simp only [calcHeight] at *; omega
        · intro ll1 lk1 lv1 lb1 lr1 he hne
          simp only [node.injEq] at he
          obtain ⟨rfl, rfl, rfl, rfl, rfl⟩ := he
          simp only [calcHeight] at *; omega
      · cases lr with
        | nil => simp only [calcHeight] at *; omega
        | node lrl lrk lrv lrb lrr =>
            obtain ⟨hlrl, hlrr, hlrb, hlrrange⟩ := hlr
            simp only [balanceLeft, if_neg hlb, rotateRight, rotateLeft, Option.some.injEq,
              exists_eq_left']
            refine ⟨?_, ?_, ?_, ?_, ?_⟩
            · simp only [HeightBalanced, calcHeight, wrap8] at *
              refine ⟨⟨hll, hlrl, ?_, ?_⟩, ⟨hlrr, hr, ?_, ?_⟩, ?_, ?_⟩ <;> omega
            · simp [inorder]
            · simp only [calcHeight] at *; omega
            · simp only [calcHeight] at *; omega
            · intro ll1 lk1 lv1 lb1 lr1 he hne
              simp only [calcHeight] at *; omega

theorem balanceRight_spec [LinearOrder K] (l r : AVLNode K V) (k : K) (v : V) (b : Int)
    (hl : HeightBalanced l) (hr : HeightBalanced r)
    (hh : calcHeight r = calcHeight l + 2) :
    ∃ t, balanceRight (node l k v b r) = some t ∧ HeightBalanced t ∧
      inorder t = inorder (node l k v b r) ∧
      calcHeight r ≤ calcHeight t ∧ calcHeight t ≤ calcHeight r + 1 ∧
      (∀ rl rk rv rb rr, r = node rl rk rv rb rr → rb ≠ 0 → calcHeight t = calcHeight r) := by
  cases r with
  | nil => simp [calcHeight] at hh
  | node rl rk rv rb rr =>
      obtain ⟨hrl, hrr, hb, hrange⟩ := hr
      by_cases hrb : rb ≤ 0
      · simp only [balanceRight, if_pos hrb, rotateLeft, Option.some.injEq, exists_eq_left']
        refine ⟨?_, ?_, ?_, ?_, ?_⟩
        · simp only [HeightBalanced, calcHeight, wrap8] at *
          refine ⟨⟨hl, hrl, ?_, ?_⟩, hrr, ?_, ?_⟩ <;> omega
        · simp [inorder]
        · simp only [calcHeight] at *; omega
        · simp only [calcHeight] at *; omega
        · intro rl1 rk1 rv1 rb1 rr1 he hne
          simp only [node.injEq] at he
          obtain ⟨rfl, rfl, rfl, rfl, rfl⟩ := he
          simp only [calcHeight] at *; omega
      · cases rl with
        | nil => simp only [calcHeight] at *; omega
        | node rll rlk rlv rlb rlr =>
            obtain ⟨hrll, hrlr, hrlb, hrlrange⟩ := hrl
            simp only [balanceRight, if_neg hrb, rotateRight, rotateLeft, Option.some.injEq,
              exists_eq_left']
            refine ⟨?_, ?_, ?_, ?_, ?_⟩
            · simp only [HeightBalanced, calcHeight, wrap8] at *
              refine ⟨⟨hl, hrll, ?_, ?_⟩, ⟨hrlr, hrr, ?_, ?_⟩, ?_, ?_⟩ <;> omega
            · simp [inorder]
            · simp only [calcHeight] at *; omega
            · simp only [calcHeight] at *; omega
            · intro rl1 rk1 rv1 rb1 rr1 he hne
              simp only [calcHeight] at *; omega

theorem rotateRight_inorder (t s : AVLNode K V) (h : rotateRight t = some s) :
    inorder s = inorder t := by
  cases t with
  | nil => simp [rotateRight] at h
  | node l k v b r =>
      cases l with
      | nil => simp [rotateRight] at h
      | node ll lk lv lb lr =>
          simp only [rotateRight, Option.some.injEq] at h
          subst h
          simp [inorder]

theorem rotateLeft_inorder (t s : AVLNode K V) (h : rotateLeft t = some s) :
    inorder s = inorder t := by
  cases t with
  | nil => simp [rotateLeft] at h
  | node l k v b r =>
      cases r with
      | nil => simp [rotateLeft] at h
      | node rl rk rv rb rr =>
          simp only [rotateLeft, Option.some.injEq] at h
          subst h
          simp [inorder]

theorem balanceLeft_inorder (t s : AVLNode K V) (h : balanceLeft t = some s) :
    inorder s = inorder t := by
  cases t with
  | nil => simp [balanceLeft] at h
  | node l k v b r =>
      cases l with
      | nil => simp [balanceLeft] at h
      | node ll lk lv lb lr =>
          simp only [balanceLeft] at h
          split at h
          · exact rotateRight_inorder _ _ h
          · cases hl : rotateLeft (node ll lk lv lb lr) with
            | none => simp [hl] at h
            | some l1 =>
                simp only [hl] at h
                rw [rotateRight_inorder _ _ h]
                simp only [inorder, rotateLeft_inorder _ _ hl]

theorem balanceRight_inorder (t s : AVLNode K V) (h : balanceRight t = some s) :
    inorder s = inorder t := by
  cases t with
  | nil => simp [balanceRight] at h
  | node l k v b r =>
      cases r with
      | nil => simp [balanceRight] at h
      | node rl rk rv rb rr =>
          simp only [balanceRight] at h
          split at h
          · exact rotateLeft_inorder _ _ h
          · cases hr : rotateRight (node rl rk rv rb rr) with
            | none => simp [hr] at h
            | some r1 =>
                simp only [hr] at h
                rw [rotateLeft_inorder _ _ h]
                simp only [inorder, rotateRight_inorder _ _ hr]

theorem heightsDiffer_of_heightBalanced [LinearOrder K] (t : AVLNode K V)
    (h : HeightBalanced t) : HeightsDifferAtMostOne t := by
  induction t with
  | nil => trivial
  | node l k v b r ihl ihr =>
      obtain ⟨hl, hr, hb, hrange⟩ := h
      refine ⟨ihl hl, ihr hr, ?_, ?_⟩ <;> omega

theorem isBalancedHelper_eq [LinearOrder K] (t : AVLNode K V) :
    BinarySearchTree.isBalancedHelper t =
      if HeightsDifferAtMostOne t then (calcHeight t : Int) else -1 := by
  induction t with
  | nil => simp [BinarySearchTree.isBalancedHelper, HeightsDifferAtMostOne, calcHeight]
  | node l k v b r ihl ihr =>
      simp only [BinarySearchTree.isBalancedHelper, HeightsDifferAtMostOne, ihl, ihr]
      by_cases hl : HeightsDifferAtMostOne l
      · by_cases hr : HeightsDifferAtMostOne r
        · have hl1 : ¬ ((calcHeight l : Int) = -1) := by omega
          have hr1 : ¬ ((calcHeight r : Int) = -1) := by omega
          simp only [hl, hr, if_true, true_and, hl1, hr1, if_false]
          by_cases hd : calcHeight l ≤ calcHeight r + 1 ∧ calcHeight r ≤ calcHeight l + 1
          · have habs : ¬ (|(calcHeight l : Int) - (calcHeight r : Int)| > 1) := by
              rw [gt_iff_lt, not_lt, abs_le]; omega
            simp only [habs, if_false, hd, and_self, if_true, calcHeight]
            omega
          · have habs : |(calcHeight l : Int) - (calcHeight r : Int)| > 1 := by
              rw [gt_iff_lt, lt_abs]; omega
            simp only [habs, if_true, hd, if_false]
        · have hl1 : ¬ ((calcHeight l : Int) = -1) := by omega
          simp [hl, hr, hl1]
      · simp [hl]

theorem isBalanced_iff [LinearOrder K] (t : AVLNode K V) :
    BinarySearchTree.isBalanced t = true ↔ HeightsDifferAtMostOne t := by
  simp only [BinarySearchTree.isBalanced, decide_eq_true_eq, isBalancedHelper_eq]
  by_cases h : HeightsDifferAtMostOne t
  · simp only [h, if_true, iff_true]; omega
  · simp [h]

end Rotations

/-! ## Ordered association lists: the abstract content of a search tree -/

section Lists

variable {K V : Type} [LinearOrder K]

theorem bstOrdered_iff_sorted (t : AVLNode K V) :
    BSTOrdered t ↔ (keys t).Pairwise (· < ·) := by
  induction t with
  | nil => simp [BSTOrdered, keys, inorder]
  | node l k v b r ihl ihr =>
      simp only [keys] at ihl ihr
      simp only [BSTOrdered, keys, inorder, List.map_append, List.map_cons,
        List.pairwise_append, List.pairwise_cons, List.mem_cons, ihl, ihr]
      constructor
      · rintro ⟨h1, h2, h3, h4⟩
        refine ⟨h1, ⟨h4, h2⟩, ?_⟩
        intro a ha c hc
        rcases hc with rfl | hc
        · exact h3 a ha
        · exact lt_trans (h3 a ha) (h4 c hc)
      · rintro ⟨h1, ⟨h4, h2⟩, h5⟩
        exact ⟨h1, h2, fun a ha => h5 a ha k (Or.inl rfl), h4⟩

theorem upsertList_append (k : K) (v : V) (L R : List (K × V))
    (hL : ∀ x ∈ L, x.1 < k) : upsertList k v (L ++ R) = L ++ upsertList k v R := by
  induction L with
  | nil => rfl
  | cons x xs ih =>
      obtain ⟨a, b⟩ := x
      have ha : a < k := hL (a, b) (List.mem_cons_self _ _)
      have hxs : ∀ x ∈ xs, x.1 < k := fun x hx => hL x (List.mem_cons_of_mem _ hx)
      simp only [List.cons_append, upsertList, if_neg (not_lt_of_gt ha), if_pos ha]
      exact congrArg _ (ih hxs)

theorem upsertList_append_lt (k : K) (v : V) (L R : List (K × V)) (a : K) (b : V)
    (h : k < a) : upsertList k v (L ++ (a, b) :: R) = upsertList k v L ++ (a, b) :: R := by
  induction L with
  | nil => simp [upsertList, h]
  | cons x xs ih =>
      obtain ⟨c, d⟩ := x
      simp only [List.cons_append, upsertList]
      split_ifs
      · rfl
      · exact congrArg _ ih
      · rfl

theorem mem_keys_upsertList (k : K) (v : V) (L : List (K × V)) (x : K) :
    x ∈ (upsertList k v L).map Prod.fst ↔ x = k ∨ x ∈ L.map Prod.fst := by
  induction L with
  | nil => simp [upsertList]
  | cons p xs ih =>
      obtain ⟨a, b⟩ := p
      simp only [upsertList]
      split_ifs with h1 h2
      · simp
      · simp only [List.map_cons, List.mem_cons, ih]
        tauto
      · have hk : a = k := le_antisymm (not_lt.1 h1) (not_lt.1 h2)
        subst hk
        simp

theorem sorted_upsertList (k : K) (v : V) (L : List (K × V))
    (h : (L.map Prod.fst).Pairwise (· < ·)) :
    ((upsertList k v L).map Prod.fst).Pairwise (· < ·) := by
  induction L with
  | nil => simp [upsertList]
  | cons p xs ih =>
      obtain ⟨a, b⟩ := p
      simp only [List.map_cons, List.pairwise_cons] at h
      obtain ⟨ha, hxs⟩ := h
      simp only [upsertList]
      split_ifs with h1 h2
      · simp only [List.map_cons, List.pairwise_cons, List.mem_cons]
        refine ⟨?_, ha, hxs⟩
        rintro c (rfl | hc)
        · exact h1
        · exact lt_trans h1 (ha c hc)
      · simp only [List.map_cons, List.pairwise_cons]
        refine ⟨?_, ih hxs⟩
        intro c hc
        rcases (mem_keys_upsertList k v xs c).1 hc with rfl | hc
        · exact h2
        · exact ha c hc
      · have hk : a = k := le_antisymm (not_lt.1 h1) (not_lt.1 h2)
        subst hk
        simp only [List.map_cons, List.pairwise_cons]
        exact ⟨ha, hxs⟩

theorem keysUnique_of_bstOrdered (t : AVLNode K V) (h : BSTOrdered t) : KeysUnique t := by
  have hs := (bstOrdered_iff_sorted t).1 h
  exact hs.imp (fun hab => ne_of_lt hab)

end Lists

/-! ## Insertion -/

section Insertion

variable {K V : Type} [LinearOrder K]

open AVLTree

theorem insertHelper_balanced (t : AVLNode K V) (k : K) (v : V) (hb : HeightBalanced t) :
    ∃ res, insertHelper t k v = some res ∧ HeightBalanced res.root ∧
      calcHeight res.root = calcHeight t + (if res.taller = true then 1 else 0) ∧
      (res.taller = true → t ≠ nil → ∀ l a w b r, res.root = node l a w b r → b ≠ 0) := by
  induction t with
  | nil =>
      refine ⟨⟨node nil k v 0 nil, true, 0⟩, rfl, ?_, ?_, ?_⟩
      · simp [HeightBalanced, calcHeight]
      · simp [calcHeight]
      · intro _ h; exact absurd rfl h
  | node l key value b r ihl ihr =>
      obtain ⟨hl, hr, hbeq, hrange⟩ := hb
      by_cases h1 : k < key
      · obtain ⟨res, hres, hbal, hht, hnz⟩ := ihl hl
        simp only [insertHelper, if_pos h1, hres]
        by_cases ht : res.taller = true
        · simp only [ht, if_true] at hht ⊢
          have hw : wrap8 (b + 1) = b + 1 := wrap8_of_small _ (by omega) (by omega)
          rw [hw]
          by_cases hb0 : b + 1 = 0
          · simp only [if_pos hb0, Option.some.injEq, exists_eq_left']
            refine ⟨⟨hbal, hr, ?_, ?_⟩, ?_, ?_⟩
            · simp only [calcHeight] at *; omega
            · omega
            · simp only [calcHeight, Bool.false_eq_true, if_false, if_true] at *
              omega
            · simp
          · by_cases hb2 : b + 1 = 2
            · simp only [if_neg hb0, if_pos hb2]
              have hh : calcHeight res.root = calcHeight r + 2 := by omega
              obtain ⟨t1, ht1, hbal1, -, hlo, hhi, hex⟩ :=
                balanceLeft_spec res.root r key value (b + 1) hbal hr hh
              simp only [ht1, Option.some.injEq, exists_eq_left']
              refine ⟨hbal1, ?_, ?_⟩
              · have hlne : l ≠ nil := by
                  intro h0; subst h0; simp only [calcHeight] at *; omega
                cases hroot : res.root with
                | nil => rw [hroot] at hh; simp only [calcHeight] at hh; omega
                | node rl ra rw rb rr =>
                    have := hex rl ra rw rb rr hroot (hnz ht hlne rl ra rw rb rr hroot)
                    simp only [calcHeight, Bool.false_eq_true, if_false, if_true] at *
                    omega
              · simp
            · simp only [if_neg hb0, if_neg hb2, Option.some.injEq, exists_eq_left']
              refine ⟨⟨hbal, hr, ?_, ?_⟩, ?_, ?_⟩
              · simp only [calcHeight] at *; omega
              · omega
              · simp only [calcHeight, Bool.false_eq_true, if_false, if_true] at *
                omega
              · intro _ _ l1 a1 w1 b1 r1 he
                simp only [node.injEq] at he
                omega
        · simp only [ht, Bool.false_eq_true, if_false, Option.some.injEq, exists_eq_left'] at hht ⊢
          refine ⟨⟨hbal, hr, ?_, hrange⟩, ?_, ?_⟩
          · omega
          · simp only [calcHeight, Bool.false_eq_true, if_false, if_true] at *
            omega
          · simp
      · by_cases h2 : k > key
        · obtain ⟨res, hres, hbal, hht, hnz⟩ := ihr hr
          simp only [insertHelper, if_neg h1, if_pos h2, hres]
          by_cases ht : res.taller = true
          · simp only [ht, if_true] at hht ⊢
            have hw : wrap8 (b + -1) = b + -1 := wrap8_of_small _ (by omega) (by omega)
            rw [hw]
            by_cases hb0 : b + -1 = 0
            · simp only [if_pos hb0, Option.some.injEq, exists_eq_left']
              refine ⟨⟨hl, hbal, ?_, ?_⟩, ?_, ?_⟩
              · simp only [calcHeight] at *; omega
              · omega
              · simp only [calcHeight, Bool.false_eq_true, if_false, if_true] at *
                omega
              · simp
            · by_cases hb2 : b + -1 = -2
              · simp only [if_neg hb0, if_pos hb2]
                have hh : calcHeight res.root = calcHeight l + 2 := by omega
                obtain ⟨t1, ht1, hbal1, -, hlo, hhi, hex⟩ :=
                  balanceRight_spec l res.root key value (b + -1) hl hbal hh
                simp only [ht1, Option.some.injEq, exists_eq_left']
                refine ⟨hbal1, ?_, ?_⟩
                · have hrne : r ≠ nil := by
                    intro h0; subst h0; simp only [calcHeight] at *; omega
                  cases hroot : res.root with
                  | nil => rw [hroot] at hh; simp only [calcHeight] at hh; omega
                  | node rl ra rw rb rr =>
                      have := hex rl ra rw rb rr hroot (hnz ht hrne rl ra rw rb rr hroot)
                      simp only [calcHeight, Bool.false_eq_true, if_false, if_true] at *
                      omega
                · simp
              · simp only [if_neg hb0, if_neg hb2, Option.some.injEq, exists_eq_left']
                refine ⟨⟨hl, hbal, ?_, ?_⟩, ?_, ?_⟩
                · simp only [calcHeight] at *; omega
                · omega
                · simp only [calcHeight, Bool.false_eq_true, if_false, if_true] at *
                  omega
                · intro _ _ l1 a1 w1 b1 r1 he
                  simp only [node.injEq] at he
                  omega
          · simp only [ht, Bool.false_eq_true, if_false, Option.some.injEq,
              exists_eq_left'] at hht ⊢
            refine ⟨⟨hl, hbal, ?_, hrange⟩, ?_, ?_⟩
            · omega
            · simp only [calcHeight, Bool.false_eq_true, if_false, if_true] at *
              omega
            · simp
        · simp only [insertHelper, if_neg h1, if_neg h2, Option.some.injEq, exists_eq_left']
          refine ⟨⟨hl, hr, hbeq, hrange⟩, ?_, ?_⟩
          · simp [calcHeight]
          · simp

/-- Inserting below a search tree: the in-order item sequence of the result is the
ordered insertion into the in-order sequence of the input. -/
theorem insertHelper_inorder (t : AVLNode K V) (k : K) (v : V) (res : InsertResult K V)
    (hbst : BSTOrdered t) (h : insertHelper t k v = some res) :
    inorder res.root = upsertList k v (inorder t) := by
  induction t generalizing res with
  | nil =>
      simp only [insertHelper, Option.some.injEq] at h
      subst h
      rfl
  | node l key value b r ihl ihr =>
      obtain ⟨hl, hr, hlt, hgt⟩ := hbst
      have hltL : ∀ x ∈ inorder l, x.1 < key := fun x hx =>
        hlt x.1 (List.mem_map_of_mem _ hx)
      by_cases h1 : k < key
      · cases hres : insertHelper l k v with
        | none => simp [insertHelper, h1, hres] at h
        | some r1 =>
            have ih := ihl r1 hl hres
            have hkey : inorder res.root = inorder r1.root ++ (key, value) :: inorder r := by
              simp only [insertHelper, if_pos h1, hres] at h
              split_ifs at h
              · simp only [Option.some.injEq] at h; subst h; rfl
              · cases hb : balanceLeft (node r1.root key value (wrap8 (b + 1)) r) with
                | none => simp [hb] at h
                | some t1 =>
                    simp only [hb, Option.some.injEq] at h
                    subst h
                    exact balanceLeft_inorder _ _ hb
              · simp only [Option.some.injEq] at h; subst h; rfl
              · simp only [Option.some.injEq] at h; subst h; rfl
            rw [hkey, ih]
            simp only [inorder]
            rw [upsertList_append_lt k v _ _ key value h1]
      · by_cases h2 : k > key
        · cases hres : insertHelper r k v with
          | none => simp [insertHelper, h1, h2, hres] at h
          | some r1 =>
              have ih := ihr r1 hr hres
              have hkey : inorder res.root = inorder l ++ (key, value) :: inorder r1.root := by
                simp only [insertHelper, if_neg h1, if_pos h2, hres] at h
                split_ifs at h
                · simp only [Option.some.injEq] at h; subst h; rfl
                · cases hb : balanceRight (node l key value (wrap8 (b + -1)) r1.root) with
                  | none => simp [hb] at h
                  | some t1 =>
                      simp only [hb, Option.some.injEq] at h
                      subst h
                      exact balanceRight_inorder _ _ hb
                · simp only [Option.some.injEq] at h; subst h; rfl
                · simp only [Option.some.injEq] at h; subst h; rfl
              rw [hkey, ih]
              simp only [inorder]
              rw [upsertList_append k v _ _ (fun x hx => lt_trans (hltL x hx) h2)]
              simp only [upsertList, if_neg h1, if_pos (show key < k from h2)]
        · simp only [insertHelper, if_neg h1, if_neg h2, Option.some.injEq] at h
          subst h
          have hk : key = k := le_antisymm (not_lt.1 h1) (not_lt.1 h2)
          subst hk
          simp only [inorder]
          rw [upsertList_append key v _ _ hltL]
          simp only [upsertList, if_neg h1]

end Insertion

/-! ## Removal -/

section Removal

variable {K V : Type} [LinearOrder K]

open AVLTree

theorem removeHelper_lt (l r : AVLNode K V) (k key : K) (v : V) (b : Int) (h : key < k) :
    removeHelper (node l k v b r) key =
      (removeHelper l key).bind (fun res =>
        recomputeBalance (node res.root k v (if res.shorter then wrap8 (b + -1) else b) r)
          res.success res.rebalances) := by
  rw [removeHelper.eq_def]
  simp only [if_pos h]

theorem removeHelper_gt (l r : AVLNode K V) (k key : K) (v : V) (b : Int)
    (h1 : ¬ key < k) (h : key > k) :
    removeHelper (node l k v b r) key =
      (removeHelper r key).bind (fun res =>
        recomputeBalance (node l k v (if res.shorter then wrap8 (b + 1) else b) res.root)
          res.success res.rebalances) := by
  rw [removeHelper.eq_def]
  simp only [if_neg h1, if_pos h]

theorem removeHelper_leftNil (r : AVLNode K V) (k key : K) (v : V) (b : Int)
    (h1 : ¬ key < k) (h2 : ¬ key > k) :
    removeHelper (node nil k v b r) key = some ⟨r, true, true, 0⟩ := by
  rw [removeHelper.eq_def]
  simp only [if_neg h1, if_neg h2]

theorem removeHelper_rightNil (l : AVLNode K V) (k key : K) (v : V) (b : Int)
    (h1 : ¬ key < k) (h2 : ¬ key > k) (hl : l ≠ nil) :
    removeHelper (node l k v b nil) key = some ⟨l, true, true, 0⟩ := by
  cases l with
  | nil => exact absurd rfl hl
  | node ll lk lv lb lr =>
      rw [removeHelper.eq_def]
      simp only [if_neg h1, if_neg h2]

theorem removeHelper_adjacent (ll r : AVLNode K V) (k key pk : K) (v pv : V) (b pb : Int)
    (h1 : ¬ key < k) (h2 : ¬ key > k) (hr : r ≠ nil) :
    removeHelper (node (node ll pk pv pb nil) k v b r) key =
      recomputeBalance (node ll pk pv b r) true 0 := by
  cases r with
  | nil => exact absurd rfl hr
  | node rl rk rv rb rr =>
      rw [removeHelper.eq_def]
      simp only [if_neg h1, if_neg h2]
      split
      · rename_i heq
        simp [nodeSwap, predecessor, rightmost, isAdjacent] at heq
      · rename_i heq
        simp [nodeSwap, predecessor, rightmost, isAdjacent] at heq
      · rename_i sl sk sv sb sr heq
        simp only [nodeSwap, predecessor, rightmost, isAdjacent, if_true, Option.some.injEq,
          node.injEq] at heq
        obtain ⟨rfl, rfl, rfl, rfl, rfl⟩ := heq
        simp only [isAdjacent, if_true]
        rw [removeHelper_leftNil _ _ _ _ _ h1 h2]
        rfl

theorem removeHelper_nonadjacent (ll lrl lrr r pl temp : AVLNode K V) (k key lk lrk pk : K)
    (v lv lrv pv : V) (b lb lrb pb : Int)
    (h1 : ¬ key < k) (h2 : ¬ key > k) (hr : r ≠ nil)
    (hp : rightmost (node lrl lrk lrv lrb lrr) = node pl pk pv pb temp) :
    removeHelper (node (node ll lk lv lb (node lrl lrk lrv lrb lrr)) k v b r) key =
      (removeHelper (placeAtRightmost k v (node ll lk lv lb (node lrl lrk lrv lrb lrr))) key).bind
        (fun res => recomputeBalance (node res.root pk pv b r) res.success res.rebalances) := by
  cases r with
  | nil => exact absurd rfl hr
  | node rl rk rv rb rr =>
      rw [removeHelper.eq_def]
      simp only [if_neg h1, if_neg h2]
      split
      · rename_i heq
        simp [nodeSwap, predecessor, rightmost, isAdjacent, hp] at heq
      · rename_i heq
        simp [nodeSwap, predecessor, rightmost, isAdjacent, hp] at heq
      · rename_i sl sk sv sb sr heq
        simp only [nodeSwap, predecessor, rightmost, isAdjacent, hp, Bool.false_eq_true,
          if_false, Option.some.injEq, node.injEq] at heq
        obtain ⟨rfl, rfl, rfl, rfl, rfl⟩ := heq
        simp only [isAdjacent, Bool.false_eq_true, if_false]

theorem recomputeBalance_spec (l r : AVLNode K V) (k : K) (v : V) (b : Int) (s : Bool)
    (n : Nat) (hl : HeightBalanced l) (hr : HeightBalanced r)
    (h1 : calcHeight l ≤ calcHeight r + 2) (h2 : calcHeight r ≤ calcHeight l + 2) :
    ∃ res, recomputeBalance (node l k v b r) s n = some res ∧ HeightBalanced res.root ∧
      inorder res.root = inorder l ++ (k, v) :: inorder r ∧ res.success = s ∧
      calcHeight res.root ≤ 1 + max (calcHeight l) (calcHeight r) ∧
      max (calcHeight l) (calcHeight r) ≤ calcHeight res.root ∧
      (calcHeight l ≤ calcHeight r + 1 → calcHeight r ≤ calcHeight l + 1 →
        res.root = node l k v ((calcHeight l : Int) - (calcHeight r : Int)) r ∧
        res.rebalances = n ∧
        calcHeight res.root = 1 + max (calcHeight l) (calcHeight r)) := by
  have hw : wrap8 ((calcHeight l : Int) - (calcHeight r : Int)) =
      (calcHeight l : Int) - (calcHeight r : Int) := wrap8_of_small _ (by omega) (by omega)
  simp only [recomputeBalance, hw]
  by_cases hb2 : (calcHeight l : Int) - (calcHeight r : Int) = 2
  · obtain ⟨t1, ht1, hbal1, hin, hlo, hhi, -⟩ :=
      balanceLeft_spec l r k v ((calcHeight l : Int) - (calcHeight r : Int)) hl hr (by omega)
    simp only [if_pos hb2, ht1]
    refine ⟨_, rfl, hbal1, hin, rfl, by show calcHeight t1 ≤ _; omega,
      by show _ ≤ calcHeight t1; omega, ?_⟩
    intro h3 h4; omega
  · by_cases hbm2 : (calcHeight l : Int) - (calcHeight r : Int) = -2
    · obtain ⟨t1, ht1, hbal1, hin, hlo, hhi, -⟩ :=
        balanceRight_spec l r k v ((calcHeight l : Int) - (calcHeight r : Int)) hl hr (by omega)
      simp only [if_neg hb2, if_pos hbm2, ht1]
      refine ⟨_, rfl, hbal1, hin, rfl, by show calcHeight t1 ≤ _; omega,
        by show _ ≤ calcHeight t1; omega, ?_⟩
      intro h3 h4; omega
    · simp only [if_neg hb2, if_neg hbm2]
      refine ⟨_, rfl, ⟨hl, hr, rfl, by omega⟩, rfl, rfl, ?_, ?_, ?_⟩
      · show calcHeight (node l k v _ r) ≤ _
        simp only [calcHeight]; omega
      · show _ ≤ calcHeight (node l k v _ r)
        simp only [calcHeight]; omega
      · intro _ _; exact ⟨rfl, rfl, rfl⟩

theorem size_placeAtRightmost (k : K) (v : V) (t : AVLNode K V) :
    size (placeAtRightmost k v t) = size t := by
  induction t with
  | nil => rfl
  | node l k0 v0 b0 r _ ihr =>
      cases r with
      | nil => simp [placeAtRightmost, size]
      | node rl rk rv rb rr => simp only [placeAtRightmost, size] at ihr ⊢; omega

theorem calcHeight_placeAtRightmost (k : K) (v : V) (t : AVLNode K V) :
    calcHeight (placeAtRightmost k v t) = calcHeight t := by
  induction t with
  | nil => rfl
  | node l k0 v0 b0 r _ ihr =>
      cases r with
      | nil => simp [placeAtRightmost, calcHeight]
      | node rl rk rv rb rr => simp only [placeAtRightmost, calcHeight] at ihr ⊢; omega

theorem heightBalanced_placeAtRightmost (k : K) (v : V) (t : AVLNode K V)
    (h : HeightBalanced t) : HeightBalanced (placeAtRightmost k v t) := by
  induction t with
  | nil => trivial
  | node l k0 v0 b0 r _ ihr =>
      cases r with
      | nil => exact h
      | node rl rk rv rb rr =>
          obtain ⟨hl, hr, hb, hrange⟩ := h
          have hc := calcHeight_placeAtRightmost k v (node rl rk rv rb rr)
          simp only [placeAtRightmost] at hc ihr ⊢
          exact ⟨hl, ihr hr, by rw [hc]; exact hb, hrange⟩

theorem rightmost_spec (k : K) (v : V) (t : AVLNode K V) (ht : t ≠ nil) :
    ∃ init pl pk pv pb, rightmost t = node pl pk pv pb nil ∧
      inorder t = init ++ [(pk, pv)] ∧
      inorder (placeAtRightmost k v t) = init ++ [(k, v)] := by
  induction t with
  | nil => exact absurd rfl ht
  | node l k0 v0 b0 r _ ihr =>
      cases r with
      | nil => exact ⟨inorder l, l, k0, v0, b0, rfl, rfl, rfl⟩
      | node rl rk rv rb rr =>
          obtain ⟨init, pl, pk, pv, pb, h1, h2, h3⟩ := ihr (by simp)
          refine ⟨inorder l ++ (k0, v0) :: init, pl, pk, pv, pb, ?_, ?_, ?_⟩
          · simpa only [rightmost] using h1
          · simp only [inorder] at h2 ⊢
            rw [h2]; simp
          · simp only [placeAtRightmost, inorder] at h3 ⊢
            rw [h3]; simp

theorem eraseList_append (k : K) (A B : List (K × V)) :
    eraseList k (A ++ B) = eraseList k A ++ eraseList k B := by
  simp [eraseList]

theorem eraseList_of_ne (k : K) (A : List (K × V)) (h : ∀ x ∈ A, x.1 ≠ k) :
    eraseList k A = A := by
  simp only [eraseList, List.filter_eq_self, decide_eq_true_eq]
  exact h

theorem eraseList_cons_self (k : K) (v : V) (A : List (K × V)) :
    eraseList k ((k, v) :: A) = eraseList k A := by
  simp [eraseList]

theorem removeHelper_spec (n : Nat) : ∀ (t : AVLNode K V), size t ≤ n → BSTOrdered t →
    HeightBalanced t → ∀ key : K, ∃ res, removeHelper t key = some res ∧
      HeightBalanced res.root ∧ inorder res.root = eraseList key (inorder t) ∧
      calcHeight res.root ≤ calcHeight t ∧ calcHeight t ≤ calcHeight res.root + 1 := by
  induction n with
  | zero =>
      intro t hs _ _ key
      cases t with
      | nil => exact ⟨⟨nil, false, false, 0⟩, by rw [removeHelper.eq_def], trivial, rfl,
          le_refl _, Nat.le_succ _⟩
      | node l k v b r => simp only [size] at hs; omega
  | succ n ih =>
      intro t hs hbst hbal key
      cases t with
      | nil => exact ⟨⟨nil, false, false, 0⟩, by rw [removeHelper.eq_def], trivial, rfl,
          le_refl _, Nat.le_succ _⟩
      | node l k v b r =>
          obtain ⟨hbl, hbr, hlt, hgt⟩ := hbst
          obtain ⟨hl, hr, hb, hrange⟩ := hbal
          simp only [size] at hs
          have hltL : ∀ x ∈ inorder l, x.1 < k := fun x hx =>
            hlt x.1 (List.mem_map_of_mem _ hx)
          have hgtR : ∀ x ∈ inorder r, k < x.1 := fun x hx =>
            hgt x.1 (List.mem_map_of_mem _ hx)
          by_cases h1 : key < k
          · obtain ⟨res1, hres1, hbal1, hin1, hle1, hge1⟩ := ih l (by omega) hbl hl key
            obtain ⟨res, hres, hbal2, hin2, -, hle2, hge2, hex2⟩ :=
              recomputeBalance_spec res1.root r k v
                (if res1.shorter then wrap8 (b + -1) else b) res1.success res1.rebalances
                hbal1 hr (by omega) (by omega)
            refine ⟨res, ?_, hbal2, ?_, ?_, ?_⟩
            · rw [removeHelper_lt _ _ _ _ _ _ h1, hres1]; exact hres
            · rw [hin2, hin1]
              simp only [inorder]
              rw [eraseList_append, eraseList_of_ne key ((k, v) :: inorder r)]
              intro x hx
              rcases List.mem_cons.1 hx with rfl | hx
              · exact ne_of_gt h1
              · exact ne_of_gt (lt_trans h1 (hgtR x hx))
            · simp only [calcHeight]; omega
            · simp only [calcHeight]
              by_cases hc : calcHeight res1.root ≤ calcHeight r + 1 ∧
                  calcHeight r ≤ calcHeight res1.root + 1
              · have := (hex2 hc.1 hc.2).2.2; omega
              · omega
          · by_cases h2 : key > k
            · obtain ⟨res1, hres1, hbal1, hin1, hle1, hge1⟩ := ih r (by omega) hbr hr key
              obtain ⟨res, hres, hbal2, hin2, -, hle2, hge2, hex2⟩ :=
                recomputeBalance_spec l res1.root k v
                  (if res1.shorter then wrap8 (b + 1) else b) res1.success res1.rebalances
                  hl hbal1 (by omega) (by omega)
              refine ⟨res, ?_, hbal2, ?_, ?_, ?_⟩
              · rw [removeHelper_gt _ _ _ _ _ _ h1 h2, hres1]; exact hres
              · rw [hin2, hin1]
                simp only [inorder]
                rw [eraseList_append, eraseList_of_ne key (inorder l)]
                · have hk : eraseList key ((k, v) :: inorder r) =
                      (k, v) :: eraseList key (inorder r) := by
                    simp [eraseList, ne_of_lt (show k < key from h2)]
                  rw [hk]
                · intro x hx
                  exact ne_of_lt (lt_trans (hltL x hx) h2)
              · simp only [calcHeight]; omega
              · simp only [calcHeight]
                by_cases hc : calcHeight l ≤ calcHeight res1.root + 1 ∧
                    calcHeight res1.root ≤ calcHeight l + 1
                · have := (hex2 hc.1 hc.2).2.2; omega
                · omega
            · have hk : key = k := le_antisymm (not_lt.1 h2) (not_lt.1 h1)
              subst hk
              have herase : eraseList key (inorder (node l key v b r)) =
                  inorder l ++ inorder r := by
                simp only [inorder]
                rw [eraseList_append, eraseList_cons_self,
                  eraseList_of_ne key (inorder l) (fun x hx => ne_of_lt (hltL x hx)),
                  eraseList_of_ne key (inorder r) (fun x hx => ne_of_gt (hgtR x hx))]
              rw [herase]
              cases l with
              | nil =>
                  refine ⟨_, removeHelper_leftNil r key key v b h1 h2, hr, rfl, ?_, ?_⟩
                  · simp only [calcHeight]; omega
                  · simp only [calcHeight]; omega
              | node ll lk lv lb lr =>
                  cases r with
                  | nil =>
                      refine ⟨_, removeHelper_rightNil _ key key v b h1 h2 (by simp), hl,
                        by simp [inorder], ?_, ?_⟩
                      · simp only [calcHeight]; omega
                      · simp only [calcHeight] at *; omega
                  | node rl rk rv rb rr =>
                      cases lr with
                      | nil =>
                          obtain ⟨hll, -, hlb, hlrange⟩ := hl
                          obtain ⟨res, hres, hbal2, hin2, -, hle2, hge2, hex2⟩ :=
                            recomputeBalance_spec ll (node rl rk rv rb rr) lk lv b true 0 hll hr
                              (by simp only [calcHeight] at *; omega)
                              (by simp only [calcHeight] at *; omega)
                          refine ⟨res, ?_, hbal2, ?_, ?_, ?_⟩
                          · rw [removeHelper_adjacent _ _ _ _ _ _ _ _ _ h1 h2 (by simp)]
                            exact hres
                          · rw [hin2]; simp [inorder]
                          · simp only [calcHeight] at *; omega
                          · by_cases hc : calcHeight ll ≤ calcHeight (node rl rk rv rb rr) + 1 ∧
                                calcHeight (node rl rk rv rb rr) ≤ calcHeight ll + 1
                            · have := (hex2 hc.1 hc.2).2.2
                              simp only [calcHeight] at *; omega
                            · simp only [calcHeight] at *; omega
                      | node lrl lrk lrv lrb lrr =>
                          obtain ⟨init, pl, pk, pv, pb, hp1, hp2, hp3⟩ :=
                            rightmost_spec key v (node ll lk lv lb (node lrl lrk lrv lrb lrr))
                              (by simp)
                          have hp : rightmost (node lrl lrk lrv lrb lrr) = node pl pk pv pb nil := by
                            simpa only [rightmost] using hp1
                          have hinit : ∀ x ∈ init, x.1 < key := fun x hx =>
                            hltL x (by rw [hp2]; exact List.mem_append_left _ hx)
                          have hbst1 : BSTOrdered (placeAtRightmost key v
                              (node ll lk lv lb (node lrl lrk lrv lrb lrr))) := by
                            rw [bstOrdered_iff_sorted] at hbl ⊢
                            simp only [keys, hp2, hp3, List.map_append, List.map_cons,
                              List.map_nil, List.pairwise_append, List.pairwise_cons,
                              List.mem_singleton] at hbl ⊢
                            refine ⟨hbl.1, ⟨by simp, List.Pairwise.nil⟩, ?_⟩
                            intro a ha c hc
                            subst hc
                            obtain ⟨x, hx, rfl⟩ := List.mem_map.1 ha
                            exact hinit x hx
                          have hbal1 := heightBalanced_placeAtRightmost key v _ hl
                          have hsz := size_placeAtRightmost key v
                            (node ll lk lv lb (node lrl lrk lrv lrb lrr))
                          have hht := calcHeight_placeAtRightmost key v
                            (node ll lk lv lb (node lrl lrk lrv lrb lrr))
                          obtain ⟨res1, hres1, hbal1, hin1, hle1, hge1⟩ :=
                            ih _ (by simp only [size] at hsz hs ⊢; omega) hbst1 hbal1 key
                          obtain ⟨res, hres, hbal2, hin2, -, hle2, hge2, hex2⟩ :=
                            recomputeBalance_spec res1.root (node rl rk rv rb rr) pk pv b
                              res1.success res1.rebalances hbal1 hr (by omega) (by omega)
                          refine ⟨res, ?_, hbal2, ?_, ?_, ?_⟩
                          · rw [removeHelper_nonadjacent _ _ _ _ _ _ _ _ _ _ _ _ _ _ _ _ _ _ _
                              h1 h2 (by simp) hp, hres1]
                            exact hres
                          · rw [hin2, hin1, hp3, hp2, eraseList_append, eraseList_cons_self,
                              eraseList_of_ne key init (fun x hx => ne_of_lt (hinit x hx))]
                            simp [eraseList]
                          · simp only [calcHeight] at *; omega
                          · by_cases hc : calcHeight res1.root ≤
                                calcHeight (node rl rk rv rb rr) + 1 ∧
                                calcHeight (node rl rk rv rb rr) ≤ calcHeight res1.root + 1
                            · have := (hex2 hc.1 hc.2).2.2
                              simp only [calcHeight] at *; omega
                            · simp only [calcHeight] at *; omega

end Removal

/-! ## Lookup -/

section Lookup

variable {K V : Type} [LinearOrder K]

open AVLTree BinarySearchTree

theorem find?_none_of_ne (j : K) (L : List (K × V)) (h : ∀ x ∈ L, x.1 ≠ j) :
    L.find? (fun p => decide (p.1 = j)) = none := by
  rw [List.find?_eq_none]
  intro x hx
  simpa using h x hx

theorem internalFind_item (t : AVLNode K V) (j : K) (hbst : BSTOrdered t) :
    item (internalFind t j) = (inorder t).find? (fun p => decide (p.1 = j)) := by
  induction t with
  | nil => rfl
  | node l k v b r ihl ihr =>
      obtain ⟨hl, hr, hlt, hgt⟩ := hbst
      have hltL : ∀ x ∈ inorder l, x.1 < k := fun x hx =>
        hlt x.1 (List.mem_map_of_mem _ hx)
      have hgtR : ∀ x ∈ inorder r, k < x.1 := fun x hx =>
        hgt x.1 (List.mem_map_of_mem _ hx)
      simp only [internalFind, inorder, List.find?_append]
      by_cases h1 : j < k
      · rw [if_pos h1, ihl hl]
        have hnone : ((k, v) :: inorder r).find? (fun p => decide (p.1 = j)) = none := by
          apply find?_none_of_ne
          intro x hx
          rcases List.mem_cons.1 hx with rfl | hx
          · exact ne_of_gt h1
          · exact ne_of_gt (lt_trans h1 (hgtR x hx))
        rw [hnone]
        cases (inorder l).find? (fun p => decide (p.1 = j)) <;> rfl
      · have hnoneL : (inorder l).find? (fun p => decide (p.1 = j)) = none := by
          apply find?_none_of_ne
          intro x hx
          exact ne_of_lt (lt_of_lt_of_le (hltL x hx) (not_lt.1 h1))
        rw [if_neg h1, hnoneL]
        by_cases h2 : k < j
        · rw [if_pos h2, ihr hr]
          simp [List.find?_cons, ne_of_lt h2]
        · rw [if_neg h2]
          have hk : k = j := le_antisymm (not_lt.1 h1) (not_lt.1 h2)
          simp [List.find?_cons, hk, item]

theorem find?_cons_ne (j a : K) (w : V) (L : List (K × V)) (h : a ≠ j) :
    ((a, w) :: L).find? (fun p => decide (p.1 = j)) = L.find? (fun p => decide (p.1 = j)) :=
  List.find?_cons_of_neg _ (by simpa using h)

theorem find?_cons_eq (j : K) (w : V) (L : List (K × V)) :
    ((j, w) :: L).find? (fun p => decide (p.1 = j)) = some (j, w) :=
  List.find?_cons_of_pos _ (by simp)

theorem find?_eraseList_self (k : K) (L : List (K × V)) :
    (eraseList k L).find? (fun p => decide (p.1 = k)) = none := by
  apply find?_none_of_ne
  intro x hx
  simp only [eraseList, List.mem_filter, decide_eq_true_eq] at hx
  exact hx.2

theorem find?_eraseList_ne (k j : K) (L : List (K × V)) (hj : j ≠ k) :
    (eraseList k L).find? (fun p => decide (p.1 = j)) =
      L.find? (fun p => decide (p.1 = j)) := by
  induction L with
  | nil => rfl
  | cons x xs ih =>
      obtain ⟨a, w⟩ := x
      by_cases ha : a = k
      · subst ha
        rw [eraseList_cons_self, ih, find?_cons_ne j a w xs (Ne.symm hj)]
      · have he : eraseList k ((a, w) :: xs) = (a, w) :: eraseList k xs := by
          simp [eraseList, ha]
        rw [he]
        by_cases haj : a = j
        · subst haj
          rw [find?_cons_eq, find?_cons_eq]
        · rw [find?_cons_ne j a w _ haj, find?_cons_ne j a w _ haj, ih]

theorem find?_upsertList_self (k : K) (v : V) (L : List (K × V)) :
    (upsertList k v L).find? (fun p => decide (p.1 = k)) = some (k, v) := by
  induction L with
  | nil => exact find?_cons_eq k v []
  | cons x xs ih =>
      obtain ⟨a, w⟩ := x
      simp only [upsertList]
      split_ifs with h1 h2
      · exact find?_cons_eq k v _
      · rw [find?_cons_ne k a w _ (ne_of_lt h2)]; exact ih
      · exact find?_cons_eq k v _

theorem find?_upsertList_ne (k j : K) (v : V) (L : List (K × V)) (hj : j ≠ k) :
    (upsertList k v L).find? (fun p => decide (p.1 = j)) =
      L.find? (fun p => decide (p.1 = j)) := by
  induction L with
  | nil => exact find?_cons_ne j k v [] (Ne.symm hj)
  | cons x xs ih =>
      obtain ⟨a, w⟩ := x
      simp only [upsertList]
      split_ifs with h1 h2
      · exact find?_cons_ne j k v _ (Ne.symm hj)
      · by_cases haj : a = j
        · subst haj
          rw [find?_cons_eq, find?_cons_eq]
        · rw [find?_cons_ne j a w _ haj, find?_cons_ne j a w _ haj, ih]
      · have hk : a = k := le_antisymm (not_lt.1 h1) (not_lt.1 h2)
        subst hk
        rw [find?_cons_ne j a v _ (Ne.symm hj), find?_cons_ne j a w _ (Ne.symm hj)]

theorem item_eq_none_iff (t : AVLNode K V) : item t = none ↔ t = nil := by
  cases t <;> simp [item]

theorem internalFind_node_or_nil (t : AVLNode K V) (k : K) :
    internalFind t k = nil ∨
      ∃ l v b r, internalFind t k = node l k v b r ∧ IsNodeOf (node l k v b r) t := by
  induction t with
  | nil => exact Or.inl rfl
  | node l a w b r ihl ihr =>
      simp only [internalFind]
      split_ifs with h1 h2
      · rcases ihl with h | ⟨l1, v1, b1, r1, h, hn⟩
        · exact Or.inl h
        · exact Or.inr ⟨l1, v1, b1, r1, h, Or.inr (Or.inl hn)⟩
      · rcases ihr with h | ⟨l1, v1, b1, r1, h, hn⟩
        · exact Or.inl h
        · exact Or.inr ⟨l1, v1, b1, r1, h, Or.inr (Or.inr hn)⟩
      · have hk : a = k := le_antisymm (not_lt.1 h1) (not_lt.1 h2)
        subst hk
        exact Or.inr ⟨l, w, b, r, rfl, Or.inl rfl⟩

theorem internalFind_eq_nil_iff (t : AVLNode K V) (k : K) (hbst : BSTOrdered t) :
    internalFind t k = nil ↔ k ∉ keys t := by
  rw [← item_eq_none_iff, internalFind_item t k hbst, List.find?_eq_none]
  simp only [keys, List.mem_map, not_exists, not_and, decide_eq_true_eq]

end Lookup

/-! ## The public operations -/

section PublicOperations

variable {K V : Type} [LinearOrder K]

open AVLTree BinarySearchTree

theorem coreInvariants_of (t : AVLNode K V) (h1 : BSTOrdered t) (h2 : HeightBalanced t) :
    CoreInvariants t :=
  ⟨h1, keysUnique_of_bstOrdered t h1, h2⟩

theorem insert_spec (t : AVLNode K V) (k : K) (v : V) (h : CoreInvariants t) :
    ∃ t1, AVLTree.insert t (k, v) = some t1 ∧ CoreInvariants t1 ∧
      inorder t1 = upsertList k v (inorder t) := by
  obtain ⟨hbst, -, hbal⟩ := h
  obtain ⟨res, hres, hbal1, -, -⟩ := insertHelper_balanced t k v hbal
  have hin := insertHelper_inorder t k v res hbst hres
  refine ⟨res.root, by simp [AVLTree.insert, hres], coreInvariants_of _ ?_ hbal1, hin⟩
  rw [bstOrdered_iff_sorted] at hbst ⊢
  simp only [keys, hin] at hbst ⊢
  exact sorted_upsertList k v _ hbst

theorem remove_spec (t : AVLNode K V) (key : K) (h : CoreInvariants t) :
    ∃ t1, AVLTree.remove t key = some t1 ∧ CoreInvariants t1 ∧
      inorder t1 = eraseList key (inorder t) := by
  obtain ⟨hbst, -, hbal⟩ := h
  obtain ⟨res, hres, hbal1, hin, -, -⟩ := removeHelper_spec (size t) t (le_refl _) hbst hbal key
  refine ⟨res.root, by simp [AVLTree.remove, hres], coreInvariants_of _ ?_ hbal1, hin⟩
  rw [bstOrdered_iff_sorted] at hbst ⊢
  simp only [keys, hin] at hbst ⊢
  exact hbst.sublist ((List.filter_sublist _).map _)

theorem mem_keys_eraseList (k x : K) (L : List (K × V)) :
    x ∈ (eraseList k L).map Prod.fst ↔ x ≠ k ∧ x ∈ L.map Prod.fst := by
  simp only [eraseList, List.mem_map, List.mem_filter, decide_eq_true_eq]
  constructor
  · rintro ⟨p, ⟨hp, hne⟩, rfl⟩
    exact ⟨hne, p, hp, rfl⟩
  · rintro ⟨hne, p, hp, rfl⟩
    exact ⟨p, ⟨hp, hne⟩, rfl⟩

theorem insertedNotRemoved_cons (op : Op K V) (ops : List (Op K V)) (k : K) :
    InsertedNotRemoved (op :: ops) k ↔
      (∃ v, op = Op.insert k v ∧ Op.remove k ∉ ops) ∨ InsertedNotRemoved ops k := by
  constructor
  · rintro ⟨pre, post, v, heq, hpost⟩
    cases pre with
    | nil =>
        simp only [List.nil_append, List.cons.injEq] at heq
        obtain ⟨rfl, rfl⟩ := heq
        exact Or.inl ⟨v, rfl, hpost⟩
    | cons p pre1 =>
        simp only [List.cons_append, List.cons.injEq] at heq
        obtain ⟨rfl, rfl⟩ := heq
        exact Or.inr ⟨pre1, post, v, rfl, hpost⟩
  · rintro (⟨v, rfl, hpost⟩ | ⟨pre, post, v, rfl, hpost⟩)
    · exact ⟨[], ops, v, rfl, hpost⟩
    · exact ⟨op :: pre, post, v, rfl, hpost⟩

theorem runOps_spec (ops : List (Op K V)) : ∀ (t : AVLNode K V), CoreInvariants t →
    ∃ t1, runOps t ops = some t1 ∧ CoreInvariants t1 ∧
      ∀ k, k ∈ keys t1 ↔ InsertedNotRemoved ops k ∨ (k ∈ keys t ∧ Op.remove k ∉ ops) := by
  induction ops with
  | nil =>
      intro t ht
      refine ⟨t, rfl, ht, fun k => ?_⟩
      constructor
      · intro hk; exact Or.inr ⟨hk, List.not_mem_nil _⟩
      · rintro (⟨pre, post, v, heq, -⟩ | ⟨hk, -⟩)
        · simp at heq
        · exact hk
  | cons op ops ih =>
      intro t ht
      cases op with
      | insert a v =>
          obtain ⟨t1, h1, hinv1, hin1⟩ := insert_spec t a v ht
          obtain ⟨t2, h2, hinv2, hk2⟩ := ih t1 hinv1
          refine ⟨t2, by simp [runOps, applyOp, h1, h2], hinv2, fun k => ?_⟩
          rw [hk2 k, insertedNotRemoved_cons]
          have hmem : k ∈ keys t1 ↔ k = a ∨ k ∈ keys t := by
            simp only [keys, hin1]; exact mem_keys_upsertList a v _ k
          rw [hmem]
          simp only [List.mem_cons, not_or, Op.insert.injEq]
          constructor
          · rintro (h | ⟨rfl | h, hr⟩)
            · exact Or.inl (Or.inr h)
            · exact Or.inl (Or.inl ⟨v, ⟨rfl, rfl⟩, hr⟩)
            · exact Or.inr ⟨h, by simp, hr⟩
          · rintro ((⟨w, ⟨rfl, rfl⟩, hr⟩ | h) | ⟨h, -, hr⟩)
            · exact Or.inr ⟨Or.inl rfl, hr⟩
            · exact Or.inl h
            · exact Or.inr ⟨Or.inr h, hr⟩
      | remove a =>
          obtain ⟨t1, h1, hinv1, hin1⟩ := remove_spec t a ht
          obtain ⟨t2, h2, hinv2, hk2⟩ := ih t1 hinv1
          refine ⟨t2, by simp [runOps, applyOp, h1, h2], hinv2, fun k => ?_⟩
          rw [hk2 k, insertedNotRemoved_cons]
          have hmem : k ∈ keys t1 ↔ k ≠ a ∧ k ∈ keys t := by
            simp only [keys, hin1]; exact mem_keys_eraseList a k _
          rw [hmem]
          simp only [List.mem_cons, not_or, Op.remove.injEq]
          constructor
          · rintro (h | ⟨⟨hne, h⟩, hr⟩)
            · exact Or.inl (Or.inr h)
            · exact Or.inr ⟨h, hne, hr⟩
          · rintro ((⟨w, he, -⟩ | h) | ⟨h, hne, hr⟩)
            · exact absurd he (by simp)
            · exact Or.inl h
            · exact Or.inr ⟨⟨hne, h⟩, hr⟩

theorem withValue_of_not_mem (k : K) (v : V) (t : AVLNode K V) (h : k ∉ keys t) :
    withValue k v t = t := by
  induction t with
  | nil => rfl
  | node l a w b r ihl ihr =>
      simp only [keys, inorder, List.map_append, List.map_cons, List.mem_append,
        List.mem_cons, not_or] at h
      obtain ⟨hl, hak, hr⟩ := h
      simp only [withValue, if_neg (Ne.symm hak)]
      rw [ihl (by simpa [keys] using hl), ihr (by simpa [keys] using hr)]

theorem keys_withValue (k : K) (v : V) (t : AVLNode K V) : keys (withValue k v t) = keys t := by
  induction t with
  | nil => rfl
  | node l a w b r ihl ihr =>
      simp only [keys] at ihl ihr
      simp only [keys, withValue, inorder, List.map_append, List.map_cons, ihl, ihr]

theorem insertHelper_existing (t : AVLNode K V) (k : K) (v : V) (hbst : BSTOrdered t)
    (hk : k ∈ keys t) : insertHelper t k v = some ⟨withValue k v t, false, 0⟩ := by
  induction t with
  | nil => simp [keys, inorder] at hk
  | node l a w b r ihl ihr =>
      obtain ⟨hl, hr, hlt, hgt⟩ := hbst
      have hmem : k ∈ keys l ∨ k = a ∨ k ∈ keys r := by
        simpa [keys, inorder] using hk
      by_cases h1 : k < a
      · have hkl : k ∈ keys l := by
          rcases hmem with h | h | h
          · exact h
          · exact absurd h (ne_of_lt h1)
          · exact absurd (hgt k h) (not_lt_of_gt h1)
        have hkr : k ∉ keys r := fun h => absurd (hgt k h) (not_lt_of_gt h1)
        simp only [insertHelper, if_pos h1, ihl hl hkl, Bool.false_eq_true, if_false,
          withValue, if_neg (Ne.symm (ne_of_lt h1)), withValue_of_not_mem k v r hkr]
      · by_cases h2 : k > a
        · have hkr : k ∈ keys r := by
            rcases hmem with h | h | h
            · exact absurd (hlt k h) (not_lt_of_gt h2)
            · exact absurd h (ne_of_gt h2)
            · exact h
          have hkl : k ∉ keys l := fun h => absurd (hlt k h) (not_lt_of_gt h2)
          simp only [insertHelper, if_neg h1, if_pos h2, ihr hr hkr, Bool.false_eq_true,
            if_false, withValue, if_neg (ne_of_lt (show a < k from h2)),
            withValue_of_not_mem k v l hkl]
        · have hak : a = k := le_antisymm (not_lt.1 h1) (not_lt.1 h2)
          subst hak
          have hkl : a ∉ keys l := fun h => absurd (hlt a h) (lt_irrefl a)
          have hkr : a ∉ keys r := fun h => absurd (hgt a h) (lt_irrefl a)
          simp only [insertHelper, if_neg h1, if_neg h2, withValue, if_true,
            withValue_of_not_mem a v l hkl, withValue_of_not_mem a v r hkr]

theorem removeHelper_absent (t : AVLNode K V) (k : K) (hbal : HeightBalanced t)
    (hk : k ∉ keys t) : ∃ s, removeHelper t k = some ⟨t, s, false, 0⟩ := by
  induction t with
  | nil => exact ⟨false, by rw [removeHelper.eq_def]⟩
  | node l a w b r ihl ihr =>
      obtain ⟨hl, hr, hb, hrange⟩ := hbal
      simp only [keys, inorder, List.map_append, List.map_cons, List.mem_append,
        List.mem_cons, not_or] at hk
      obtain ⟨hkl, hka, hkr⟩ := hk
      by_cases h1 : k < a
      · obtain ⟨s1, hs1⟩ := ihl hl (by simpa [keys] using hkl)
        obtain ⟨res, hres, -, -, hsucc, -, -, hex⟩ :=
          recomputeBalance_spec l r a w (if s1 then wrap8 (b + -1) else b) false 0 hl hr
            (by omega) (by omega)
        obtain ⟨hroot, hreb, -⟩ := hex (by omega) (by omega)
        refine ⟨res.shorter, ?_⟩
        rw [removeHelper_lt _ _ _ _ _ _ h1, hs1]
        simp only [Option.some_bind, hres, Option.some.injEq]
        cases res
        simp only at hroot hreb hsucc
        simp only [hroot, hreb, hsucc, ← hb]
      · have h2 : k > a := lt_of_le_of_ne (not_lt.1 h1) (Ne.symm hka)
        obtain ⟨s1, hs1⟩ := ihr hr (by simpa [keys] using hkr)
        obtain ⟨res, hres, -, -, hsucc, -, -, hex⟩ :=
          recomputeBalance_spec l r a w (if s1 then wrap8 (b + 1) else b) false 0 hl hr
            (by omega) (by omega)
        obtain ⟨hroot, hreb, -⟩ := hex (by omega) (by omega)
        refine ⟨res.shorter, ?_⟩
        rw [removeHelper_gt _ _ _ _ _ _ h1 h2, hs1]
        simp only [Option.some_bind, hres, Option.some.injEq]
        cases res
        simp only at hroot hreb hsucc
        simp only [hroot, hreb, hsucc, ← hb]

theorem fib_le_size_succ (t : AVLNode K V) (h : HeightsDifferAtMostOne t) :
    Nat.fib (calcHeight t + 2) ≤ size t + 1 := by
  induction t with
  | nil => simp [calcHeight, size]
  | node l a w b r ihl ihr =>
      obtain ⟨hl, hr, h1, h2⟩ := h
      have il := ihl hl
      have ir := ihr hr
      simp only [calcHeight, size]
      by_cases hc : calcHeight r ≤ calcHeight l
      · have hm : 1 + max (calcHeight l) (calcHeight r) + 2 = calcHeight l + 1 + 2 := by omega
        rw [hm, Nat.fib_add_two]
        have hmono : Nat.fib (calcHeight l + 1) ≤ Nat.fib (calcHeight r + 2) :=
          Nat.fib_mono (by omega)
        have : Nat.fib (calcHeight l + 1 + 1) = Nat.fib (calcHeight l + 2) := rfl
        omega
      · have hm : 1 + max (calcHeight l) (calcHeight r) + 2 = calcHeight r + 1 + 2 := by omega
        rw [hm, Nat.fib_add_two]
        have hmono : Nat.fib (calcHeight r + 1) ≤ Nat.fib (calcHeight l + 2) :=
          Nat.fib_mono (by omega)
        have : Nat.fib (calcHeight r + 1 + 1) = Nat.fib (calcHeight r + 2) := rfl
        omega

end PublicOperations

/-! ## The properties of the specification -/

section Properties

variable {K V : Type} [LinearOrder K]

open AVLTree BinarySearchTree

/-- C1: `AVLTree::insert` preserves the core invariants.  For every tree satisfying BST
ordering, key uniqueness and height balance (stored balance factor equal to
`height(left) - height(right)` and in `{-1, 0, 1}` at every node) and every key/value
pair, `insert` returns a tree satisfying the same three invariants, and `isBalanced()`
is true of it. -/
theorem insert_preserves_invariants (t : AVLNode K V) (new_item : K × V)
    (h : CoreInvariants t) :
    ∃ t1, AVLTree.insert t new_item = some t1 ∧ CoreInvariants t1 ∧
      BinarySearchTree.isBalanced t1 = true := by
  obtain ⟨t1, h1, h2, -⟩ := insert_spec t new_item.1 new_item.2 h
  exact ⟨t1, h1, h2, (isBalanced_iff t1).2 (heightsDiffer_of_heightBalanced t1 h2.2.2)⟩

/-- Witness for C1: inserting key 0 below the left-heavy tree 2(1) (a rotation). -/
theorem insert_preserves_invariants_witness :
    CoreInvariants (node (node nil 1 10 0 nil) 2 20 1 nil : AVLNode Nat Nat) ∧
    ∃ t1, AVLTree.insert (node (node nil 1 10 0 nil) 2 20 1 nil : AVLNode Nat Nat) (0, 5)
        = some t1 ∧ CoreInvariants t1 ∧ BinarySearchTree.isBalanced t1 = true :=
  ⟨by decide, insert_preserves_invariants _ _ (by decide)⟩

/-- C2: `AVLTree::remove` preserves the core invariants.  For every tree satisfying BST
ordering, key uniqueness and height balance and every key (present or absent, stored
at a leaf, a one-child node or a two-child node), `remove` returns a tree satisfying
the same three invariants. -/
theorem remove_preserves_invariants (t : AVLNode K V) (key : K) (h : CoreInvariants t) :
    ∃ t1, AVLTree.remove t key = some t1 ∧ CoreInvariants t1 := by
  obtain ⟨t1, h1, h2, -⟩ := remove_spec t key h
  exact ⟨t1, h1, h2⟩

/-- Witness for C2: removing the two-child root of the tree 2(1, 3). -/
theorem remove_preserves_invariants_witness :
    CoreInvariants (node (node nil 1 10 0 nil) 2 20 0 (node nil 3 30 0 nil) : AVLNode Nat Nat) ∧
    ∃ t1, AVLTree.remove
        (node (node nil 1 10 0 nil) 2 20 0 (node nil 3 30 0 nil) : AVLNode Nat Nat) 2
        = some t1 ∧ CoreInvariants t1 :=
  ⟨by decide, remove_preserves_invariants _ _ (by decide)⟩

/-- C3: for every finite sequence of `insert` and `remove` operations applied to the
initially empty tree, the operations all return, the in-order traversal of the resulting
tree lists strictly ascending keys, and a key is listed exactly when the sequence
inserted it and did not subsequently remove it. -/
theorem inorder_after_operations (ops : List (Op K V)) :
    ∃ t, runOps (nil : AVLNode K V) ops = some t ∧ (keys t).Sorted (· < ·) ∧
      ∀ k, k ∈ keys t ↔ InsertedNotRemoved ops k := by
  have hnil : CoreInvariants (nil : AVLNode K V) :=
    ⟨trivial, List.nodup_nil, trivial⟩
  obtain ⟨t, h1, hinv, hk⟩ := runOps_spec ops nil hnil
  refine ⟨t, h1, (bstOrdered_iff_sorted t).1 hinv.1, fun k => ?_⟩
  rw [hk k]
  constructor
  · rintro (h | ⟨h, -⟩)
    · exact h
    · simp [keys, inorder] at h
  · exact Or.inl

/-- C4, deletion completeness: for every tree satisfying the core invariants and every
key `k`, `remove(k)` returns a tree in which `find(k)` is the not-found result, and for
every other key `j` `find(j)` designates an item (key and value) exactly when it did
before the removal, and the same one. -/
theorem remove_then_find (t : AVLNode K V) (k : K) (h : CoreInvariants t) :
    ∃ t1, AVLTree.remove t k = some t1 ∧ find t1 k = nil ∧
      ∀ j, j ≠ k → item (find t1 j) = item (find t j) := by
  obtain ⟨t1, h1, hinv, hin⟩ := remove_spec t k h
  refine ⟨t1, h1, ?_, fun j hj => ?_⟩
  · rw [← item_eq_none_iff]
    simp only [find]
    rw [internalFind_item t1 k hinv.1, hin, find?_eraseList_self]
  · simp only [find]
    rw [internalFind_item t1 j hinv.1, internalFind_item t j h.1, hin,
      find?_eraseList_ne k j _ hj]

/-- Witness for C4: removing key 2 from the tree 2(1, 3). -/
theorem remove_then_find_witness :
    CoreInvariants (node (node nil 1 10 0 nil) 2 20 0 (node nil 3 30 0 nil) : AVLNode Nat Nat) ∧
    ∃ t1, AVLTree.remove
        (node (node nil 1 10 0 nil) 2 20 0 (node nil 3 30 0 nil) : AVLNode Nat Nat) 2 = some t1 ∧
      find t1 2 = nil ∧
      ∀ j, j ≠ 2 → item (find t1 j) =
        item (find (node (node nil 1 10 0 nil) 2 20 0 (node nil 3 30 0 nil) : AVLNode Nat Nat) j) :=
  ⟨by decide, remove_then_find _ _ (by decide)⟩

/-- C5, upsert leaves the structure alone: for every tree satisfying BST ordering that
already contains key `k`, `insert(k, v)` returns the same tree (same shape, keys and
balance factor at every node, same value at every other key) with the value at `k`
replaced by `v`; no `balanceLeft` / `balanceRight` call is made (no rotation), the key
sequence is unchanged and `k` still occurs exactly once. -/
theorem upsert_existing_key (t : AVLNode K V) (k : K) (v : V) (hbst : BSTOrdered t)
    (hk : k ∈ keys t) :
    AVLTree.insert t (k, v) = some (withValue k v t) ∧
      (insertHelper t k v).map InsertResult.rebalances = some 0 ∧
      keys (withValue k v t) = keys t ∧
      (keys (withValue k v t)).count k = 1 ∧
      item (find (withValue k v t) k) = some (k, v) ∧
      ∀ j, j ≠ k → item (find (withValue k v t) j) = item (find t j) := by
  have he := insertHelper_existing t k v hbst hk
  have hkeys := keys_withValue k v t
  have hins : AVLTree.insert t (k, v) = some (withValue k v t) := by
    simp [AVLTree.insert, he]
  have hbst1 : BSTOrdered (withValue k v t) := by
    rw [bstOrdered_iff_sorted, hkeys]; exact (bstOrdered_iff_sorted t).1 hbst
  have hbst0 := hbst
  have hin : inorder (withValue k v t) = upsertList k v (inorder t) :=
    insertHelper_inorder t k v _ hbst0 he
  refine ⟨hins, by simp [he], hkeys, ?_, ?_, fun j hj => ?_⟩
  · rw [hkeys]
    exact List.count_eq_one_of_mem (keysUnique_of_bstOrdered t hbst) hk
  · simp only [find]
    rw [internalFind_item _ k hbst1, hin, find?_upsertList_self]
  · simp only [find]
    rw [internalFind_item _ j hbst1, internalFind_item t j hbst, hin,
      find?_upsertList_ne k j v _ hj]

/-- Witness for C5: overwriting the value of key 1 in the tree 2(1, 3). -/
theorem upsert_existing_key_witness :
    BSTOrdered (node (node nil 1 10 0 nil) 2 20 0 (node nil 3 30 0 nil) : AVLNode Nat Nat) ∧
    (1 : Nat) ∈ keys (node (node nil 1 10 0 nil) 2 20 0 (node nil 3 30 0 nil) : AVLNode Nat Nat) ∧
    AVLTree.insert (node (node nil 1 10 0 nil) 2 20 0 (node nil 3 30 0 nil) : AVLNode Nat Nat)
      (1, 77) = some (node (node nil 1 77 0 nil) 2 20 0 (node nil 3 30 0 nil)) :=
  ⟨by decide, by decide, (upsert_existing_key _ 1 77 (by decide) (by decide)).1⟩

/-- C6, insert has map semantics: for every tree satisfying the core invariants and
every pair `(k, v)`, `insert((k, v))` returns a tree in which `find(k)` designates the
item `(k, v)` and, for every key `j` different from `k`, `find(j)` designates exactly
what it designated before; on the empty tree `insert` produces a single root node
holding `(k, v)` with balance factor 0 and no children. -/
theorem insert_then_find (t : AVLNode K V) (k : K) (v : V) (h : CoreInvariants t) :
    (∃ t1, AVLTree.insert t (k, v) = some t1 ∧ item (find t1 k) = some (k, v) ∧
      ∀ j, j ≠ k → item (find t1 j) = item (find t j)) ∧
    AVLTree.insert (nil : AVLNode K V) (k, v) = some (node nil k v 0 nil) := by
  obtain ⟨t1, h1, hinv, hin⟩ := insert_spec t k v h
  refine ⟨⟨t1, h1, ?_, fun j hj => ?_⟩, rfl⟩
  · simp only [find]
    rw [internalFind_item t1 k hinv.1, hin, find?_upsertList_self]
  · simp only [find]
    rw [internalFind_item t1 j hinv.1, internalFind_item t j h.1, hin,
      find?_upsertList_ne k j v _ hj]

/-- Witness for C6: inserting `(0, 5)` below the left-heavy tree 2(1). -/
theorem insert_then_find_witness :
    CoreInvariants (node (node nil 1 10 0 nil) 2 20 1 nil : AVLNode Nat Nat) ∧
    ((∃ t1, AVLTree.insert (node (node nil 1 10 0 nil) 2 20 1 nil : AVLNode Nat Nat) (0, 5)
        = some t1 ∧ item (find t1 0) = some (0, 5) ∧
      ∀ j, j ≠ 0 → item (find t1 j) =
        item (find (node (node nil 1 10 0 nil) 2 20 1 nil : AVLNode Nat Nat) j)) ∧
    AVLTree.insert (nil : AVLNode Nat Nat) (0, 5) = some (node nil 0 5 0 nil)) :=
  ⟨by decide, insert_then_find _ 0 5 (by decide)⟩

/-- C7, `find` is a correct lookup: for every tree satisfying BST ordering and every
key `k`, `find(k)` (that is `internalFind`) returns a node of the tree whose key is `k`
when some node of the tree has key `k`, and the not-found result (`nullptr`, `end()`)
when no node has key `k`.  The function only reads the tree. -/
theorem find_correct (t : AVLNode K V) (k : K) (hbst : BSTOrdered t) :
    (k ∈ keys t → ∃ l v b r, find t k = node l k v b r ∧ IsNodeOf (node l k v b r) t) ∧
    (k ∉ keys t → find t k = nil) := by
  constructor
  · intro hk
    rcases internalFind_node_or_nil t k with h | h
    · exact absurd hk ((internalFind_eq_nil_iff t k hbst).1 h)
    · exact h
  · intro hk
    exact (internalFind_eq_nil_iff t k hbst).2 hk

/-- Witness for C7: looking up an absent key in the tree 2(1, 3). -/
theorem find_correct_witness :
    BSTOrdered (node (node nil 1 10 0 nil) 2 20 0 (node nil 3 30 0 nil) : AVLNode Nat Nat) ∧
    find (node (node nil 1 10 0 nil) 2 20 0 (node nil 3 30 0 nil) : AVLNode Nat Nat) 5 = nil :=
  ⟨by decide, (find_correct _ 5 (by decide)).2 (by decide)⟩

/-- C8, removing an absent key performs no mutation: for every tree satisfying the core
invariants and every key `k` that is not in the tree, `remove(k)` returns the identical
tree (same shape, keys, values and stored balance factor at every node), reports
`success = false`, and makes no `balanceLeft` / `balanceRight` call (no rotation). -/
theorem remove_absent_key (t : AVLNode K V) (k : K) (h : CoreInvariants t)
    (hk : k ∉ keys t) :
    AVLTree.remove t k = some t ∧
      ∃ shorter, removeHelper t k = some ⟨t, shorter, false, 0⟩ := by
  obtain ⟨s, hs⟩ := removeHelper_absent t k h.2.2 hk
  exact ⟨by simp [AVLTree.remove, hs], s, hs⟩

/-- Witness for C8: removing the absent key 5 from the tree 2(1, 3). -/
theorem remove_absent_key_witness :
    CoreInvariants (node (node nil 1 10 0 nil) 2 20 0 (node nil 3 30 0 nil) : AVLNode Nat Nat) ∧
    (5 : Nat) ∉ keys (node (node nil 1 10 0 nil) 2 20 0 (node nil 3 30 0 nil) : AVLNode Nat Nat) ∧
    AVLTree.remove (node (node nil 1 10 0 nil) 2 20 0 (node nil 3 30 0 nil) : AVLNode Nat Nat) 5
      = some (node (node nil 1 10 0 nil) 2 20 0 (node nil 3 30 0 nil)) :=
  ⟨by decide, by decide, (remove_absent_key _ 5 (by decide) (by decide)).1⟩

/-- C9: on the empty tree, for every key `k`, `find(k)` is the not-found result and
`remove(k)` returns (no undefined behaviour) and leaves the tree empty, so `empty()`
is still true. -/
theorem empty_tree_find_remove (k : K) :
    find (nil : AVLNode K V) k = nil ∧
      AVLTree.remove (nil : AVLNode K V) k = some nil ∧
      (AVLTree.remove (nil : AVLNode K V) k).map empty = some true := by
  have h : removeHelper (nil : AVLNode K V) k = some ⟨nil, false, false, 0⟩ := by
    rw [removeHelper.eq_def]
  exact ⟨rfl, by simp [AVLTree.remove, h], by simp [AVLTree.remove, h, empty]⟩

/-- C10, height bound (AVL worst case): every tree in which the heights of the left and
right subtree differ by at most 1 at each node (`isBalanced()` is true), with `n` nodes
and height `h` as computed by `calcHeight`, satisfies `n >= Fib(h + 2) - 1`; hence so
does every tree built from the empty tree by inserts and removes. -/
theorem height_bound (t : AVLNode K V)
    (h : isBalanced t = true ∨ ∃ ops : List (Op K V), runOps nil ops = some t) :
    Nat.fib (calcHeight t + 2) - 1 ≤ size t := by
  have hshape : HeightsDifferAtMostOne t := by
    rcases h with h | ⟨ops, hops⟩
    · exact (isBalanced_iff t).1 h
    · obtain ⟨t1, h1, hinv, -⟩ :=
        runOps_spec ops (nil : AVLNode K V) ⟨trivial, List.nodup_nil, trivial⟩
      rw [hops] at h1
      cases h1
      exact heightsDiffer_of_heightBalanced t hinv.2.2
  have := fib_le_size_succ t hshape
  omega

/-- Witness for C10: the bound is attained by the four-node tree 3(2(1), 4) of height 3. -/
theorem height_bound_witness :
    isBalanced (node (node (node nil 1 10 0 nil) 2 20 1 nil) 3 30 1 (node nil 4 40 0 nil) :
        AVLNode Nat Nat) = true ∧
    Nat.fib (calcHeight (node (node (node nil 1 10 0 nil) 2 20 1 nil) 3 30 1
        (node nil 4 40 0 nil) : AVLNode Nat Nat) + 2) - 1 ≤
      size (node (node (node nil 1 10 0 nil) 2 20 1 nil) 3 30 1 (node nil 4 40 0 nil) :
        AVLNode Nat Nat) :=
  ⟨by decide, height_bound _ (Or.inl (by decide))⟩

end Properties

/-! ## Rebalancing, node interchange and scenarios -/

section FurtherProperties

variable {K V : Type} [LinearOrder K]

open AVLTree BinarySearchTree

theorem balanceLeft_height [LinearOrder K] (ll lr r : AVLNode K V) (k lk : K) (v lv : V)
    (b lb : Int) (hl : HeightBalanced (node ll lk lv lb lr)) (hr : HeightBalanced r)
    (hh : calcHeight (node ll lk lv lb lr) = calcHeight r + 2) :
    ∃ t, balanceLeft (node (node ll lk lv lb lr) k v b r) = some t ∧ HeightBalanced t ∧
      (lb = 0 → calcHeight t = calcHeight (node (node ll lk lv lb lr) k v b r)) ∧
      (lb ≠ 0 → calcHeight t + 1 = calcHeight (node (node ll lk lv lb lr) k v b r)) := by
  obtain ⟨t, ht, hbal, -, hlo, hhi, hex⟩ :=
    balanceLeft_spec (node ll lk lv lb lr) r k v b hl hr hh
  refine ⟨t, ht, hbal, ?_, ?_⟩
  · intro hlb
    subst hlb
    obtain ⟨hll, hlr, hb, -⟩ := hl
    simp only [balanceLeft, ge_iff_le, le_refl, if_true, rotateRight, Option.some.injEq] at ht
    subst ht
    simp only [calcHeight] at *
    omega
  · intro hlb
    have := hex ll lk lv lb lr rfl hlb
    simp only [calcHeight] at *
    omega

theorem balanceRight_height [LinearOrder K] (l rl rr : AVLNode K V) (k rk : K) (v rv : V)
    (b rb : Int) (hl : HeightBalanced l) (hr : HeightBalanced (node rl rk rv rb rr))
    (hh : calcHeight (node rl rk rv rb rr) = calcHeight l + 2) :
    ∃ t, balanceRight (node l k v b (node rl rk rv rb rr)) = some t ∧ HeightBalanced t ∧
      (rb = 0 → calcHeight t = calcHeight (node l k v b (node rl rk rv rb rr))) ∧
      (rb ≠ 0 → calcHeight t + 1 = calcHeight (node l k v b (node rl rk rv rb rr))) := by
  obtain ⟨t, ht, hbal, -, hlo, hhi, hex⟩ :=
    balanceRight_spec l (node rl rk rv rb rr) k v b hl hr hh
  refine ⟨t, ht, hbal, ?_, ?_⟩
  · intro hrb
    subst hrb
    obtain ⟨hrl, hrr, hb, -⟩ := hr
    simp only [balanceRight, le_refl, if_true, rotateLeft, Option.some.injEq] at ht
    subst ht
    simp only [calcHeight] at *
    omega
  · intro hrb
    have := hex rl rk rv rb rr rfl hrb
    simp only [calcHeight] at *
    omega

theorem isNodeOf_key_mem (x t : AVLNode K V) (l r : AVLNode K V) (k : K) (v : V) (b : Int)
    (hx : x = node l k v b r) (h : IsNodeOf x t) : k ∈ keys t := by
  induction t with
  | nil => exact absurd h (by simp [IsNodeOf])
  | node tl a w c tr ihl ihr =>
      simp only [IsNodeOf] at h
      simp only [keys, inorder, List.map_append, List.map_cons, List.mem_append, List.mem_cons]
      rcases h with h | h | h
      · rw [hx] at h
        simp only [node.injEq] at h
        exact Or.inr (Or.inl h.2.1)
      · exact Or.inl (by simpa [keys] using ihl h)
      · exact Or.inr (Or.inr (by simpa [keys] using ihr h))

theorem internalFind_of_isNodeOf (t l r : AVLNode K V) (k : K) (v : V) (b : Int)
    (hbst : BSTOrdered t) (h : IsNodeOf (node l k v b r) t) :
    internalFind t k = node l k v b r := by
  induction t with
  | nil => exact absurd h (by simp [IsNodeOf])
  | node tl a w c tr ihl ihr =>
      obtain ⟨hl, hr, hlt, hgt⟩ := hbst
      simp only [IsNodeOf] at h
      rcases h with h | h | h
      · simp only [node.injEq] at h
        obtain ⟨rfl, rfl, rfl, rfl, rfl⟩ := h
        simp [internalFind]
      · have hk := hlt k (isNodeOf_key_mem _ tl l r k v b rfl h)
        simp only [internalFind, if_pos hk]
        exact ihl hl h
      · have hk := hgt k (isNodeOf_key_mem _ tr l r k v b rfl h)
        simp only [internalFind, if_neg (not_lt_of_gt hk), if_pos hk]
        exact ihr hr h

/-- C11 (as amended): `isBalancedHelper(node)` returns the height of the subtree when at
every node of it the heights of the left and right subtrees differ by at most 1, and
`-1` otherwise; so `isBalanced()` is true if and only if the heights differ by at most 1
at every node.  Invariant 2 (which also fixes the stored balance factors) implies it. -/
theorem isBalanced_checks_heights (t : AVLNode K V) :
    (BinarySearchTree.isBalancedHelper t =
      if HeightsDifferAtMostOne t then (calcHeight t : Int) else -1) ∧
    (BinarySearchTree.isBalanced t = true ↔ HeightsDifferAtMostOne t) ∧
    (HeightBalanced t → BinarySearchTree.isBalanced t = true) :=
  ⟨isBalancedHelper_eq t, isBalanced_iff t,
    fun h => (isBalanced_iff t).2 (heightsDiffer_of_heightBalanced t h)⟩

/-- Witness for C11 (as amended): the tree 2(1, 3). -/
theorem isBalanced_checks_heights_witness :
    HeightBalanced (node (node nil 1 10 0 nil) 2 20 0 (node nil 3 30 0 nil) : AVLNode Nat Nat) ∧
    BinarySearchTree.isBalanced
      (node (node nil 1 10 0 nil) 2 20 0 (node nil 3 30 0 nil) : AVLNode Nat Nat) = true :=
  ⟨by decide, (isBalanced_checks_heights _).2.2 (by decide)⟩

/-- Counterexample to C11 as stated: on the single node with stored balance factor 1
`isBalanced()` is true although invariant 2 fails (the stored factor is not
`height(left) - height(right)`). -/
theorem isBalanced_ignores_stored_balance :
    ¬ (∀ t : AVLNode Nat Nat, BinarySearchTree.isBalanced t = true ↔ HeightBalanced t) := by
  intro h
  have h1 := (h (node nil 1 10 1 nil)).1 (by decide)
  exact absurd h1 (by decide)

/-- C12, round-trip scenario: inserting keys 5, 3, 8, 1, 4, 7, 9 in that order into the
empty tree gives a height-balanced tree with in-order traversal `[1,3,4,5,7,8,9]`; then
`remove(3)` gives a height-balanced tree with traversal `[1,4,5,7,8,9]`; then
`remove(5)` gives a height-balanced tree with traversal `[1,4,7,8,9]`. -/
theorem round_trip_scenario (val : Nat → V) :
    ∃ t1 t2 t3 : AVLNode Nat V,
      runOps nil [Op.insert 5 (val 5), Op.insert 3 (val 3), Op.insert 8 (val 8),
        Op.insert 1 (val 1), Op.insert 4 (val 4), Op.insert 7 (val 7),
        Op.insert 9 (val 9)] = some t1 ∧
      HeightBalanced t1 ∧ BinarySearchTree.isBalanced t1 = true ∧
      keys t1 = [1, 3, 4, 5, 7, 8, 9] ∧
      AVLTree.remove t1 3 = some t2 ∧
      HeightBalanced t2 ∧ BinarySearchTree.isBalanced t2 = true ∧
      keys t2 = [1, 4, 5, 7, 8, 9] ∧
      AVLTree.remove t2 5 = some t3 ∧
      HeightBalanced t3 ∧ BinarySearchTree.isBalanced t3 = true ∧
      keys t3 = [1, 4, 7, 8, 9] := by
  refine ⟨node (node (node nil 1 (val 1) 0 nil) 3 (val 3) 0 (node nil 4 (val 4) 0 nil)) 5
      (val 5) 0 (node (node nil 7 (val 7) 0 nil) 8 (val 8) 0 (node nil 9 (val 9) 0 nil)),
    node (node nil 1 (val 1) (-1) (node nil 4 (val 4) 0 nil)) 5 (val 5) 0
      (node (node nil 7 (val 7) 0 nil) 8 (val 8) 0 (node nil 9 (val 9) 0 nil)),
    node (node nil 1 (val 1) 0 nil) 4 (val 4) (-1)
      (node (node nil 7 (val 7) 0 nil) 8 (val 8) 0 (node nil 9 (val 9) 0 nil)),
    rfl, ?_, ?_, rfl, ?_, ?_, ?_, rfl, ?_, ?_, ?_, rfl⟩
  · simp [HeightBalanced, calcHeight]
  · exact (isBalanced_iff _).2 (by simp [HeightsDifferAtMostOne, calcHeight])
  · simp [AVLTree.remove, removeHelper, nodeSwap, predecessor, rightmost, isAdjacent,
      recomputeBalance, calcHeight, wrap8, placeAtRightmost]
  · simp [HeightBalanced, calcHeight]
  · exact (isBalanced_iff _).2 (by simp [HeightsDifferAtMostOne, calcHeight])
  · simp [AVLTree.remove, removeHelper, nodeSwap, predecessor, rightmost, isAdjacent,
      recomputeBalance, calcHeight, wrap8, placeAtRightmost]
  · simp [HeightBalanced, calcHeight]
  · exact (isBalanced_iff _).2 (by simp [HeightsDifferAtMostOne, calcHeight])

/-- C15, adjacent-predecessor removal: for every tree satisfying the core invariants
and every two-child node `x` of it whose left child `p` has no right child (so `p` is
the in-order predecessor of `x`), the descent of `remove(key of x)` arrives at `x`,
and `removeHelper` replaces the subtree rooted at `x`, before the recompute-and-rebalance
step, by `p` with the former left subtree of `p` as left child and the former right
subtree of `x` as right child; the resulting tree satisfies the invariants and its
in-order sequence is the former one without the key of `x`. -/
theorem adjacent_predecessor_removal (t pl r : AVLNode K V) (k pk : K) (v pv : V)
    (b pb : Int) (h : CoreInvariants t) (hr : r ≠ nil)
    (hx : IsNodeOf (node (node pl pk pv pb nil) k v b r) t) :
    predecessor (node (node pl pk pv pb nil) k v b r) = node pl pk pv pb nil ∧
    find t k = node (node pl pk pv pb nil) k v b r ∧
    removeHelper (node (node pl pk pv pb nil) k v b r) k =
      recomputeBalance (node pl pk pv b r) true 0 ∧
    ∃ t1, AVLTree.remove t k = some t1 ∧ CoreInvariants t1 ∧
      inorder t1 = eraseList k (inorder t) ∧ keys t1 = (keys t).erase k := by
  refine ⟨rfl, internalFind_of_isNodeOf t _ _ k v b h.1 hx,
    removeHelper_adjacent pl r k k pk v pv b pb (lt_irrefl k) (lt_irrefl k) hr, ?_⟩
  obtain ⟨t1, h1, hinv, hin⟩ := remove_spec t k h
  refine ⟨t1, h1, hinv, hin, ?_⟩
  have hn : (List.map Prod.fst (inorder t)).Nodup := h.2.1
  simp only [keys, hin, eraseList]
  rw [hn.erase_eq_filter, List.filter_map]
  congr 1
  apply List.filter_congr
  intro x _
  by_cases hxk : x.1 = k <;> simp [hxk]

/-- Witness for C15: insert 10, 5, 15 and remove 10; the result has root 5 and in-order
traversal `[5, 15]`. -/
theorem adjacent_predecessor_removal_witness :
    runOps (nil : AVLNode Nat Nat) [Op.insert 10 100, Op.insert 5 50, Op.insert 15 150] =
      some (node (node nil 5 50 0 nil) 10 100 0 (node nil 15 150 0 nil)) ∧
    AVLTree.remove (node (node nil 5 50 0 nil) 10 100 0 (node nil 15 150 0 nil) :
      AVLNode Nat Nat) 10 = some (node nil 5 50 (-1) (node nil 15 150 0 nil)) ∧
    keys (node nil 5 50 (-1) (node nil 15 150 0 nil) : AVLNode Nat Nat) = [5, 15] ∧
    (predecessor (node (node nil 5 50 0 nil) 10 100 0 (node nil 15 150 0 nil) :
        AVLNode Nat Nat) = node nil 5 50 0 nil ∧
      find (node (node nil 5 50 0 nil) 10 100 0 (node nil 15 150 0 nil) : AVLNode Nat Nat) 10 =
        node (node nil 5 50 0 nil) 10 100 0 (node nil 15 150 0 nil) ∧
      removeHelper (node (node nil 5 50 0 nil) 10 100 0 (node nil 15 150 0 nil) :
          AVLNode Nat Nat) 10 =
        recomputeBalance (node nil 5 50 0 (node nil 15 150 0 nil)) true 0 ∧
      ∃ t1, AVLTree.remove (node (node nil 5 50 0 nil) 10 100 0 (node nil 15 150 0 nil) :
          AVLNode Nat Nat) 10 = some t1 ∧ CoreInvariants t1 ∧
        inorder t1 = eraseList 10
          (inorder (node (node nil 5 50 0 nil) 10 100 0 (node nil 15 150 0 nil) :
            AVLNode Nat Nat)) ∧
        keys t1 = (keys (node (node nil 5 50 0 nil) 10 100 0 (node nil 15 150 0 nil) :
            AVLNode Nat Nat)).erase 10) :=
  ⟨by decide,
    by simp [AVLTree.remove, removeHelper, nodeSwap, predecessor, rightmost, isAdjacent,
      recomputeBalance, calcHeight, wrap8],
    by decide,
    adjacent_predecessor_removal
      (node (node nil 5 50 0 nil) 10 100 0 (node nil 15 150 0 nil)) nil (node nil 15 150 0 nil)
      10 5 100 50 0 0 (by decide) (by decide) (Or.inl rfl)⟩

/-- C16 (as amended): for every two-child node `n1` and its in-order predecessor `n2`,
in the non-adjacent configuration `AVLTree::nodeSwap(n1, n2)` interchanges the tree
positions of the two nodes (every other node keeps its place) and exchanges their
balance factors; in the adjacent configuration (`n2` is the direct left child of `n1`)
`n2` takes the place of `n1` and keeps its own left subtree, `n1` becomes the right child
of `n2`, keeps its own right subtree and takes the former right child of `n2` (absent
for a predecessor) as left child, and the balance factors are exchanged. -/
theorem nodeSwap_with_predecessor (l r : AVLNode K V) (k : K) (v : V) (b : Int)
    (hl : l ≠ nil) (hr : r ≠ nil) :
    (isAdjacent (node l k v b r) = false →
      nodeSwap (node l k v b r) (predecessor (node l k v b r)) =
        some (interchangeWithPredecessor (node l k v b r))) ∧
    (∀ pl pk pv pb, l = node pl pk pv pb nil →
      isAdjacent (node l k v b r) = true ∧
      nodeSwap (node l k v b r) (predecessor (node l k v b r)) =
        some (node pl pk pv b (node nil k v pb r))) := by
  constructor
  · intro hadj
    cases l with
    | nil => exact absurd rfl hl
    | node ll lk lv lb lr =>
        cases lr with
        | nil => simp [isAdjacent] at hadj
        | node lrl lrk lrv lrb lrr =>
            obtain ⟨init, pl, pk, pv, pb, hp1, -, -⟩ :=
              rightmost_spec k v (node ll lk lv lb (node lrl lrk lrv lrb lrr)) (by simp)
            simp only [predecessor, interchangeWithPredecessor, hp1, nodeSwap, isAdjacent,
              Bool.false_eq_true, if_false]
  · intro pl pk pv pb he
    subst he
    exact ⟨rfl, rfl⟩

/-- Witness for C16 (as amended): the root 5 of the seven-node tree and its
predecessor 4, which is not its direct child. -/
theorem nodeSwap_with_predecessor_witness :
    nodeSwap
      (node (node (node nil 1 10 0 nil) 3 30 0 (node nil 4 40 0 nil)) 5 50 0
        (node (node nil 7 70 0 nil) 8 80 0 (node nil 9 90 0 nil)) : AVLNode Nat Nat)
      (predecessor
        (node (node (node nil 1 10 0 nil) 3 30 0 (node nil 4 40 0 nil)) 5 50 0
          (node (node nil 7 70 0 nil) 8 80 0 (node nil 9 90 0 nil)) : AVLNode Nat Nat)) =
    some (interchangeWithPredecessor
      (node (node (node nil 1 10 0 nil) 3 30 0 (node nil 4 40 0 nil)) 5 50 0
        (node (node nil 7 70 0 nil) 8 80 0 (node nil 9 90 0 nil)) : AVLNode Nat Nat)) :=
  (nodeSwap_with_predecessor _ _ 5 50 0 (by decide) (by decide)).1 (by decide)

/-- Counterexample to C16 as stated: in the tree 10(5, 15) the predecessor 5 is the
direct left child of 10; `nodeSwap` makes 10 the right child of 5 with 15 still below
10, which is not the interchange of the two positions (5 above 10 as its left child,
15 as right child of 5). -/
theorem nodeSwap_adjacent_is_not_interchange :
    nodeSwap (node (node nil 5 50 0 nil) 10 100 0 (node nil 15 150 0 nil) : AVLNode Nat Nat)
        (predecessor (node (node nil 5 50 0 nil) 10 100 0 (node nil 15 150 0 nil))) =
      some (node nil 5 50 0 (node nil 10 100 0 (node nil 15 150 0 nil))) ∧
    interchangeWithPredecessor
        (node (node nil 5 50 0 nil) 10 100 0 (node nil 15 150 0 nil) : AVLNode Nat Nat) =
      node (node nil 10 100 0 nil) 5 50 0 (node nil 15 150 0 nil) ∧
    nodeSwap (node (node nil 5 50 0 nil) 10 100 0 (node nil 15 150 0 nil) : AVLNode Nat Nat)
        (predecessor (node (node nil 5 50 0 nil) 10 100 0 (node nil 15 150 0 nil))) ≠
      some (interchangeWithPredecessor
        (node (node nil 5 50 0 nil) 10 100 0 (node nil 15 150 0 nil))) := by
  decide

/-- C17, taller propagation on insert is exact: for every subtree of height `h`
satisfying the core invariants and every pair `(k, v)`, `insertHelper` returns a subtree
of height `h` or `h + 1` and sets `taller` to true exactly when the height is `h + 1`;
in particular, whenever the balance factor reaches `+2` or `-2` and the subtree is
rebalanced, the returned subtree is the result of `balanceLeft` / `balanceRight`,
`taller` is false and the height is the pre-insert height `h`. -/
theorem taller_propagation_exact (t : AVLNode K V) (k : K) (v : V) (h : CoreInvariants t) :
    ∃ res, insertHelper t k v = some res ∧
      (calcHeight res.root = calcHeight t ∨ calcHeight res.root = calcHeight t + 1) ∧
      (res.taller = true ↔ calcHeight res.root = calcHeight t + 1) ∧
      (∀ l key value b r sub, t = node l key value b r → k < key →
        insertHelper l k v = some sub → sub.taller = true → wrap8 (b + 1) = 2 →
        balanceLeft (node sub.root key value 2 r) = some res.root ∧ res.taller = false ∧
          calcHeight res.root = calcHeight t) ∧
      (∀ l key value b r sub, t = node l key value b r → ¬ k < key → k > key →
        insertHelper r k v = some sub → sub.taller = true → wrap8 (b + -1) = -2 →
        balanceRight (node l key value (-2) sub.root) = some res.root ∧ res.taller = false ∧
          calcHeight res.root = calcHeight t) := by
  obtain ⟨res, hres, -, hht, -⟩ := insertHelper_balanced t k v h.2.2
  have hexact : res.taller = true ↔ calcHeight res.root = calcHeight t + 1 := by
    by_cases ht : res.taller = true
    · rw [if_pos ht] at hht
      exact ⟨fun _ => hht, fun _ => ht⟩
    · rw [if_neg ht] at hht
      exact ⟨fun h1 => absurd h1 ht, fun h1 => by omega⟩
  refine ⟨res, hres, ?_, hexact, ?_, ?_⟩
  · by_cases ht : res.taller = true
    · rw [if_pos ht] at hht; exact Or.inr hht
    · rw [if_neg ht] at hht; exact Or.inl hht
  · intro l key value b r sub he hk hsub htl hw
    subst he
    simp only [insertHelper, if_pos hk, hsub, htl, if_true, hw] at hres
    have h20 : ¬ ((2 : Int) = 0) := by decide
    simp only [if_neg h20, if_true] at hres
    cases hb : balanceLeft (node sub.root key value 2 r) with
    | none => simp [hb] at hres
    | some t1 =>
        simp only [hb, Option.some.injEq] at hres
        subst hres
        simp only [Bool.false_eq_true, if_false, Nat.add_zero] at hht
        exact ⟨rfl, rfl, hht⟩
  · intro l key value b r sub he hk1 hk hsub htl hw
    subst he
    simp only [insertHelper, if_neg hk1, if_pos hk, hsub, htl, if_true, hw] at hres
    have h20 : ¬ ((-2 : Int) = 0) := by decide
    simp only [if_neg h20, if_true] at hres
    cases hb : balanceRight (node l key value (-2) sub.root) with
    | none => simp [hb] at hres
    | some t1 =>
        simp only [hb, Option.some.injEq] at hres
        subst hres
        simp only [Bool.false_eq_true, if_false, Nat.add_zero] at hht
        exact ⟨rfl, rfl, hht⟩

/-- Witness for C17: inserting key 0 below the left-heavy tree 2(1), where the balance
factor of the root reaches 2. -/
theorem taller_propagation_exact_witness :
    CoreInvariants (node (node nil 1 10 0 nil) 2 20 1 nil : AVLNode Nat Nat) ∧
    ∃ res, insertHelper (node (node nil 1 10 0 nil) 2 20 1 nil : AVLNode Nat Nat) 0 5 =
        some res ∧
      (calcHeight res.root = 2 ∨ calcHeight res.root = 2 + 1) ∧
      (res.taller = true ↔ calcHeight res.root = 2 + 1) := by
  obtain ⟨res, h1, h2, h3, -⟩ :=
    taller_propagation_exact (node (node nil 1 10 0 nil) 2 20 1 nil : AVLNode Nat Nat) 0 5
      (by decide)
  exact ⟨by decide, res, h1, h2, h3⟩

/-- C18 (as amended): in a removal, whenever the balance factor recomputed at a node
(whose subtrees satisfy height balance) is `+2` or `-2`, the subtree returned by
`balanceLeft` / `balanceRight` is height-balanced, and its height equals the height
immediately before the rebalance when the balance factor of the heavy child is `0`,
and is one less when that balance factor is `+1` or `-1`. -/
theorem rebalance_in_removal_heights (l r : AVLNode K V) (k : K) (v : V) (b : Int)
    (s : Bool) (n : Nat) (hl : HeightBalanced l) (hr : HeightBalanced r) :
    (calcHeight l = calcHeight r + 2 →
      ∃ t, recomputeBalance (node l k v b r) s n = some ⟨t, false, s, n + 1⟩ ∧
        balanceLeft (node l k v 2 r) = some t ∧ HeightBalanced t ∧
        ∀ ll lk lv lb lr, l = node ll lk lv lb lr →
          (lb = 0 → calcHeight t = calcHeight (node l k v 2 r)) ∧
          (lb ≠ 0 → calcHeight t + 1 = calcHeight (node l k v 2 r))) ∧
    (calcHeight r = calcHeight l + 2 →
      ∃ t, recomputeBalance (node l k v b r) s n = some ⟨t, false, s, n + 1⟩ ∧
        balanceRight (node l k v (-2) r) = some t ∧ HeightBalanced t ∧
        ∀ rl rk rv rb rr, r = node rl rk rv rb rr →
          (rb = 0 → calcHeight t = calcHeight (node l k v (-2) r)) ∧
          (rb ≠ 0 → calcHeight t + 1 = calcHeight (node l k v (-2) r))) := by
  constructor
  · intro hh
    have hw : wrap8 ((calcHeight l : Int) - (calcHeight r : Int)) = 2 := by
      rw [wrap8_of_small _ (by omega) (by omega)]; omega
    cases l with
    | nil => simp [calcHeight] at hh
    | node ll lk lv lb lr =>
        obtain ⟨t, ht, hbal, h0, h1⟩ := balanceLeft_height ll lr r k lk v lv 2 lb hl hr hh
        refine ⟨t, ?_, ht, hbal, ?_⟩
        · simp only [recomputeBalance, hw, if_true, ht]
        · intro ll1 lk1 lv1 lb1 lr1 he
          simp only [node.injEq] at he
          obtain ⟨rfl, rfl, rfl, rfl, rfl⟩ := he
          exact ⟨h0, h1⟩
  · intro hh
    have hw : wrap8 ((calcHeight l : Int) - (calcHeight r : Int)) = -2 := by
      rw [wrap8_of_small _ (by omega) (by omega)]; omega
    cases r with
    | nil => simp [calcHeight] at hh
    | node rl rk rv rb rr =>
        obtain ⟨t, ht, hbal, h0, h1⟩ := balanceRight_height l rl rr k rk v rv (-2) rb hl hr hh
        refine ⟨t, ?_, ht, hbal, ?_⟩
        · have h22 : ¬ ((-2 : Int) = 2) := by decide
          simp only [recomputeBalance, hw, if_neg h22, if_true, ht]
        · intro rl1 rk1 rv1 rb1 rr1 he
          simp only [node.injEq] at he
          obtain ⟨rfl, rfl, rfl, rfl, rfl⟩ := he
          exact ⟨h0, h1⟩

/-- Witness for C18 (as amended): the left-heavy node 3 over 2(1) with no right child. -/
theorem rebalance_in_removal_heights_witness :
    HeightBalanced (node (node nil 1 10 0 nil) 2 20 1 nil : AVLNode Nat Nat) ∧
    ∃ t, recomputeBalance
        (node (node (node nil 1 10 0 nil) 2 20 1 nil) 3 30 2 nil : AVLNode Nat Nat) true 0 =
          some ⟨t, false, true, 0 + 1⟩ ∧
      balanceLeft (node (node (node nil 1 10 0 nil) 2 20 1 nil) 3 30 2 nil) = some t ∧
      HeightBalanced t ∧
      ∀ ll lk lv lb lr, (node (node nil 1 10 0 nil) 2 20 1 nil : AVLNode Nat Nat) =
          node ll lk lv lb lr →
        (lb = 0 → calcHeight t =
          calcHeight (node (node (node nil 1 10 0 nil) 2 20 1 nil) 3 30 2 nil : AVLNode Nat Nat)) ∧
        (lb ≠ 0 → calcHeight t + 1 =
          calcHeight (node (node (node nil 1 10 0 nil) 2 20 1 nil) 3 30 2 nil : AVLNode Nat Nat)) :=
  ⟨by decide,
    (rebalance_in_removal_heights (node (node nil 1 10 0 nil) 2 20 1 nil) nil 3 30 2 true 0
      (by decide) (by decide)).1 (by decide)⟩

/-- Counterexample to C18 as stated: removing 4 from the tree 3(2(1), 4), which satisfies
the core invariants, recomputes balance factor 2 at the root; `balanceLeft` returns
2(1, 3) of height 2, while the subtree had height 3 immediately before the rebalance. -/
theorem rebalance_in_removal_shortens :
    CoreInvariants (node (node (node nil 1 10 0 nil) 2 20 1 nil) 3 30 1 (node nil 4 40 0 nil) :
      AVLNode Nat Nat) ∧
    removeHelper (node (node (node nil 1 10 0 nil) 2 20 1 nil) 3 30 1 (node nil 4 40 0 nil) :
      AVLNode Nat Nat) 4 =
      some ⟨node (node nil 1 10 0 nil) 2 20 0 (node nil 3 30 0 nil), false, true, 1⟩ ∧
    balanceLeft (node (node (node nil 1 10 0 nil) 2 20 1 nil) 3 30 2 nil : AVLNode Nat Nat) =
      some (node (node nil 1 10 0 nil) 2 20 0 (node nil 3 30 0 nil)) ∧
    calcHeight (node (node nil 1 10 0 nil) 2 20 0 (node nil 3 30 0 nil) : AVLNode Nat Nat) ≠
      calcHeight (node (node (node nil 1 10 0 nil) 2 20 1 nil) 3 30 2 nil : AVLNode Nat Nat) := by
  refine ⟨by decide, ?_, by decide, by decide⟩
  simp [removeHelper, recomputeBalance, calcHeight, wrap8, balanceLeft, rotateRight]

/-- Counterexample to C19 as stated: in the tree built by inserting 5, 3, 8, 1, 4, 7, 9,
which satisfies the core invariants, `remove(1)` recomputes balance factor 0 at the root
(no rebalancing call is made) and sets `shorter` to true, but the returned subtree has
the height of the input subtree, not one level less. -/
theorem shorter_set_without_shortening :
    CoreInvariants
      (node (node (node nil 1 10 0 nil) 3 30 0 (node nil 4 40 0 nil)) 5 50 0
        (node (node nil 7 70 0 nil) 8 80 0 (node nil 9 90 0 nil)) : AVLNode Nat Nat) ∧
    beforeRecompute
      (node (node (node nil 1 10 0 nil) 3 30 0 (node nil 4 40 0 nil)) 5 50 0
        (node (node nil 7 70 0 nil) 8 80 0 (node nil 9 90 0 nil)) : AVLNode Nat Nat) 1 =
      some (node (node nil 3 30 (-1) (node nil 4 40 0 nil)) 5 50 0
        (node (node nil 7 70 0 nil) 8 80 0 (node nil 9 90 0 nil)), true, 0) ∧
    (calcHeight (node nil 3 30 (-1) (node nil 4 40 0 nil) : AVLNode Nat Nat) : Int) -
      (calcHeight (node (node nil 7 70 0 nil) 8 80 0 (node nil 9 90 0 nil) :
        AVLNode Nat Nat) : Int) = 0 ∧
    removeHelper
      (node (node (node nil 1 10 0 nil) 3 30 0 (node nil 4 40 0 nil)) 5 50 0
        (node (node nil 7 70 0 nil) 8 80 0 (node nil 9 90 0 nil)) : AVLNode Nat Nat) 1 =
      some ⟨node (node nil 3 30 (-1) (node nil 4 40 0 nil)) 5 50 0
        (node (node nil 7 70 0 nil) 8 80 0 (node nil 9 90 0 nil)), true, true, 0⟩ ∧
    calcHeight (node (node nil 3 30 (-1) (node nil 4 40 0 nil)) 5 50 0
        (node (node nil 7 70 0 nil) 8 80 0 (node nil 9 90 0 nil)) : AVLNode Nat Nat) =
      calcHeight (node (node (node nil 1 10 0 nil) 3 30 0 (node nil 4 40 0 nil)) 5 50 0
        (node (node nil 7 70 0 nil) 8 80 0 (node nil 9 90 0 nil)) : AVLNode Nat Nat) := by
  refine ⟨by decide, ?_, by decide, ?_, by decide⟩
  · simp [beforeRecompute, removeHelper, recomputeBalance, calcHeight, wrap8]
  · simp [removeHelper, recomputeBalance, calcHeight, wrap8]

/-- C20, rebalance restores balance: for every node of a search tree (its key lies
between the keys of its subtrees) whose left and right subtrees both satisfy the core
invariants and whose left subtree is exactly 2 higher than its right subtree,
`balanceLeft` returns a subtree that satisfies BST ordering and height balance at every
node and has the same in-order sequence as the input; symmetrically for `balanceRight`
when the right subtree is exactly 2 higher. -/
theorem rebalance_restores_balance (l r : AVLNode K V) (k : K) (v : V) (b : Int)
    (hl : CoreInvariants l) (hr : CoreInvariants r)
    (hlt : ∀ x ∈ keys l, x < k) (hgt : ∀ x ∈ keys r, k < x) :
    (calcHeight l = calcHeight r + 2 →
      ∃ t, balanceLeft (node l k v b r) = some t ∧ BSTOrdered t ∧ KeysUnique t ∧
        HeightBalanced t ∧ inorder t = inorder (node l k v b r)) ∧
    (calcHeight r = calcHeight l + 2 →
      ∃ t, balanceRight (node l k v b r) = some t ∧ BSTOrdered t ∧ KeysUnique t ∧
        HeightBalanced t ∧ inorder t = inorder (node l k v b r)) := by
  have hbst : BSTOrdered (node l k v b r) := ⟨hl.1, hr.1, hlt, hgt⟩
  have htrans : ∀ t : AVLNode K V, inorder t = inorder (node l k v b r) → BSTOrdered t := by
    intro t hin
    rw [bstOrdered_iff_sorted] at hbst ⊢
    simpa only [keys, hin] using hbst
  constructor
  · intro hh
    obtain ⟨t, ht, hbal, hin, -⟩ := balanceLeft_spec l r k v b hl.2.2 hr.2.2 hh
    exact ⟨t, ht, htrans t hin, keysUnique_of_bstOrdered t (htrans t hin), hbal, hin⟩
  · intro hh
    obtain ⟨t, ht, hbal, hin, -⟩ := balanceRight_spec l r k v b hl.2.2 hr.2.2 hh
    exact ⟨t, ht, htrans t hin, keysUnique_of_bstOrdered t (htrans t hin), hbal, hin⟩

/-- Witness for C20: the node 3 over the left subtree 1(-, 2) with no right child (a
double rotation). -/
theorem rebalance_restores_balance_witness :
    CoreInvariants (node nil 1 10 (-1) (node nil 2 20 0 nil) : AVLNode Nat Nat) ∧
    CoreInvariants (nil : AVLNode Nat Nat) ∧
    ∃ t, balanceLeft (node (node nil 1 10 (-1) (node nil 2 20 0 nil)) 3 30 2 nil :
        AVLNode Nat Nat) = some t ∧ BSTOrdered t ∧ KeysUnique t ∧ HeightBalanced t ∧
      inorder t = inorder (node (node nil 1 10 (-1) (node nil 2 20 0 nil)) 3 30 2 nil :
        AVLNode Nat Nat) :=
  ⟨by decide, by decide,
    (rebalance_restores_balance (node nil 1 10 (-1) (node nil 2 20 0 nil)) nil 3 30 2
      (by decide) (by decide) (by decide) (by decide)).1 (by decide)⟩

end FurtherProperties

/-! ## The equal-leaf-depth check -/

namespace EqualPaths
open Node

theorem leafDepths_ne_nil (t : Node) (d : Int) (ht : t ≠ null) : leafDepths t d ≠ [] := by
  induction t generalizing d with
  | null => exact absurd rfl ht
  | branch l k r ihl ihr =>
      simp only [leafDepths]
      split_ifs with h
      · simp
      · intro hnil
        rw [List.append_eq_nil] at hnil
        by_cases hl : l = null
        · have hr : r ≠ null := fun hr => h ⟨hl, hr⟩
          exact ihr (d + 1) hr hnil.2
        · exact ihl (d + 1) hl hnil.1

theorem leafDepths_ge (t : Node) (d : Int) : ∀ x ∈ leafDepths t d, d ≤ x := by
  induction t generalizing d with
  | null => simp [leafDepths]
  | branch l k r ihl ihr =>
      simp only [leafDepths]
      split_ifs with h
      · simp
      · intro x hx
        rcases List.mem_append.1 hx with hx | hx
        · have := ihl (d + 1) x hx; omega
        · have := ihr (d + 1) x hx; omega

theorem checkPaths_spec (t : Node) (d : Int) (ht : t ≠ null) :
    (AllSame (leafDepths t d) → ∀ x ∈ leafDepths t d, checkPaths t d = x) ∧
    (¬ AllSame (leafDepths t d) → checkPaths t d = -1) := by
  induction t generalizing d with
  | null => exact absurd rfl ht
  | branch l k r ihl ihr =>
      by_cases hl : l = null
      · by_cases hr : r = null
        · subst hl hr
          simp [checkPaths, leafDepths, AllSame]
        · subst hl
          have ih := ihr (d + 1) hr
          have hc : checkPaths (branch null k r) d = checkPaths r (d + 1) := by
            simp only [checkPaths, hr, and_false, if_false, ne_eq, not_true_eq_false,
              false_and, not_false_eq_true, true_and, if_true]
            split_ifs with h1 <;> simp_all
          have hL : leafDepths (branch null k r) d = leafDepths r (d + 1) := by
            simp [leafDepths, hr]
          rw [hc, hL]; exact ih
      · by_cases hr : r = null
        · subst hr
          have ih := ihl (d + 1) hl
          have hc : checkPaths (branch l k null) d = checkPaths l (d + 1) := by
            simp only [checkPaths, hl, false_and, if_false, ne_eq, not_false_eq_true,
              true_and, if_true, not_true_eq_false]
            split_ifs with h1 <;> simp_all
          have hL : leafDepths (branch l k null) d = leafDepths l (d + 1) := by
            simp [leafDepths, hl]
          rw [hc, hL]; exact ih
        · have ihL := ihl (d + 1) hl
          have ihR := ihr (d + 1) hr
          have hL : leafDepths (branch l k r) d =
              leafDepths l (d + 1) ++ leafDepths r (d + 1) := by
            simp [leafDepths, hl]
          have hc : checkPaths (branch l k r) d =
              if checkPaths l (d + 1) = -1 then -1
              else if checkPaths r (d + 1) = -1 then -1
              else if checkPaths l (d + 1) ≠ checkPaths r (d + 1) then -1
              else checkPaths l (d + 1) := by
            simp only [checkPaths, hl, hr, false_and, and_self, if_false, ne_eq,
              not_false_eq_true, true_and, if_true]
          obtain ⟨a, ha⟩ := List.exists_mem_of_ne_nil _ (leafDepths_ne_nil l (d + 1) hl)
          obtain ⟨b, hb⟩ := List.exists_mem_of_ne_nil _ (leafDepths_ne_nil r (d + 1) hr)
          rw [hc, hL]
          constructor
          · intro hall x hx
            have hallL : AllSame (leafDepths l (d + 1)) := fun u hu w hw =>
              hall u (List.mem_append_left _ hu) w (List.mem_append_left _ hw)
            have hallR : AllSame (leafDepths r (d + 1)) := fun u hu w hw =>
              hall u (List.mem_append_right _ hu) w (List.mem_append_right _ hw)
            have h1 := ihL.1 hallL a ha
            have h2 := ihR.1 hallR b hb
            have hab : a = b := hall a (List.mem_append_left _ ha) b (List.mem_append_right _ hb)
            have hxa : x = a := hall x hx a (List.mem_append_left _ ha)
            rw [h1, h2]
            subst hab hxa
            split_ifs <;> first | rfl | omega
          · intro hnall
            by_cases hallL : AllSame (leafDepths l (d + 1))
            · by_cases hallR : AllSame (leafDepths r (d + 1))
              · have h1 := ihL.1 hallL a ha
                have h2 := ihR.1 hallR b hb
                have hab : a ≠ b := by
                  intro hab
                  apply hnall
                  intro u hu w hw
                  have hu1 : u = a := by
                    rcases List.mem_append.1 hu with hu | hu
                    · exact hallL u hu a ha
                    · rw [hab]; exact hallR u hu b hb
                  have hw1 : w = a := by
                    rcases List.mem_append.1 hw with hw | hw
                    · exact hallL w hw a ha
                    · rw [hab]; exact hallR w hw b hb
                  rw [hu1, hw1]
                rw [h1, h2]
                split_ifs with h3 h4
                · rfl
                · rfl
                · rfl
              · rw [ihR.2 hallR]
                split_ifs <;> rfl
            · rw [ihL.2 hallL]
              simp

/-- C14: `equalPaths(root)` returns true if and only if all leaves of the binary tree
lie at the same depth (true for the empty tree); `checkPaths(node, depth)` on a non-null
node returns the common depth of the leaves of that subtree (the node itself counted at
the given depth) when they are all equal, and `-1` when two leaves differ in depth. -/
theorem equalPaths_correct (root node : Node) (depth : Int) (hnode : node ≠ null) :
    (equalPaths root = true ↔ AllSame (leafDepths root 0)) ∧
    (AllSame (leafDepths node depth) →
      ∃ d, d ∈ leafDepths node depth ∧ (∀ x ∈ leafDepths node depth, x = d) ∧
        checkPaths node depth = d) ∧
    (¬ AllSame (leafDepths node depth) → checkPaths node depth = -1) := by
  refine ⟨?_, ?_, (checkPaths_spec node depth hnode).2⟩
  · by_cases hroot : root = null
    · subst hroot
      simp [equalPaths, leafDepths, AllSame]
    · simp only [equalPaths, if_neg hroot, decide_eq_true_eq]
      obtain ⟨a, ha⟩ := List.exists_mem_of_ne_nil _ (leafDepths_ne_nil root 0 hroot)
      constructor
      · intro hne
        by_contra hall
        exact hne ((checkPaths_spec root 0 hroot).2 hall)
      · intro hall hc
        have h1 := (checkPaths_spec root 0 hroot).1 hall a ha
        have h2 := leafDepths_ge root 0 a ha
        omega
  · intro hall
    obtain ⟨a, ha⟩ := List.exists_mem_of_ne_nil _ (leafDepths_ne_nil node depth hnode)
    exact ⟨a, ha, fun x hx => hall x hx a ha, (checkPaths_spec node depth hnode).1 hall a ha⟩

/-- Witness for C14: a three-node tree with both leaves at depth 1. -/
theorem equalPaths_correct_witness :
    (equalPaths (branch (branch null 1 null) 2 (branch null 3 null)) = true ↔
      AllSame (leafDepths (branch (branch null 1 null) 2 (branch null 3 null)) 0)) ∧
    (AllSame (leafDepths (branch (branch null 1 null) 2 (branch null 3 null)) 0) →
      ∃ d, d ∈ leafDepths (branch (branch null 1 null) 2 (branch null 3 null)) 0 ∧
        (∀ x ∈ leafDepths (branch (branch null 1 null) 2 (branch null 3 null)) 0, x = d) ∧
        checkPaths (branch (branch null 1 null) 2 (branch null 3 null)) 0 = d) ∧
    (¬ AllSame (leafDepths (branch (branch null 1 null) 2 (branch null 3 null)) 0) →
      checkPaths (branch (branch null 1 null) 2 (branch null 3 null)) 0 = -1) :=
  equalPaths_correct (branch (branch null 1 null) 2 (branch null 3 null))
    (branch (branch null 1 null) 2 (branch null 3 null)) 0 (by decide)

end EqualPaths

/-! ## The pointer-level model refines the tree model -/

namespace Linked

open LinkedNode

variable {K V : Type}

theorem erase_setParent (t : LinkedNode K V) (p : Option Nat) :
    erase (setParent t p) = erase t := by
  cases t <;> rfl

theorem calcHeight_setParent (t : LinkedNode K V) (p : Option Nat) :
    LinkedNode.calcHeight (setParent t p) = LinkedNode.calcHeight t := by
  cases t <;> rfl

theorem size_setParent (t : LinkedNode K V) (p : Option Nat) :
    LinkedNode.size (setParent t p) = LinkedNode.size t := by
  cases t <;> rfl

theorem addresses_setParent (t : LinkedNode K V) (p : Option Nat) :
    addresses (setParent t p) = addresses t := by
  cases t <;> rfl

theorem rotateRight_erase (t : LinkedNode K V) :
    (rotateRight t).map erase = AVLTree.rotateRight (erase t) := by
  cases t with
  | null => rfl
  | cell a p l k v b r =>
      cases l with
      | null => rfl
      | cell la lp ll lk lv lb lr =>
          simp [rotateRight, AVLTree.rotateRight, erase, erase_setParent,
            LinkedNode.calcHeight]

theorem rotateLeft_erase (t : LinkedNode K V) :
    (rotateLeft t).map erase = AVLTree.rotateLeft (erase t) := by
  cases t with
  | null => rfl
  | cell a p l k v b r =>
      cases r with
      | null => rfl
      | cell ra rp rl rk rv rb rr =>
          simp [rotateLeft, AVLTree.rotateLeft, erase, erase_setParent,
            LinkedNode.calcHeight]

theorem balanceLeft_erase (t : LinkedNode K V) :
    (balanceLeft t).map erase = AVLTree.balanceLeft (erase t) := by
  cases t with
  | null => rfl
  | cell a p l k v b r =>
      cases l with
      | null => rfl
      | cell la lp ll lk lv lb lr =>
          simp only [balanceLeft, AVLTree.balanceLeft, erase]
          split_ifs with h
          · exact rotateRight_erase _
          · have hl := rotateLeft_erase (cell la lp ll lk lv lb lr)
            simp only [erase] at hl
            rw [← hl]
            cases hrl : rotateLeft (cell la lp ll lk lv lb lr) with
            | none => rfl
            | some l1 =>
                have := rotateRight_erase (cell a p (setParent l1 (some a)) k v b r)
                simpa only [erase, erase_setParent, Option.map_some'] using this

theorem balanceRight_erase (t : LinkedNode K V) :
    (balanceRight t).map erase = AVLTree.balanceRight (erase t) := by
  cases t with
  | null => rfl
  | cell a p l k v b r =>
      cases r with
      | null => rfl
      | cell ra rp rl rk rv rb rr =>
          simp only [balanceRight, AVLTree.balanceRight, erase]
          split_ifs with h
          · exact rotateLeft_erase _
          · have hr := rotateRight_erase (cell ra rp rl rk rv rb rr)
            simp only [erase] at hr
            rw [← hr]
            cases hrr : rotateRight (cell ra rp rl rk rv rb rr) with
            | none => rfl
            | some r1 =>
                have := rotateLeft_erase (cell a p l k v b (setParent r1 (some a)))
                simpa only [erase, erase_setParent, Option.map_some'] using this

variable [LinearOrder K]

theorem insertHelper_erase (t : LinkedNode K V) (k : K) (v : V) (fresh : Nat) :
    (insertHelper t k v fresh).map InsertResult.erase =
      AVLTree.insertHelper (erase t) k v := by
  induction t with
  | null => rfl
  | cell a p l key value b r ihl ihr =>
      by_cases h1 : k < key
      · simp only [insertHelper, AVLTree.insertHelper, erase, if_pos h1]
        rw [← ihl]
        cases hres : insertHelper l k v fresh with
        | none => rfl
        | some res =>
            simp only [Option.map_some', InsertResult.erase]
            by_cases h3 : res.taller = true
            · simp only [h3, if_true]
              by_cases h4 : wrap8 (b + 1) = 0
              · simp only [if_pos h4, Option.map_some', InsertResult.erase, erase,
                  erase_setParent]
              · by_cases h5 : wrap8 (b + 1) = 2
                · simp only [if_neg h4, if_pos h5]
                  have hb := balanceLeft_erase
                    (cell a p (setParent res.root (some a)) key value (wrap8 (b + 1)) r)
                  simp only [erase, erase_setParent] at hb
                  rw [← hb]
                  cases balanceLeft
                    (cell a p (setParent res.root (some a)) key value (wrap8 (b + 1)) r) <;> rfl
                · simp only [if_neg h4, if_neg h5, Option.map_some', InsertResult.erase, erase,
                    erase_setParent]
            · simp only [h3, if_false, Bool.false_eq_true, Option.map_some',
                InsertResult.erase, erase, erase_setParent]
      · by_cases h2 : k > key
        · simp only [insertHelper, AVLTree.insertHelper, erase, if_neg h1, if_pos h2]
          rw [← ihr]
          cases hres : insertHelper r k v fresh with
          | none => rfl
          | some res =>
              simp only [Option.map_some', InsertResult.erase]
              by_cases h3 : res.taller = true
              · simp only [h3, if_true]
                by_cases h4 : wrap8 (b + -1) = 0
                · simp only [if_pos h4, Option.map_some', InsertResult.erase, erase,
                    erase_setParent]
                · by_cases h5 : wrap8 (b + -1) = -2
                  · simp only [if_neg h4, if_pos h5]
                    have hb := balanceRight_erase
                      (cell a p l key value (wrap8 (b + -1)) (setParent res.root (some a)))
                    simp only [erase, erase_setParent] at hb
                    rw [← hb]
                    cases balanceRight
                      (cell a p l key value (wrap8 (b + -1)) (setParent res.root (some a))) <;>
                      rfl
                  · simp only [if_neg h4, if_neg h5, Option.map_some', InsertResult.erase,
                      erase, erase_setParent]
              · simp only [h3, if_false, Bool.false_eq_true, Option.map_some',
                  InsertResult.erase, erase, erase_setParent]
        · simp only [insertHelper, AVLTree.insertHelper, erase, if_neg h1, if_neg h2,
            Option.map_some', InsertResult.erase]

theorem insert_erase (t : LinkedNode K V) (new_item : K × V) (fresh : Nat) :
    (insert t new_item fresh).map erase = AVLTree.insert (erase t) new_item := by
  simp only [insert, AVLTree.insert, ← insertHelper_erase t new_item.1 new_item.2 fresh,
    Option.map_map]
  congr 1
  funext res
  simp [InsertResult.erase, erase_setParent]

end Linked

namespace Linked

open LinkedNode

variable {K V : Type}

theorem rightmost_erase (t : LinkedNode K V) :
    erase (rightmost t) = AVLTree.rightmost (erase t) := by
  induction t with
  | null => rfl
  | cell a p l k v b r _ ihr =>
      cases r with
      | null => rfl
      | cell ra rp rl rk rv rb rr =>
          simp only [rightmost, erase, AVLTree.rightmost] at ihr ⊢
          exact ihr

theorem predecessor_erase (t : LinkedNode K V) :
    erase (predecessor t) = AVLTree.predecessor (erase t) := by
  cases t with
  | null => rfl
  | cell a p l k v b r =>
      cases l with
      | null => rfl
      | cell la lp ll lk lv lb lr =>
          simp only [predecessor, erase, AVLTree.predecessor]
          exact rightmost_erase (cell la lp ll lk lv lb lr)

theorem isAdjacent_erase (t : LinkedNode K V) :
    isAdjacent t = AVLTree.isAdjacent (erase t) := by
  cases t with
  | null => rfl
  | cell a p l k v b r =>
      cases l with
      | null => rfl
      | cell la lp ll lk lv lb lr =>
          cases lr <;> rfl

theorem placeAtRightmost_erase (a1 : Nat) (k : K) (v : V) (t : LinkedNode K V) :
    erase (placeAtRightmost a1 k v t) = AVLTree.placeAtRightmost k v (erase t) := by
  induction t with
  | null => rfl
  | cell a p l k0 v0 b0 r _ ihr =>
      cases r with
      | null => simp [placeAtRightmost, erase, AVLTree.placeAtRightmost, erase_setParent]
      | cell ra rp rl rk rv rb rr =>
          simp only [placeAtRightmost, erase, AVLTree.placeAtRightmost] at ihr ⊢
          rw [ihr]

theorem rightmost_cell (t : LinkedNode K V) (ht : t ≠ null) :
    ∃ pa pp pl pk pv pb, rightmost t = cell pa pp pl pk pv pb null := by
  induction t with
  | null => exact absurd rfl ht
  | cell a p l k v b r _ ihr =>
      cases r with
      | null => exact ⟨a, p, l, k, v, b, rfl⟩
      | cell ra rp rl rk rv rb rr =>
          simpa only [rightmost] using ihr (by simp)

theorem nodeSwap_erase (n1 n2 : LinkedNode K V) :
    (nodeSwap n1 n2).map erase = AVLTree.nodeSwap (erase n1) (erase n2) := by
  cases n1 with
  | null => rfl
  | cell a1 p1 l k v b r =>
      cases n2 with
      | null => rfl
      | cell a2 p2 pl pk pv pb temp =>
          have hadj := isAdjacent_erase (cell a1 p1 l k v b r)
          simp only [erase] at hadj
          simp only [nodeSwap, AVLTree.nodeSwap, erase, hadj]
          split_ifs with h
          · simp [erase, erase_setParent]
          · simp [erase, erase_setParent, placeAtRightmost_erase]

theorem size_placeAtLinked (a1 : Nat) (k : K) (v : V) (t : LinkedNode K V) :
    LinkedNode.size (placeAtRightmost a1 k v t) = LinkedNode.size t := by
  induction t with
  | null => rfl
  | cell a p l k0 v0 b0 r _ ihr =>
      cases r with
      | null => simp [placeAtRightmost, LinkedNode.size, size_setParent]
      | cell ra rp rl rk rv rb rr =>
          simp only [placeAtRightmost, LinkedNode.size] at ihr ⊢; omega

/-- On a two-child node `nodeSwap` with the predecessor returns a node with as many nodes
below it. -/
theorem nodeSwap_two (a : Nat) (p : Option Nat) (l r : LinkedNode K V) (k : K) (v : V)
    (b : Int) (hl : l ≠ null) :
    ∃ sa sp sl sk sv sb sr,
      nodeSwap (cell a p l k v b r) (predecessor (cell a p l k v b r)) =
        some (cell sa sp sl sk sv sb sr) ∧
      LinkedNode.size sl + 1 + LinkedNode.size sr = LinkedNode.size (cell a p l k v b r) := by
  cases l with
  | null => exact absurd rfl hl
  | cell la lp ll lk lv lb lr =>
      cases lr with
      | null =>
          refine ⟨la, p, ll, lk, lv, b, cell a (some la) (setParent null (some a)) k v lb r,
            rfl, ?_⟩
          simp only [LinkedNode.size, setParent]; omega
      | cell ra rp rl rk rv rb rr =>
          obtain ⟨pa, pp, pl, pk, pv, pb, hp⟩ :=
            rightmost_cell (cell ra rp rl rk rv rb rr) (by simp)
          refine ⟨pa, p, setParent (placeAtRightmost a k v
            (cell la lp ll lk lv lb (cell ra rp rl rk rv rb rr))) (some pa), pk, pv, b,
            setParent r (some pa), ?_, ?_⟩
          · simp only [nodeSwap, predecessor, rightmost, hp, isAdjacent, Bool.false_eq_true,
              if_false]
          · have := size_placeAtLinked a k v
              (cell la lp ll lk lv lb (cell ra rp rl rk rv rb rr))
            simp only [LinkedNode.size, size_setParent] at this ⊢
            omega

theorem recomputeBalance_erase (t : LinkedNode K V) (s : Bool) (n : Nat) :
    (recomputeBalance t s n).map RemoveResult.erase =
      AVLTree.recomputeBalance (erase t) s n := by
  cases t with
  | null => rfl
  | cell a p l k v b r =>
      simp only [recomputeBalance, AVLTree.recomputeBalance, erase, LinkedNode.calcHeight]
      by_cases h2 : wrap8 ((AVLTree.calcHeight (erase l) : Int) -
          (AVLTree.calcHeight (erase r) : Int)) = 2
      · simp only [if_pos h2]
        have hb := balanceLeft_erase (cell a p l k v
          (wrap8 ((AVLTree.calcHeight (erase l) : Int) - (AVLTree.calcHeight (erase r) : Int))) r)
        simp only [erase] at hb
        rw [← hb]
        cases balanceLeft (cell a p l k v
          (wrap8 ((AVLTree.calcHeight (erase l) : Int) - (AVLTree.calcHeight (erase r) : Int)))
          r) <;> rfl
      · by_cases hm2 : wrap8 ((AVLTree.calcHeight (erase l) : Int) -
            (AVLTree.calcHeight (erase r) : Int)) = -2
        · simp only [if_neg h2, if_pos hm2]
          have hb := balanceRight_erase (cell a p l k v
            (wrap8 ((AVLTree.calcHeight (erase l) : Int) -
              (AVLTree.calcHeight (erase r) : Int))) r)
          simp only [erase] at hb
          rw [← hb]
          cases balanceRight (cell a p l k v
            (wrap8 ((AVLTree.calcHeight (erase l) : Int) -
              (AVLTree.calcHeight (erase r) : Int))) r) <;> rfl
        · simp only [if_neg h2, if_neg hm2, Option.map_some', RemoveResult.erase, erase]

end Linked

section RemovalUnfolding

variable {K V : Type} [LinearOrder K]

/-- Unfolding of `removeHelper` at a node with two children holding the key. -/
theorem AVLTree.removeHelper_twoChildren (l r sl sr : AVLNode K V) (k key sk : K)
    (v sv : V) (b sb : Int) (h1 : ¬ key < k) (h2 : ¬ key > k) (hl : l ≠ nil) (hr : r ≠ nil)
    (hs : AVLTree.nodeSwap (node l k v b r) (AVLTree.predecessor (node l k v b r)) =
      some (node sl sk sv sb sr)) :
    AVLTree.removeHelper (node l k v b r) key =
      if AVLTree.isAdjacent (node l k v b r) then
        (AVLTree.removeHelper sr key).bind fun res =>
          AVLTree.recomputeBalance (node sl sk sv sb res.root) res.success res.rebalances
      else
        (AVLTree.removeHelper sl key).bind fun res =>
          AVLTree.recomputeBalance (node res.root sk sv sb sr) res.success res.rebalances := by
  cases l with
  | nil => exact absurd rfl hl
  | node ll lk lv lb lr =>
      cases r with
      | nil => exact absurd rfl hr
      | node rl rk rv rb rr =>
          rw [AVLTree.removeHelper.eq_def]
          simp only [if_neg h1, if_neg h2]
          split
          · rename_i heq
            rw [hs] at heq; simp at heq
          · rename_i heq
            rw [hs] at heq; simp at heq
          · rename_i sl1 sk1 sv1 sb1 sr1 heq
            rw [hs] at heq
            simp only [Option.some.injEq, node.injEq] at heq
            obtain ⟨rfl, rfl, rfl, rfl, rfl⟩ := heq
            rfl

end RemovalUnfolding

namespace Linked

open LinkedNode

variable {K V : Type} [LinearOrder K]

theorem unfold_null (key : K) :
    removeHelper (null : LinkedNode K V) key = some ⟨null, false, false, 0⟩ := by
  rw [removeHelper.eq_def]

theorem unfold_lt (a : Nat) (p : Option Nat) (l r : LinkedNode K V) (k key : K) (v : V)
    (b : Int) (h : key < k) :
    removeHelper (cell a p l k v b r) key =
      (removeHelper l key).bind fun res =>
        recomputeBalance
          (cell a p (setParent res.root (some a)) k v
            (if res.shorter then wrap8 (b + -1) else b) r)
          res.success res.rebalances := by
  rw [removeHelper.eq_def]
  simp only [if_pos h]

theorem unfold_gt (a : Nat) (p : Option Nat) (l r : LinkedNode K V) (k key : K) (v : V)
    (b : Int) (h1 : ¬ key < k) (h : key > k) :
    removeHelper (cell a p l k v b r) key =
      (removeHelper r key).bind fun res =>
        recomputeBalance
          (cell a p l k v (if res.shorter then wrap8 (b + 1) else b)
            (setParent res.root (some a)))
          res.success res.rebalances := by
  rw [removeHelper.eq_def]
  simp only [if_neg h1, if_pos h]

theorem unfold_leftNull (a : Nat) (p : Option Nat) (r : LinkedNode K V) (k key : K)
    (v : V) (b : Int) (h1 : ¬ key < k) (h2 : ¬ key > k) :
    removeHelper (cell a p null k v b r) key = some ⟨r, true, true, 0⟩ := by
  rw [removeHelper.eq_def]
  simp only [if_neg h1, if_neg h2]

theorem unfold_rightNull (a : Nat) (p : Option Nat) (l : LinkedNode K V) (k key : K)
    (v : V) (b : Int) (h1 : ¬ key < k) (h2 : ¬ key > k) (hl : l ≠ null) :
    removeHelper (cell a p l k v b null) key = some ⟨l, true, true, 0⟩ := by
  cases l with
  | null => exact absurd rfl hl
  | cell la lp ll lk lv lb lr =>
      rw [removeHelper.eq_def]
      simp only [if_neg h1, if_neg h2]

theorem unfold_twoChildren (a sa : Nat) (p sp : Option Nat) (l r sl sr : LinkedNode K V)
    (k key sk : K) (v sv : V) (b sb : Int) (h1 : ¬ key < k) (h2 : ¬ key > k)
    (hl : l ≠ null) (hr : r ≠ null)
    (hs : nodeSwap (cell a p l k v b r) (predecessor (cell a p l k v b r)) =
      some (cell sa sp sl sk sv sb sr)) :
    removeHelper (cell a p l k v b r) key =
      if isAdjacent (cell a p l k v b r) then
        (removeHelper sr key).bind fun res =>
          recomputeBalance
            (cell sa sp (setParent sl (some sa)) sk sv sb (setParent res.root (some sa)))
            res.success res.rebalances
      else
        (removeHelper sl key).bind fun res =>
          recomputeBalance
            (cell sa sp (setParent res.root (some sa)) sk sv sb (setParent sr (some sa)))
            res.success res.rebalances := by
  cases l with
  | null => exact absurd rfl hl
  | cell la lp ll lk lv lb lr =>
      cases r with
      | null => exact absurd rfl hr
      | cell ra rp rl rk rv rb rr =>
          rw [removeHelper.eq_def]
          simp only [if_neg h1, if_neg h2]
          split
          · rename_i heq
            rw [hs] at heq; simp at heq
          · rename_i heq
            rw [hs] at heq; simp at heq
          · rename_i sa1 sp1 sl1 sk1 sv1 sb1 sr1 heq
            rw [hs] at heq
            simp only [Option.some.injEq, cell.injEq] at heq
            obtain ⟨rfl, rfl, rfl, rfl, rfl, rfl, rfl⟩ := heq
            rfl

theorem removeHelper_erase_aux (n : Nat) : ∀ (t : LinkedNode K V), LinkedNode.size t ≤ n →
    ∀ key : K, (removeHelper t key).map RemoveResult.erase =
      AVLTree.removeHelper (erase t) key := by
  induction n with
  | zero =>
      intro t hs key
      cases t with
      | null =>
          rw [unfold_null]
          simp only [erase, Option.map_some', RemoveResult.erase]
          rw [AVLTree.removeHelper.eq_def]
      | cell a p l k v b r => simp only [LinkedNode.size] at hs; omega
  | succ n ih =>
      intro t hs key
      cases t with
      | null =>
          rw [unfold_null]
          simp only [erase, Option.map_some', RemoveResult.erase]
          rw [AVLTree.removeHelper.eq_def]
      | cell a p l k v b r =>
          simp only [LinkedNode.size] at hs
          by_cases h1 : key < k
          · rw [unfold_lt _ _ _ _ _ _ _ _ h1]
            simp only [erase]
            rw [removeHelper_lt _ _ _ _ _ _ h1, ← ih l (by omega) key]
            cases removeHelper l key with
            | none => rfl
            | some res =>
                simp only [Option.some_bind, Option.map_some', RemoveResult.erase]
                rw [recomputeBalance_erase]
                simp only [erase, erase_setParent]
          · by_cases h2 : key > k
            · rw [unfold_gt _ _ _ _ _ _ _ _ h1 h2]
              simp only [erase]
              rw [removeHelper_gt _ _ _ _ _ _ h1 h2, ← ih r (by omega) key]
              cases removeHelper r key with
              | none => rfl
              | some res =>
                  simp only [Option.some_bind, Option.map_some', RemoveResult.erase]
                  rw [recomputeBalance_erase]
                  simp only [erase, erase_setParent]
            · cases l with
              | null =>
                  rw [unfold_leftNull _ _ _ _ _ _ _ h1 h2]
                  simp only [erase]
                  rw [removeHelper_leftNil _ _ _ _ _ h1 h2]
                  rfl
              | cell la lp ll lk lv lb lr =>
                  cases r with
                  | null =>
                      rw [unfold_rightNull _ _ _ _ _ _ _ h1 h2 (by simp)]
                      simp only [erase]
                      rw [removeHelper_rightNil _ _ _ _ _ h1 h2 (by simp)]
                      rfl
                  | cell ra rp rl rk rv rb rr =>
                      obtain ⟨sa, sp, sl, sk, sv, sb, sr, hsw, hsz⟩ :=
                        nodeSwap_two a p (cell la lp ll lk lv lb lr)
                          (cell ra rp rl rk rv rb rr) k v b (by simp)
                      have hsw2 := nodeSwap_erase
                        (cell a p (cell la lp ll lk lv lb lr) k v b (cell ra rp rl rk rv rb rr))
                        (predecessor
                          (cell a p (cell la lp ll lk lv lb lr) k v b (cell ra rp rl rk rv rb rr)))
                      rw [hsw, predecessor_erase] at hsw2
                      simp only [Option.map_some', erase] at hsw2
                      have hadj := isAdjacent_erase
                        (cell a p (cell la lp ll lk lv lb lr) k v b (cell ra rp rl rk rv rb rr))
                      simp only [erase] at hadj
                      rw [unfold_twoChildren _ _ _ _ _ _ _ _ _ _ _ _ _ _ _ h1 h2 (by simp)
                        (by simp) hsw]
                      simp only [erase]
                      rw [AVLTree.removeHelper_twoChildren _ _ _ _ _ _ _ _ _ _ _ h1 h2 (by simp)
                        (by simp) hsw2.symm, ← hadj]
                      simp only [LinkedNode.size] at hsz hs
                      split_ifs with hA
                      · rw [← ih sr (by omega) key]
                        cases removeHelper sr key with
                        | none => rfl
                        | some res =>
                            simp only [Option.some_bind, Option.map_some', RemoveResult.erase]
                            rw [recomputeBalance_erase]
                            simp only [erase, erase_setParent]
                      · rw [← ih sl (by omega) key]
                        cases removeHelper sl key with
                        | none => rfl
                        | some res =>
                            simp only [Option.some_bind, Option.map_some', RemoveResult.erase]
                            rw [recomputeBalance_erase]
                            simp only [erase, erase_setParent]

theorem removeHelper_erase (t : LinkedNode K V) (key : K) :
    (removeHelper t key).map RemoveResult.erase = AVLTree.removeHelper (erase t) key :=
  removeHelper_erase_aux (LinkedNode.size t) t (le_refl _) key

theorem remove_erase (t : LinkedNode K V) (key : K) :
    (remove t key).map erase = AVLTree.remove (erase t) key := by
  simp only [remove, AVLTree.remove, ← removeHelper_erase t key, Option.map_map]
  congr 1
  funext res
  simp [RemoveResult.erase, erase_setParent]

end Linked

/-! ## Parent links and addresses under the mutations -/

namespace Linked

open LinkedNode

variable {K V : Type}

theorem childLinked_setParent (t : LinkedNode K V) (a : Nat) :
    ChildLinked a (setParent t (some a)) := by
  cases t <;> simp [setParent, ChildLinked]

theorem parentsBelow_setParent (t : LinkedNode K V) (p : Option Nat) (h : ParentsBelow t) :
    ParentsBelow (setParent t p) := by
  cases t with
  | null => exact h
  | cell a q l k v b r => exact h

theorem rotateRight_links (t s : LinkedNode K V) (h : ParentsBelow t)
    (hs : rotateRight t = some s) : ParentsBelow s ∧ addresses s = addresses t := by
  cases t with
  | null => simp [rotateRight] at hs
  | cell a p l k v b r =>
      cases l with
      | null => simp [rotateRight] at hs
      | cell la lp ll lk lv lb lr =>
          simp only [rotateRight, Option.some.injEq] at hs
          subst hs
          obtain ⟨-, h2, ⟨h3, h4, h5, h6⟩, h7⟩ := h
          refine ⟨⟨h3, rfl, h5, childLinked_setParent lr a, h2,
            parentsBelow_setParent lr _ h6, h7⟩, ?_⟩
          simp only [addresses, addresses_setParent, Multiset.cons_add, Multiset.add_cons,
            add_assoc]
          rw [Multiset.cons_swap]

theorem rotateLeft_links (t s : LinkedNode K V) (h : ParentsBelow t)
    (hs : rotateLeft t = some s) : ParentsBelow s ∧ addresses s = addresses t := by
  cases t with
  | null => simp [rotateLeft] at hs
  | cell a p l k v b r =>
      cases r with
      | null => simp [rotateLeft] at hs
      | cell ra rp rl rk rv rb rr =>
          simp only [rotateLeft, Option.some.injEq] at hs
          subst hs
          obtain ⟨h1, -, h3, ⟨h4, h5, h6, h7⟩⟩ := h
          refine ⟨⟨rfl, h5, ⟨h1, childLinked_setParent rl a, h3,
            parentsBelow_setParent rl _ h6⟩, h7⟩, ?_⟩
          simp only [addresses, addresses_setParent, Multiset.cons_add, Multiset.add_cons,
            add_assoc]
          rw [Multiset.cons_swap]

theorem balanceLeft_links (t s : LinkedNode K V) (h : ParentsBelow t)
    (hs : balanceLeft t = some s) : ParentsBelow s ∧ addresses s = addresses t := by
  cases t with
  | null => simp [balanceLeft] at hs
  | cell a p l k v b r =>
      cases l with
      | null => simp [balanceLeft] at hs
      | cell la lp ll lk lv lb lr =>
          simp only [balanceLeft] at hs
          split at hs
          · exact rotateRight_links _ _ h hs
          · cases hl : rotateLeft (cell la lp ll lk lv lb lr) with
            | none => simp [hl] at hs
            | some l1 =>
                simp only [hl] at hs
                obtain ⟨h1, h2, h3, h4⟩ := h
                obtain ⟨hp1, ha1⟩ := rotateLeft_links _ _ h3 hl
                have hpb : ParentsBelow (cell a p (setParent l1 (some a)) k v b r) :=
                  ⟨childLinked_setParent l1 a, h2, parentsBelow_setParent l1 _ hp1, h4⟩
                obtain ⟨hp2, ha2⟩ := rotateRight_links _ _ hpb hs
                refine ⟨hp2, ?_⟩
                rw [ha2]
                simp only [addresses, addresses_setParent, ha1]

theorem balanceRight_links (t s : LinkedNode K V) (h : ParentsBelow t)
    (hs : balanceRight t = some s) : ParentsBelow s ∧ addresses s = addresses t := by
  cases t with
  | null => simp [balanceRight] at hs
  | cell a p l k v b r =>
      cases r with
      | null => simp [balanceRight] at hs
      | cell ra rp rl rk rv rb rr =>
          simp only [balanceRight] at hs
          split at hs
          · exact rotateLeft_links _ _ h hs
          · cases hr : rotateRight (cell ra rp rl rk rv rb rr) with
            | none => simp [hr] at hs
            | some r1 =>
                simp only [hr] at hs
                obtain ⟨h1, h2, h3, h4⟩ := h
                obtain ⟨hp1, ha1⟩ := rotateRight_links _ _ h4 hr
                have hpb : ParentsBelow (cell a p l k v b (setParent r1 (some a))) :=
                  ⟨h1, childLinked_setParent r1 a, h3, parentsBelow_setParent r1 _ hp1⟩
                obtain ⟨hp2, ha2⟩ := rotateLeft_links _ _ hpb hs
                refine ⟨hp2, ?_⟩
                rw [ha2]
                simp only [addresses, addresses_setParent, ha1]

theorem addresses_step_left (X L R : Multiset Nat) (a f : Nat) (h : X ≤ f ::ₘ L) :
    a ::ₘ (X + R) ≤ f ::ₘ (a ::ₘ (L + R)) := by
  calc a ::ₘ (X + R) ≤ a ::ₘ ((f ::ₘ L) + R) :=
        Multiset.cons_le_cons a (add_le_add_right h R)
    _ = f ::ₘ (a ::ₘ (L + R)) := by
        rw [Multiset.cons_add, Multiset.cons_swap]

theorem addresses_step_right (X L R : Multiset Nat) (a f : Nat) (h : X ≤ f ::ₘ R) :
    a ::ₘ (L + X) ≤ f ::ₘ (a ::ₘ (L + R)) := by
  calc a ::ₘ (L + X) ≤ a ::ₘ (L + (f ::ₘ R)) :=
        Multiset.cons_le_cons a (add_le_add_left h L)
    _ = f ::ₘ (a ::ₘ (L + R)) := by
        rw [Multiset.add_cons, Multiset.cons_swap]

variable [LinearOrder K]

theorem insertHelper_links (t : LinkedNode K V) (k : K) (v : V) (fresh : Nat)
    (res : InsertResult K V) (h : ParentsBelow t) (hs : insertHelper t k v fresh = some res) :
    ParentsBelow res.root ∧ addresses res.root ≤ fresh ::ₘ addresses t := by
  induction t generalizing res with
  | null =>
      simp only [insertHelper, Option.some.injEq] at hs
      subst hs
      exact ⟨⟨trivial, trivial, trivial, trivial⟩, le_refl _⟩
  | cell a p l key value b r ihl ihr =>
      obtain ⟨h1, h2, h3, h4⟩ := h
      by_cases hk1 : k < key
      · cases hres : insertHelper l k v fresh with
        | none => simp [insertHelper, hk1, hres] at hs
        | some res1 =>
            obtain ⟨hp1, ha1⟩ := ihl res1 h3 hres
            have hpb : ∀ bX, ParentsBelow (cell a p (setParent res1.root (some a)) key value bX r) :=
              fun bX => ⟨childLinked_setParent _ a, h2, parentsBelow_setParent _ _ hp1, h4⟩
            have had : ∀ bX, addresses (cell a p (setParent res1.root (some a)) key value bX r) ≤
                fresh ::ₘ addresses (cell a p l key value b r) := by
              intro bX
              simp only [addresses, addresses_setParent]
              exact addresses_step_left _ _ _ a fresh ha1
            simp only [insertHelper, if_pos hk1, hres] at hs
            by_cases h3 : res1.taller = true
            · simp only [h3, if_true] at hs
              by_cases h4 : wrap8 (b + 1) = 0
              · simp only [if_pos h4, Option.some.injEq] at hs
                subst hs
                exact ⟨hpb _, had _⟩
              · by_cases h5 : wrap8 (b + 1) = 2
                · simp only [if_neg h4, if_pos h5] at hs
                  cases hb : balanceLeft
                      (cell a p (setParent res1.root (some a)) key value (wrap8 (b + 1)) r) with
                  | none => simp [hb] at hs
                  | some t1 =>
                      simp only [hb, Option.some.injEq] at hs
                      subst hs
                      obtain ⟨hp2, ha2⟩ := balanceLeft_links _ _ (hpb _) hb
                      exact ⟨hp2, by rw [ha2]; exact had _⟩
                · simp only [if_neg h4, if_neg h5, Option.some.injEq] at hs
                  subst hs
                  exact ⟨hpb _, had _⟩
            · simp only [h3, if_false, Bool.false_eq_true, Option.some.injEq] at hs
              subst hs
              exact ⟨hpb _, had _⟩
      · by_cases hk2 : k > key
        · cases hres : insertHelper r k v fresh with
          | none => simp [insertHelper, hk1, hk2, hres] at hs
          | some res1 =>
              obtain ⟨hp1, ha1⟩ := ihr res1 h4 hres
              have hpb : ∀ bX,
                  ParentsBelow (cell a p l key value bX (setParent res1.root (some a))) :=
                fun bX => ⟨h1, childLinked_setParent _ a, h3, parentsBelow_setParent _ _ hp1⟩
              have had : ∀ bX,
                  addresses (cell a p l key value bX (setParent res1.root (some a))) ≤
                  fresh ::ₘ addresses (cell a p l key value b r) := by
                intro bX
                simp only [addresses, addresses_setParent]
                exact addresses_step_right _ _ _ a fresh ha1
              simp only [insertHelper, if_neg hk1, if_pos hk2, hres] at hs
              by_cases h3 : res1.taller = true
              · simp only [h3, if_true] at hs
                by_cases h4 : wrap8 (b + -1) = 0
                · simp only [if_pos h4, Option.some.injEq] at hs
                  subst hs
                  exact ⟨hpb _, had _⟩
                · by_cases h5 : wrap8 (b + -1) = -2
                  · simp only [if_neg h4, if_pos h5] at hs
                    cases hb : balanceRight
                        (cell a p l key value (wrap8 (b + -1)) (setParent res1.root (some a))) with
                    | none => simp [hb] at hs
                    | some t1 =>
                        simp only [hb, Option.some.injEq] at hs
                        subst hs
                        obtain ⟨hp2, ha2⟩ := balanceRight_links _ _ (hpb _) hb
                        exact ⟨hp2, by rw [ha2]; exact had _⟩
                  · simp only [if_neg h4, if_neg h5, Option.some.injEq] at hs
                    subst hs
                    exact ⟨hpb _, had _⟩
              · simp only [h3, if_false, Bool.false_eq_true, Option.some.injEq] at hs
                subst hs
                exact ⟨hpb _, had _⟩
        · simp only [insertHelper, if_neg hk1, if_neg hk2, Option.some.injEq] at hs
          subst hs
          exact ⟨⟨h1, h2, h3, h4⟩, Multiset.le_cons_self _ _⟩

theorem rootUnlinked_setParent (t : LinkedNode K V) : RootUnlinked (setParent t none) := by
  cases t <;> simp [setParent, RootUnlinked]

theorem insert_links (t t1 : LinkedNode K V) (new_item : K × V) (fresh : Nat)
    (h : LinksConsistent t) (hf : fresh ∉ addresses t)
    (hs : insert t new_item fresh = some t1) : LinksConsistent t1 := by
  simp only [insert, Option.map_eq_some'] at hs
  obtain ⟨res, hres, rfl⟩ := hs
  obtain ⟨hp, ha⟩ := insertHelper_links t _ _ fresh res h.2.1 hres
  refine ⟨?_, parentsBelow_setParent _ _ hp, rootUnlinked_setParent _⟩
  rw [addresses_setParent]
  exact Multiset.nodup_of_le ha (Multiset.nodup_cons.2 ⟨hf, h.1⟩)

end Linked

namespace Linked

open LinkedNode

variable {K V : Type}

theorem childLinked_placeAtRightmost (a1 x : Nat) (k : K) (v : V) (t : LinkedNode K V)
    (h : ChildLinked x t) : ChildLinked x (placeAtRightmost a1 k v t) := by
  cases t with
  | null => exact h
  | cell a p l k0 v0 b0 r =>
      cases r with
      | null => exact h
      | cell ra rp rl rk rv rb rr => exact h

theorem placeAtRightmost_links (a1 : Nat) (k : K) (v : V) (t : LinkedNode K V)
    (h : ParentsBelow t) (ht : t ≠ null) :
    ParentsBelow (placeAtRightmost a1 k v t) ∧
      ∃ pa pp pl pk pv pb, rightmost t = cell pa pp pl pk pv pb null ∧
        pa ::ₘ addresses (placeAtRightmost a1 k v t) = a1 ::ₘ addresses t := by
  induction t with
  | null => exact absurd rfl ht
  | cell a p l k0 v0 b0 r _ ihr =>
      obtain ⟨h1, h2, h3, h4⟩ := h
      cases r with
      | null =>
          refine ⟨⟨childLinked_setParent l a1, trivial, parentsBelow_setParent l _ h3, trivial⟩,
            a, p, l, k0, v0, b0, rfl, ?_⟩
          simp only [placeAtRightmost, addresses, addresses_setParent]
          rw [Multiset.cons_swap]
      | cell ra rp rl rk rv rb rr =>
          obtain ⟨hp, pa, pp, pl, pk, pv, pb, hr, hadd⟩ := ihr h4 (by simp)
          refine ⟨⟨h1, childLinked_placeAtRightmost a1 a k v _ h2, h3, hp⟩,
            pa, pp, pl, pk, pv, pb, by simpa only [rightmost] using hr, ?_⟩
          simp only [placeAtRightmost, addresses]
          rw [Multiset.cons_swap, ← Multiset.add_cons, hadd, Multiset.add_cons,
            Multiset.cons_swap]
          rfl

theorem nodeSwap_links (a : Nat) (p : Option Nat) (l r s : LinkedNode K V) (k : K) (v : V)
    (b : Int) (h : ParentsBelow (cell a p l k v b r))
    (hs : nodeSwap (cell a p l k v b r) (predecessor (cell a p l k v b r)) = some s) :
    ParentsBelow s ∧ addresses s = addresses (cell a p l k v b r) := by
  obtain ⟨h1, h2, h3, h4⟩ := h
  cases l with
  | null => simp [nodeSwap, predecessor] at hs
  | cell la lp ll lk lv lb lr =>
      cases lr with
      | null =>
          simp only [nodeSwap, predecessor, rightmost, isAdjacent, if_true,
            Option.some.injEq] at hs
          subst hs
          obtain ⟨h5, -, h7, -⟩ := h3
          refine ⟨⟨h5, rfl, h7, trivial, h2, trivial, h4⟩, ?_⟩
          simp only [addresses, setParent, Multiset.cons_add, Multiset.add_cons, zero_add,
            add_zero]
          rw [Multiset.cons_swap]
      | cell ra rp rl rk rv rb rr =>
          obtain ⟨hp, pa, pp, pl, pk, pv, pb, hr, hadd⟩ :=
            placeAtRightmost_links a k v (cell la lp ll lk lv lb (cell ra rp rl rk rv rb rr))
              h3 (by simp)
          have hr2 : rightmost (cell ra rp rl rk rv rb rr) = cell pa pp pl pk pv pb null := by
            simpa only [rightmost] using hr
          simp only [nodeSwap, predecessor, rightmost, hr2, isAdjacent, Bool.false_eq_true,
            if_false, Option.some.injEq] at hs
          subst hs
          refine ⟨⟨childLinked_setParent _ pa, childLinked_setParent _ pa,
            parentsBelow_setParent _ _ hp, parentsBelow_setParent _ _ h4⟩, ?_⟩
          simp only [addresses, addresses_setParent] at hadd ⊢
          rw [← Multiset.cons_add, hadd, Multiset.cons_add]

theorem recomputeBalance_links (t : LinkedNode K V) (s : Bool) (n : Nat)
    (res : RemoveResult K V) (h : ParentsBelow t) (hs : recomputeBalance t s n = some res) :
    ParentsBelow res.root ∧ addresses res.root = addresses t := by
  cases t with
  | null => simp [recomputeBalance] at hs
  | cell a p l k v b r =>
      have hpb : ∀ bX, ParentsBelow (cell a p l k v bX r) := fun _ => h
      simp only [recomputeBalance] at hs
      split_ifs at hs with h2 hm2
      · cases hb : balanceLeft (cell a p l k v
            (wrap8 ((LinkedNode.calcHeight l : Int) - (LinkedNode.calcHeight r : Int))) r) with
        | none => simp [hb] at hs
        | some t1 =>
            simp only [hb, Option.some.injEq] at hs
            subst hs
            have hl := balanceLeft_links _ t1 (hpb _) hb
            exact ⟨hl.1, hl.2⟩
      · cases hb : balanceRight (cell a p l k v
            (wrap8 ((LinkedNode.calcHeight l : Int) - (LinkedNode.calcHeight r : Int))) r) with
        | none => simp [hb] at hs
        | some t1 =>
            simp only [hb, Option.some.injEq] at hs
            subst hs
            have hl := balanceRight_links _ t1 (hpb _) hb
            exact ⟨hl.1, hl.2⟩
      · simp only [Option.some.injEq] at hs
        subst hs
        exact ⟨hpb _, rfl⟩

variable [LinearOrder K]

theorem removeHelper_links_aux (n : Nat) : ∀ (t : LinkedNode K V), LinkedNode.size t ≤ n →
    ParentsBelow t → ∀ (key : K) (res : RemoveResult K V), removeHelper t key = some res →
      ParentsBelow res.root ∧ addresses res.root ≤ addresses t := by
  induction n with
  | zero =>
      intro t hs _ key res hres
      cases t with
      | null =>
          rw [unfold_null, Option.some.injEq] at hres
          subst hres
          exact ⟨trivial, le_refl _⟩
      | cell a p l k v b r => simp only [LinkedNode.size] at hs; omega
  | succ n ih =>
      intro t hs hpb key res hres
      cases t with
      | null =>
          rw [unfold_null, Option.some.injEq] at hres
          subst hres
          exact ⟨trivial, le_refl _⟩
      | cell a p l k v b r =>
          simp only [LinkedNode.size] at hs
          obtain ⟨h1, h2, h3, h4⟩ := hpb
          by_cases hk1 : key < k
          · rw [unfold_lt _ _ _ _ _ _ _ _ hk1] at hres
            cases hr1 : removeHelper l key with
            | none => simp [hr1] at hres
            | some res1 =>
                simp only [hr1, Option.some_bind] at hres
                obtain ⟨hp1, ha1⟩ := ih l (by omega) h3 key res1 hr1
                have hrec := fun hh => recomputeBalance_links _ _ _ res hh hres
                obtain ⟨hp2, ha2⟩ := hrec
                  ⟨childLinked_setParent _ a, h2, parentsBelow_setParent _ _ hp1, h4⟩
                refine ⟨hp2, ?_⟩
                rw [ha2]
                simp only [addresses, addresses_setParent]
                exact Multiset.cons_le_cons a (add_le_add_right ha1 _)
          · by_cases hk2 : key > k
            · rw [unfold_gt _ _ _ _ _ _ _ _ hk1 hk2] at hres
              cases hr1 : removeHelper r key with
              | none => simp [hr1] at hres
              | some res1 =>
                  simp only [hr1, Option.some_bind] at hres
                  obtain ⟨hp1, ha1⟩ := ih r (by omega) h4 key res1 hr1
                  have hrec := fun hh => recomputeBalance_links _ _ _ res hh hres
                  obtain ⟨hp2, ha2⟩ := hrec
                    ⟨h1, childLinked_setParent _ a, h3, parentsBelow_setParent _ _ hp1⟩
                  refine ⟨hp2, ?_⟩
                  rw [ha2]
                  simp only [addresses, addresses_setParent]
                  exact Multiset.cons_le_cons a (add_le_add_left ha1 _)
            · cases l with
              | null =>
                  rw [unfold_leftNull _ _ _ _ _ _ _ hk1 hk2, Option.some.injEq] at hres
                  subst hres
                  refine ⟨h4, ?_⟩
                  simp only [addresses, zero_add]
                  exact Multiset.le_cons_self _ _
              | cell la lp ll lk lv lb lr =>
                  cases r with
                  | null =>
                      rw [unfold_rightNull _ _ _ _ _ _ _ hk1 hk2 (by simp),
                        Option.some.injEq] at hres
                      subst hres
                      refine ⟨h3, ?_⟩
                      simp only [addresses, add_zero]
                      exact Multiset.le_cons_self _ _
                  | cell ra rp rl rk rv rb rr =>
                      obtain ⟨sa, sp, sl, sk, sv, sb, sr, hsw, hsz⟩ :=
                        nodeSwap_two a p (cell la lp ll lk lv lb lr)
                          (cell ra rp rl rk rv rb rr) k v b (by simp)
                      obtain ⟨⟨g1, g2, g3, g4⟩, hsa⟩ :=
                        nodeSwap_links a p _ _ _ k v b ⟨h1, h2, h3, h4⟩ hsw
                      rw [unfold_twoChildren _ _ _ _ _ _ _ _ _ _ _ _ _ _ _ hk1 hk2 (by simp)
                        (by simp) hsw] at hres
                      simp only [LinkedNode.size] at hsz hs
                      rw [← hsa]
                      split_ifs at hres with hA
                      · cases hr1 : removeHelper sr key with
                        | none => simp [hr1] at hres
                        | some res1 =>
                            simp only [hr1, Option.some_bind] at hres
                            obtain ⟨hp1, ha1⟩ := ih sr (by omega) g4 key res1 hr1
                            have hrec := fun hh => recomputeBalance_links _ _ _ res hh hres
                            obtain ⟨hp2, ha2⟩ := hrec
                              ⟨childLinked_setParent _ sa, childLinked_setParent _ sa,
                                parentsBelow_setParent _ _ g3,
                                parentsBelow_setParent _ _ hp1⟩
                            refine ⟨hp2, ?_⟩
                            rw [ha2]
                            simp only [addresses, addresses_setParent]
                            exact Multiset.cons_le_cons sa (add_le_add_left ha1 _)
                      · cases hr1 : removeHelper sl key with
                        | none => simp [hr1] at hres
                        | some res1 =>
                            simp only [hr1, Option.some_bind] at hres
                            obtain ⟨hp1, ha1⟩ := ih sl (by omega) g3 key res1 hr1
                            have hrec := fun hh => recomputeBalance_links _ _ _ res hh hres
                            obtain ⟨hp2, ha2⟩ := hrec
                              ⟨childLinked_setParent _ sa, childLinked_setParent _ sa,
                                parentsBelow_setParent _ _ hp1,
                                parentsBelow_setParent _ _ g4⟩
                            refine ⟨hp2, ?_⟩
                            rw [ha2]
                            simp only [addresses, addresses_setParent]
                            exact Multiset.cons_le_cons sa (add_le_add_right ha1 _)

theorem remove_links (t t1 : LinkedNode K V) (key : K) (h : LinksConsistent t)
    (hs : remove t key = some t1) : LinksConsistent t1 := by
  simp only [remove, Option.map_eq_some'] at hs
  obtain ⟨res, hres, rfl⟩ := hs
  obtain ⟨hp, ha⟩ := removeHelper_links_aux _ t (le_refl _) h.2.1 key res hres
  refine ⟨?_, parentsBelow_setParent _ _ hp, rootUnlinked_setParent _⟩
  rw [addresses_setParent]
  exact Multiset.nodup_of_le ha h.1

end Linked

section LinkProperties

variable {K V : Type} [LinearOrder K]

open LinkedNode

/-- C13: parent/child back-reference consistency is preserved by every public mutation.
For every tree of distinct node objects in which each non-root node has in its parent
link the node of which it is the left or right child, and the root has no parent, the
tree returned by `insert(k, v)` (which allocates a node object at an unused address) or
by `remove(k)` has the same property, after rotations and after the adjacent and the
non-adjacent node interchange alike; on a tree satisfying the core invariants both
operations return, with the tree that the operation gives when the links are left out. -/
theorem parent_links_preserved (t : LinkedNode K V) (new_item : K × V) (fresh : Nat)
    (key : K) (h : Linked.LinksConsistent t) (hf : fresh ∉ addresses t) :
    (∀ t1, Linked.insert t new_item fresh = some t1 → Linked.LinksConsistent t1) ∧
    (∀ t1, Linked.remove t key = some t1 → Linked.LinksConsistent t1) ∧
    (CoreInvariants (erase t) →
      (∃ t1, Linked.insert t new_item fresh = some t1 ∧ Linked.LinksConsistent t1 ∧
        AVLTree.insert (erase t) new_item = some (erase t1)) ∧
      (∃ t1, Linked.remove t key = some t1 ∧ Linked.LinksConsistent t1 ∧
        AVLTree.remove (erase t) key = some (erase t1))) := by
  refine ⟨fun t1 h1 => Linked.insert_links t t1 new_item fresh h hf h1,
    fun t1 h1 => Linked.remove_links t t1 key h h1, fun hinv => ⟨?_, ?_⟩⟩
  · obtain ⟨x, hx, -, -⟩ := insert_spec (erase t) new_item.1 new_item.2 hinv
    have he := Linked.insert_erase t new_item fresh
    cases hi : Linked.insert t new_item fresh with
    | none => rw [hi] at he; rw [← he] at hx; simp at hx
    | some t1 =>
        rw [hi] at he
        exact ⟨t1, rfl, Linked.insert_links t t1 new_item fresh h hf hi, he.symm⟩
  · obtain ⟨x, hx, -, -⟩ := remove_spec (erase t) key hinv
    have he := Linked.remove_erase t key
    cases hi : Linked.remove t key with
    | none => rw [hi] at he; rw [← he] at hx; simp at hx
    | some t1 =>
        rw [hi] at he
        exact ⟨t1, rfl, Linked.remove_links t t1 key h hi, he.symm⟩

/-- Witness for C13: the tree 10(5, 15) with its node objects at addresses 1, 2, 3;
removing 10 goes through the adjacent interchange. -/
theorem parent_links_preserved_witness :
    Linked.LinksConsistent
      (cell 1 none (cell 2 (some 1) null 5 50 0 null) 10 100 0
        (cell 3 (some 1) null 15 150 0 null) : LinkedNode Nat Nat) ∧
    (4 : Nat) ∉ addresses
      (cell 1 none (cell 2 (some 1) null 5 50 0 null) 10 100 0
        (cell 3 (some 1) null 15 150 0 null) : LinkedNode Nat Nat) ∧
    Linked.remove
      (cell 1 none (cell 2 (some 1) null 5 50 0 null) 10 100 0
        (cell 3 (some 1) null 15 150 0 null) : LinkedNode Nat Nat) 10 =
      some (cell 2 none null 5 50 (-1) (cell 3 (some 2) null 15 150 0 null)) ∧
    ∀ t1, Linked.remove
      (cell 1 none (cell 2 (some 1) null 5 50 0 null) 10 100 0
        (cell 3 (some 1) null 15 150 0 null) : LinkedNode Nat Nat) 10 = some t1 →
      Linked.LinksConsistent t1 :=
  ⟨by decide, by decide,
    by simp [Linked.remove, Linked.removeHelper, Linked.nodeSwap, Linked.predecessor,
      Linked.rightmost, Linked.isAdjacent, Linked.recomputeBalance, LinkedNode.calcHeight,
      AVLTree.calcHeight, LinkedNode.erase, LinkedNode.setParent, wrap8],
    (parent_links_preserved _ (0, 0) 4 10 (by decide) (by decide)).2.1⟩

end LinkProperties

/-! ## Rotations, rebalancing dispatch, subscript access and the removal scenario -/

section RotationProperties

variable {K V : Type}

open AVLTree BinarySearchTree

/-- C21, rotations are order-preserving local transforms: for every subtree whose root
has a left child, `rotateRight` returns the subtree rooted at the former left child,
with the old root as its right child and the three subtrees hanging below the two nodes
unchanged (shape, items and balance factors) and in their left to right order, so the
in-order sequence of items is that of the input; and, the subtree being of height at
most 127 (the heights then fit the `int8_t` balance field, as in every tree the
rotations are called on), the stored balance factors of the old root and of the new
root equal `height(left) - height(right)` of their new children.  Symmetrically
`rotateLeft` for a root with a right child. -/
theorem rotation_local_transform (ll lr r l rl rr : AVLNode K V) (lk k rk : K)
    (lv v rv : V) (lb b rb : Int) :
    (∃ bNew bOld : Int,
      rotateRight (node (node ll lk lv lb lr) k v b r) =
        some (node ll lk lv bNew (node lr k v bOld r)) ∧
      inorder (node ll lk lv bNew (node lr k v bOld r)) =
        inorder (node (node ll lk lv lb lr) k v b r) ∧
      (calcHeight (node (node ll lk lv lb lr) k v b r) ≤ 127 →
        bOld = (calcHeight lr : Int) - (calcHeight r : Int) ∧
        bNew = (calcHeight ll : Int) - (calcHeight (node lr k v bOld r) : Int))) ∧
    (∃ bNew bOld : Int,
      rotateLeft (node l k v b (node rl rk rv rb rr)) =
        some (node (node l k v bOld rl) rk rv bNew rr) ∧
      inorder (node (node l k v bOld rl) rk rv bNew rr) =
        inorder (node l k v b (node rl rk rv rb rr)) ∧
      (calcHeight (node l k v b (node rl rk rv rb rr)) ≤ 127 →
        bOld = (calcHeight l : Int) - (calcHeight rl : Int) ∧
        bNew = (calcHeight (node l k v bOld rl) : Int) - (calcHeight rr : Int))) := by
  refine ⟨⟨_, _, rfl, ?_, ?_⟩, ⟨_, _, rfl, ?_, ?_⟩⟩
  · simp [inorder]
  · intro h
    simp only [calcHeight] at h ⊢
    exact ⟨wrap8_of_small _ (by omega) (by omega), wrap8_of_small _ (by omega) (by omega)⟩
  · simp [inorder]
  · intro h
    simp only [calcHeight] at h ⊢
    exact ⟨wrap8_of_small _ (by omega) (by omega), wrap8_of_small _ (by omega) (by omega)⟩

/-- Witness for C21: the right rotation of 3(2(1, -), -) gives 2(1, 3) with balance
factor 0 at both rotated nodes, and the left rotation of 1(-, 2(-, 3)) gives the same
tree. -/
theorem rotation_local_transform_witness :
    calcHeight (node (node (node nil 1 10 0 nil) 2 20 1 nil) 3 30 2 nil : AVLNode Nat Nat) ≤
      127 ∧
    rotateRight (node (node (node nil 1 10 0 nil) 2 20 1 nil) 3 30 2 nil : AVLNode Nat Nat) =
      some (node (node nil 1 10 0 nil) 2 20 0 (node nil 3 30 0 nil)) ∧
    rotateLeft (node nil 1 10 (-2) (node nil 2 20 (-1) (node nil 3 30 0 nil)) :
        AVLNode Nat Nat) =
      some (node (node nil 1 10 0 nil) 2 20 0 (node nil 3 30 0 nil)) ∧
    ∃ bNew bOld : Int,
      rotateRight (node (node (node nil 1 10 0 nil) 2 20 1 nil) 3 30 2 nil :
          AVLNode Nat Nat) =
        some (node (node nil 1 10 0 nil) 2 20 bNew (node nil 3 30 bOld nil)) ∧
      bOld = (calcHeight (nil : AVLNode Nat Nat) : Int) -
        (calcHeight (nil : AVLNode Nat Nat) : Int) ∧
      bNew = (calcHeight (node nil 1 10 0 nil : AVLNode Nat Nat) : Int) -
        (calcHeight (node nil 3 30 bOld nil : AVLNode Nat Nat) : Int) := by
  refine ⟨by decide, rfl, rfl, ?_⟩
  obtain ⟨bNew, bOld, h1, -, h3⟩ :=
    (rotation_local_transform (node nil 1 10 0 nil) nil nil nil nil nil 2 3 0 20 30 0 1 2
      0).1
  exact ⟨bNew, bOld, h1, h3 (by decide)⟩

/-- C22, rebalance dispatch and tie-break: when the left child's balance factor is +1
or 0, `balanceLeft(root)` is the single call `rotateRight(root)`; when it is -1,
`balanceLeft(root)` is `rotateLeft(leftChild)`, whose result becomes the left child of
`root`, followed by `rotateRight(root)`.  When the right child's balance factor is -1 or
0, `balanceRight(root)` is the single call `rotateLeft(root)`; when it is +1 it is
`rotateRight(rightChild)` followed by `rotateLeft(root)`. -/
theorem rebalance_dispatch (ll lr r l rl rr : AVLNode K V) (lk k rk : K)
    (lv v rv : V) (lb b rb : Int) :
    (lb = 1 ∨ lb = 0 →
      balanceLeft (node (node ll lk lv lb lr) k v b r) =
        rotateRight (node (node ll lk lv lb lr) k v b r)) ∧
    (lb = -1 →
      balanceLeft (node (node ll lk lv lb lr) k v b r) =
        (rotateLeft (node ll lk lv lb lr)).bind fun l1 => rotateRight (node l1 k v b r)) ∧
    (rb = -1 ∨ rb = 0 →
      balanceRight (node l k v b (node rl rk rv rb rr)) =
        rotateLeft (node l k v b (node rl rk rv rb rr))) ∧
    (rb = 1 →
      balanceRight (node l k v b (node rl rk rv rb rr)) =
        (rotateRight (node rl rk rv rb rr)).bind fun r1 => rotateLeft (node l k v b r1)) := by
  refine ⟨?_, ?_, ?_, ?_⟩
  · intro h
    have h0 : lb ≥ 0 := by rcases h with h | h <;> omega
    simp only [balanceLeft, if_pos h0]
  · intro h
    have h0 : ¬ lb ≥ 0 := by omega
    simp only [balanceLeft, if_neg h0]
    cases rotateLeft (node ll lk lv lb lr) <;> rfl
  · intro h
    have h0 : rb ≤ 0 := by rcases h with h | h <;> omega
    simp only [balanceRight, if_pos h0]
  · intro h
    have h0 : ¬ rb ≤ 0 := by omega
    simp only [balanceRight, if_neg h0]
    cases rotateRight (node rl rk rv rb rr) <;> rfl

/-- Witness for C22: in the tree 3(2(1, -), -) the left child has balance +1 and
`balanceLeft` is one right rotation; in 3(1(-, 2), -) it has balance -1 and
`balanceLeft` is a left rotation at 1 followed by a right rotation at 3. -/
theorem rebalance_dispatch_witness :
    balanceLeft (node (node (node nil 1 10 0 nil) 2 20 1 nil) 3 30 2 nil : AVLNode Nat Nat) =
      rotateRight (node (node (node nil 1 10 0 nil) 2 20 1 nil) 3 30 2 nil) ∧
    balanceLeft (node (node nil 1 10 (-1) (node nil 2 20 0 nil)) 3 30 2 nil : AVLNode Nat Nat) =
      (rotateLeft (node nil 1 10 (-1) (node nil 2 20 0 nil))).bind
        fun l1 => rotateRight (node l1 3 30 2 nil) :=
  ⟨(rebalance_dispatch (node nil 1 10 0 nil) nil nil nil nil nil 2 3 0 20 30 0 1 2 0).1
      (Or.inl rfl),
    (rebalance_dispatch nil (node nil 2 20 0 nil) nil nil nil nil 1 3 0 10 30 0 (-1) 2 0).2.1
      rfl⟩

end RotationProperties

section SubscriptAndScenario

variable {K V : Type} [LinearOrder K]

open AVLTree BinarySearchTree

theorem find?_key_unique (L : List (K × V)) (k : K) (v w : V)
    (hn : (L.map Prod.fst).Nodup) (hv : (k, v) ∈ L) (hw : (k, w) ∈ L) : w = v := by
  induction L with
  | nil => cases hv
  | cons a L ih =>
      simp only [List.map_cons, List.nodup_cons, List.mem_map, not_exists, not_and] at hn
      rcases List.mem_cons.1 hv with h1 | h1 <;> rcases List.mem_cons.1 hw with h2 | h2
      · rw [← h1] at h2; exact (Prod.mk.inj h2).2
      · exact absurd (by rw [← h1]) (hn.1 (k, w) h2)
      · exact absurd (by rw [← h2]) (hn.1 (k, v) h1)
      · exact ih hn.2 h1 h2

/-- C26, `operator[]` fails exactly on absent keys: for every tree satisfying BST
ordering and every key `k`, when the tree contains `k` the call `operator[](k)` returns
the value stored with `k` (the only value paired with `k` in the tree), and when it
does not the call throws `std::out_of_range`; in both cases the tree after the call is
the tree before it. -/
theorem subscript_fails_exactly_on_absent_keys (t : AVLNode K V) (k : K)
    (hbst : BSTOrdered t) :
    (k ∈ keys t → ∃ v, operatorSubscript t k = (Except.ok v, t) ∧
      (k, v) ∈ inorder t ∧ ∀ w, (k, w) ∈ inorder t → w = v) ∧
    (k ∉ keys t →
      operatorSubscript t k = (Except.error (Exception.out_of_range "Invalid key"), t)) := by
  constructor
  · intro hk
    rcases internalFind_node_or_nil t k with h | ⟨l, v, b, r, h, hn⟩
    · exact absurd hk ((internalFind_eq_nil_iff t k hbst).1 h)
    · have hitem := internalFind_item t k hbst
      rw [h] at hitem
      have hmem : (k, v) ∈ inorder t := List.mem_of_find?_eq_some hitem.symm
      refine ⟨v, ?_, hmem, ?_⟩
      · simp only [operatorSubscript, h]
      · intro w hw
        exact find?_key_unique _ k v w (keysUnique_of_bstOrdered t hbst) hmem hw
  · intro hk
    have h := (internalFind_eq_nil_iff t k hbst).2 hk
    simp only [operatorSubscript, h]

/-- Witness for C26: in the tree 2(1, 3) the subscript at the absent key 5 throws. -/
theorem subscript_fails_exactly_on_absent_keys_witness :
    BSTOrdered (node (node nil 1 10 0 nil) 2 20 0 (node nil 3 30 0 nil) : AVLNode Nat Nat) ∧
    operatorSubscript (node (node nil 1 10 0 nil) 2 20 0 (node nil 3 30 0 nil) :
        AVLNode Nat Nat) 5 =
      (Except.error (Exception.out_of_range "Invalid key"),
        node (node nil 1 10 0 nil) 2 20 0 (node nil 3 30 0 nil)) :=
  ⟨by decide, (subscript_fails_exactly_on_absent_keys _ 5 (by decide)).2 (by decide)⟩

/-- C25 (as amended), the removal of 3 in the scenario: in the tree obtained by
inserting keys 5, 3, 8, 1, 4, 7, 9 in that order into an empty tree, the node with key 3
has two children, the leaves 1 and 4; its in-order predecessor, the node with key 1, is
its direct left child, so `isAdjacent` is true and `remove(3)` goes through the adjacent
path: node 1 takes the place of node 3 with node 4 as right child.  In the tree after
that removal the predecessor 4 of the root 5 is not a direct child of 5, so the
following `remove(5)` is the one that goes through the non-adjacent path. -/
theorem scenario_remove_three_adjacent (val : Nat → V) :
    ∃ t x t2 : AVLNode Nat V,
      runOps nil [Op.insert 5 (val 5), Op.insert 3 (val 3), Op.insert 8 (val 8),
        Op.insert 1 (val 1), Op.insert 4 (val 4), Op.insert 7 (val 7),
        Op.insert 9 (val 9)] = some t ∧
      internalFind t 3 = x ∧
      x = node (node nil 1 (val 1) 0 nil) 3 (val 3) 0 (node nil 4 (val 4) 0 nil) ∧
      predecessor x = node nil 1 (val 1) 0 nil ∧
      isAdjacent x = true ∧
      removeHelper x 3 = recomputeBalance (node nil 1 (val 1) 0 (node nil 4 (val 4) 0 nil))
        true 0 ∧
      AVLTree.remove t 3 = some t2 ∧
      t2 = node (node nil 1 (val 1) (-1) (node nil 4 (val 4) 0 nil)) 5 (val 5) 0
        (node (node nil 7 (val 7) 0 nil) 8 (val 8) 0 (node nil 9 (val 9) 0 nil)) ∧
      predecessor t2 = node nil 4 (val 4) 0 nil ∧
      isAdjacent t2 = false := by
  refine ⟨_, _, _, rfl, rfl, rfl, rfl, rfl, ?_, ?_, rfl, rfl, rfl⟩
  · exact removeHelper_adjacent nil _ 3 3 1 _ _ 0 0 (by decide) (by decide) (by simp)
  · simp [AVLTree.remove, removeHelper, nodeSwap, predecessor, rightmost, isAdjacent,
      recomputeBalance, calcHeight, wrap8, placeAtRightmost]

/-- Counterexample to C25 as stated: in the tree built by inserting 5, 3, 8, 1, 4, 7, 9
the left child of the node with key 3 is the leaf 1, which has no right child; the
in-order predecessor of node 3 is therefore that direct left child, and `isAdjacent` is
true, not false. -/
theorem scenario_predecessor_of_three_is_child :
    ∃ t l r : AVLNode Nat Nat, ∃ b : Int,
      runOps nil [Op.insert 5 50, Op.insert 3 30, Op.insert 8 80, Op.insert 1 10,
        Op.insert 4 40, Op.insert 7 70, Op.insert 9 90] = some t ∧
      internalFind t 3 = node l 3 30 b r ∧ l ≠ nil ∧ r ≠ nil ∧
      predecessor (node l 3 30 b r) = l ∧
      isAdjacent (node l 3 30 b r) ≠ false :=
  ⟨_, node nil 1 10 0 nil, node nil 4 40 0 nil, 0, rfl, rfl, by decide, by decide, rfl,
    by decide⟩

end SubscriptAndScenario

/-! ## The log of rebalancing calls -/

section RebalancingCallLog

variable {K V : Type} [LinearOrder K]

open AVLTree

theorem leftChildBalance_of_balanceLeft (x t : AVLNode K V) (h : balanceLeft x = some t) :
    ∃ ll lk lv lb lr k v b r, x = node (node ll lk lv lb lr) k v b r ∧
      leftChildBalance x = some lb := by
  cases x with
  | nil => simp [balanceLeft] at h
  | node l k v b r =>
      cases l with
      | nil => simp [balanceLeft] at h
      | node ll lk lv lb lr => exact ⟨ll, lk, lv, lb, lr, k, v, b, r, rfl, rfl⟩

theorem rightChildBalance_of_balanceRight (x t : AVLNode K V) (h : balanceRight x = some t) :
    ∃ l k v b rl rk rv rb rr, x = node l k v b (node rl rk rv rb rr) ∧
      rightChildBalance x = some rb := by
  cases x with
  | nil => simp [balanceRight] at h
  | node l k v b r =>
      cases r with
      | nil => simp [balanceRight] at h
      | node rl rk rv rb rr => exact ⟨l, k, v, b, rl, rk, rv, rb, rr, rfl, rfl⟩

theorem insertHelperLog_fst (t : AVLNode K V) (k : K) (v : V) :
    (insertHelperLog t k v).map Prod.fst = insertHelper t k v := by
  induction t with
  | nil => rfl
  | node l key value b r ihl ihr =>
      simp only [insertHelperLog, insertHelper]
      by_cases h1 : k < key
      · rw [if_pos h1, if_pos h1, ← ihl]
        cases insertHelperLog l k v with
        | none => rfl
        | some p =>
            obtain ⟨res, log⟩ := p
            simp only [Option.map_some']
            by_cases ht : res.taller = true
            · rw [if_pos ht, if_pos ht]
              by_cases hb0 : wrap8 (b + 1) = 0
              · rw [if_pos hb0, if_pos hb0]; rfl
              · rw [if_neg hb0, if_neg hb0]
                by_cases hb2 : wrap8 (b + 1) = 2
                · rw [if_pos hb2, if_pos hb2]
                  cases hbl : balanceLeft (node res.root key value (wrap8 (b + 1)) r) with
                  | none => rfl
                  | some t1 =>
                      obtain ⟨ll, lk, lv, lb, lr, k0, v0, b0, r0, hx, hlb⟩ :=
                        leftChildBalance_of_balanceLeft _ t1 hbl
                      rw [hlb]
                      rfl
                · rw [if_neg hb2, if_neg hb2]; rfl
            · rw [if_neg ht, if_neg ht]; rfl
      · rw [if_neg h1, if_neg h1]
        by_cases h2 : k > key
        · rw [if_pos h2, if_pos h2, ← ihr]
          cases insertHelperLog r k v with
          | none => rfl
          | some p =>
              obtain ⟨res, log⟩ := p
              simp only [Option.map_some']
              by_cases ht : res.taller = true
              · rw [if_pos ht, if_pos ht]
                by_cases hb0 : wrap8 (b + -1) = 0
                · rw [if_pos hb0, if_pos hb0]; rfl
                · rw [if_neg hb0, if_neg hb0]
                  by_cases hb2 : wrap8 (b + -1) = -2
                  · rw [if_pos hb2, if_pos hb2]
                    cases hbl : balanceRight (node l key value (wrap8 (b + -1)) res.root) with
                    | none => rfl
                    | some t1 =>
                        obtain ⟨l0, k0, v0, b0, rl, rk, rv, rb, rr, hx, hrb⟩ :=
                          rightChildBalance_of_balanceRight _ t1 hbl
                        rw [hrb]
                        rfl
                  · rw [if_neg hb2, if_neg hb2]; rfl
              · rw [if_neg ht, if_neg ht]; rfl
        · rw [if_neg h2, if_neg h2]; rfl

theorem recomputeBalanceLog_fst (root : AVLNode K V) (s : Bool) (n : Nat) (log : List Int) :
    (recomputeBalanceLog root s n log).map Prod.fst = recomputeBalance root s n := by
  cases root with
  | nil => rfl
  | node l k v b r =>
      simp only [recomputeBalanceLog, recomputeBalance]
      by_cases hb2 : wrap8 ((calcHeight l : Int) - (calcHeight r : Int)) = 2
      · rw [if_pos hb2, if_pos hb2]
        cases hbl : balanceLeft
            (node l k v (wrap8 ((calcHeight l : Int) - (calcHeight r : Int))) r) with
        | none => rfl
        | some t1 =>
            obtain ⟨ll, lk, lv, lb, lr, k0, v0, b0, r0, hx, hlb⟩ :=
              leftChildBalance_of_balanceLeft _ t1 hbl
            rw [hlb]
            rfl
      · rw [if_neg hb2, if_neg hb2]
        by_cases hb3 : wrap8 ((calcHeight l : Int) - (calcHeight r : Int)) = -2
        · rw [if_pos hb3, if_pos hb3]
          cases hbl : balanceRight
              (node l k v (wrap8 ((calcHeight l : Int) - (calcHeight r : Int))) r) with
          | none => rfl
          | some t1 =>
              obtain ⟨l0, k0, v0, b0, rl, rk, rv, rb, rr, hx, hrb⟩ :=
                rightChildBalance_of_balanceRight _ t1 hbl
              rw [hrb]
              rfl
        · rw [if_neg hb3, if_neg hb3]; rfl

theorem logUnfold_nil (key : K) :
    removeHelperLog (nil : AVLNode K V) key = some (⟨nil, false, false, 0⟩, []) := by
  rw [removeHelperLog.eq_def]

theorem logUnfold_lt (l r : AVLNode K V) (k key : K) (v : V) (b : Int) (h : key < k) :
    removeHelperLog (node l k v b r) key =
      (removeHelperLog l key).bind fun p =>
        recomputeBalanceLog (node p.1.root k v (if p.1.shorter then wrap8 (b + -1) else b) r)
          p.1.success p.1.rebalances p.2 := by
  rw [removeHelperLog.eq_def]
  simp only [if_pos h]

theorem logUnfold_gt (l r : AVLNode K V) (k key : K) (v : V) (b : Int)
    (h1 : ¬ key < k) (h : key > k) :
    removeHelperLog (node l k v b r) key =
      (removeHelperLog r key).bind fun p =>
        recomputeBalanceLog (node l k v (if p.1.shorter then wrap8 (b + 1) else b) p.1.root)
          p.1.success p.1.rebalances p.2 := by
  rw [removeHelperLog.eq_def]
  simp only [if_neg h1, if_pos h]

theorem logUnfold_leftNil (r : AVLNode K V) (k key : K) (v : V) (b : Int)
    (h1 : ¬ key < k) (h2 : ¬ key > k) :
    removeHelperLog (node nil k v b r) key = some (⟨r, true, true, 0⟩, []) := by
  rw [removeHelperLog.eq_def]
  simp only [if_neg h1, if_neg h2]

theorem logUnfold_rightNil (l : AVLNode K V) (k key : K) (v : V) (b : Int)
    (h1 : ¬ key < k) (h2 : ¬ key > k) (hl : l ≠ nil) :
    removeHelperLog (node l k v b nil) key = some (⟨l, true, true, 0⟩, []) := by
  cases l with
  | nil => exact absurd rfl hl
  | node ll lk lv lb lr =>
      rw [removeHelperLog.eq_def]
      simp only [if_neg h1, if_neg h2]

theorem logUnfold_twoChildren (l r sl sr : AVLNode K V) (k key sk : K)
    (v sv : V) (b sb : Int) (h1 : ¬ key < k) (h2 : ¬ key > k) (hl : l ≠ nil) (hr : r ≠ nil)
    (hs : nodeSwap (node l k v b r) (predecessor (node l k v b r)) =
      some (node sl sk sv sb sr)) :
    removeHelperLog (node l k v b r) key =
      if isAdjacent (node l k v b r) then
        (removeHelperLog sr key).bind fun p =>
          recomputeBalanceLog (node sl sk sv sb p.1.root) p.1.success p.1.rebalances p.2
      else
        (removeHelperLog sl key).bind fun p =>
          recomputeBalanceLog (node p.1.root sk sv sb sr) p.1.success p.1.rebalances p.2 := by
  cases l with
  | nil => exact absurd rfl hl
  | node ll lk lv lb lr =>
      cases r with
      | nil => exact absurd rfl hr
      | node rl rk rv rb rr =>
          rw [removeHelperLog.eq_def]
          simp only [if_neg h1, if_neg h2]
          split
          · rename_i heq
            rw [hs] at heq; simp at heq
          · rename_i heq
            rw [hs] at heq; simp at heq
          · rename_i sl1 sk1 sv1 sb1 sr1 heq
            rw [hs] at heq
            simp only [Option.some.injEq, node.injEq] at heq
            obtain ⟨rfl, rfl, rfl, rfl, rfl⟩ := heq
            rfl

theorem nodeSwap_twoChildren (l r : AVLNode K V) (k : K) (v : V) (b : Int) (hl : l ≠ nil) :
    ∃ sl sk sv sb sr,
      nodeSwap (node l k v b r) (predecessor (node l k v b r)) = some (node sl sk sv sb sr) ∧
      (if isAdjacent (node l k v b r) then size sr else size sl) < size (node l k v b r) := by
  cases l with
  | nil => exact absurd rfl hl
  | node ll lk lv lb lr =>
      cases lr with
      | nil =>
          refine ⟨ll, lk, lv, b, node nil k v lb r, rfl, ?_⟩
          simp only [isAdjacent, if_true, size]; omega
      | node lrl lrk lrv lrb lrr =>
          obtain ⟨init, pl, pk, pv, pb, hp1, -, -⟩ :=
            rightmost_spec k v (node ll lk lv lb (node lrl lrk lrv lrb lrr)) (by simp)
          refine ⟨placeAtRightmost k v (node ll lk lv lb (node lrl lrk lrv lrb lrr)),
            pk, pv, b, r, ?_, ?_⟩
          · simp only [predecessor, hp1, nodeSwap, isAdjacent, Bool.false_eq_true, if_false]
          · simp only [isAdjacent, Bool.false_eq_true, if_false, size_placeAtRightmost, size]
            omega

theorem removeHelperLog_fst_aux (n : Nat) : ∀ (t : AVLNode K V), size t ≤ n →
    ∀ key : K, (removeHelperLog t key).map Prod.fst = removeHelper t key := by
  induction n with
  | zero =>
      intro t hs key
      cases t with
      | nil =>
          rw [logUnfold_nil, removeHelper.eq_def]
          rfl
      | node l k v b r => simp only [size] at hs; omega
  | succ n ih =>
      intro t hs key
      cases t with
      | nil =>
          rw [logUnfold_nil, removeHelper.eq_def]
          rfl
      | node l k v b r =>
          simp only [size] at hs
          by_cases h1 : key < k
          · rw [logUnfold_lt _ _ _ _ _ _ h1, removeHelper_lt _ _ _ _ _ _ h1,
              ← ih l (by omega) key]
            cases removeHelperLog l key with
            | none => rfl
            | some p =>
                simp only [Option.some_bind, Option.map_some']
                rw [recomputeBalanceLog_fst]
          · by_cases h2 : key > k
            · rw [logUnfold_gt _ _ _ _ _ _ h1 h2, removeHelper_gt _ _ _ _ _ _ h1 h2,
                ← ih r (by omega) key]
              cases removeHelperLog r key with
              | none => rfl
              | some p =>
                  simp only [Option.some_bind, Option.map_some']
                  rw [recomputeBalanceLog_fst]
            · cases l with
              | nil =>
                  rw [logUnfold_leftNil _ _ _ _ _ h1 h2, removeHelper_leftNil _ _ _ _ _ h1 h2]
                  rfl
              | node ll lk lv lb lr =>
                  cases r with
                  | nil =>
                      rw [logUnfold_rightNil _ _ _ _ _ h1 h2 (by simp),
                        removeHelper_rightNil _ _ _ _ _ h1 h2 (by simp)]
                      rfl
                  | node rl rk rv rb rr =>
                      obtain ⟨sl, sk, sv, sb, sr, hsw, hsz⟩ :=
                        nodeSwap_twoChildren (node ll lk lv lb lr) (node rl rk rv rb rr) k v b
                          (by simp)
                      rw [logUnfold_twoChildren _ _ _ _ _ _ _ _ _ _ _ h1 h2 (by simp)
                          (by simp) hsw,
                        AVLTree.removeHelper_twoChildren _ _ _ _ _ _ _ _ _ _ _ h1 h2 (by simp)
                          (by simp) hsw]
                      simp only [size] at hsz hs
                      split_ifs with hA
                      · rw [if_pos hA] at hsz
                        rw [← ih sr (by omega) key]
                        cases removeHelperLog sr key with
                        | none => rfl
                        | some p =>
                            simp only [Option.some_bind, Option.map_some']
                            rw [recomputeBalanceLog_fst]
                      · rw [if_neg hA] at hsz
                        rw [← ih sl (by omega) key]
                        cases removeHelperLog sl key with
                        | none => rfl
                        | some p =>
                            simp only [Option.some_bind, Option.map_some']
                            rw [recomputeBalanceLog_fst]

theorem removeHelperLog_fst (t : AVLNode K V) (key : K) :
    (removeHelperLog t key).map Prod.fst = removeHelper t key :=
  removeHelperLog_fst_aux (size t) t (le_refl _) key

theorem insertHelperLog_spec (t : AVLNode K V) (k : K) (v : V) (hb : HeightBalanced t) :
    ∀ res log, insertHelperLog t k v = some (res, log) →
      log.length = res.rebalances ∧ ∀ x ∈ log, x = 1 ∨ x = -1 := by
  induction t with
  | nil =>
      intro res log h
      simp only [insertHelperLog, Option.some.injEq, Prod.mk.injEq] at h
      obtain ⟨rfl, rfl⟩ := h
      exact ⟨rfl, fun x hx => absurd hx (List.not_mem_nil x)⟩
  | node l key value b r ihl ihr =>
      intro res log h
      obtain ⟨hl, hr, hbeq, hrange⟩ := hb
      by_cases h1 : k < key
      · simp only [insertHelperLog, if_pos h1] at h
        cases hsub : insertHelperLog l k v with
        | none => rw [hsub] at h; simp at h
        | some p =>
            obtain ⟨res1, log1⟩ := p
            rw [hsub] at h
            simp only at h
            obtain ⟨hlen, hall⟩ := ihl hl res1 log1 hsub
            have hins : insertHelper l k v = some res1 := by
              rw [← insertHelperLog_fst, hsub]; rfl
            obtain ⟨res2, hres2, hbal1, hht, hnz⟩ := insertHelper_balanced l k v hl
            rw [hins] at hres2
            simp only [Option.some.injEq] at hres2
            subst hres2
            by_cases ht : res1.taller = true
            · rw [if_pos ht] at h
              by_cases hb0 : wrap8 (b + 1) = 0
              · rw [if_pos hb0] at h
                simp only [Option.some.injEq, Prod.mk.injEq] at h
                obtain ⟨rfl, rfl⟩ := h
                exact ⟨hlen, hall⟩
              · rw [if_neg hb0] at h
                by_cases hb2 : wrap8 (b + 1) = 2
                · rw [if_pos hb2] at h
                  split at h
                  · rename_i t1 lb hbl hlb
                    simp only [Option.some.injEq, Prod.mk.injEq] at h
                    obtain ⟨rfl, rfl⟩ := h
                    have hlne : l ≠ nil := by
                      intro he
                      subst he
                      simp only [calcHeight, wrap8] at hbeq hb2
                      omega
                    refine ⟨by simp [hlen], ?_⟩
                    intro x hx
                    rcases List.mem_append.1 hx with hx | hx
                    · exact hall x hx
                    · simp only [List.mem_singleton] at hx
                      subst hx
                      cases hroot : res1.root with
                      | nil => rw [hroot] at hlb; simp [leftChildBalance] at hlb
                      | node ll lk lv lb1 lr =>
                          rw [hroot] at hlb hbal1
                          simp only [leftChildBalance, Option.some.injEq] at hlb
                          subst hlb
                          have hne := hnz ht hlne ll lk lv lb1 lr hroot
                          obtain ⟨-, -, -, hr1⟩ := hbal1
                          omega
                  · simp at h
                · rw [if_neg hb2] at h
                  simp only [Option.some.injEq, Prod.mk.injEq] at h
                  obtain ⟨rfl, rfl⟩ := h
                  exact ⟨hlen, hall⟩
            · rw [if_neg ht] at h
              simp only [Option.some.injEq, Prod.mk.injEq] at h
              obtain ⟨rfl, rfl⟩ := h
              exact ⟨hlen, hall⟩
      · by_cases h2 : k > key
        · simp only [insertHelperLog, if_neg h1, if_pos h2] at h
          cases hsub : insertHelperLog r k v with
          | none => rw [hsub] at h; simp at h
          | some p =>
              obtain ⟨res1, log1⟩ := p
              rw [hsub] at h
              simp only at h
              obtain ⟨hlen, hall⟩ := ihr hr res1 log1 hsub
              have hins : insertHelper r k v = some res1 := by
                rw [← insertHelperLog_fst, hsub]; rfl
              obtain ⟨res2, hres2, hbal1, hht, hnz⟩ := insertHelper_balanced r k v hr
              rw [hins] at hres2
              simp only [Option.some.injEq] at hres2
              subst hres2
              by_cases ht : res1.taller = true
              · rw [if_pos ht] at h
                by_cases hb0 : wrap8 (b + -1) = 0
                · rw [if_pos hb0] at h
                  simp only [Option.some.injEq, Prod.mk.injEq] at h
                  obtain ⟨rfl, rfl⟩ := h
                  exact ⟨hlen, hall⟩
                · rw [if_neg hb0] at h
                  by_cases hb2 : wrap8 (b + -1) = -2
                  · rw [if_pos hb2] at h
                    split at h
                    · rename_i t1 rb hbl hrb
                      simp only [Option.some.injEq, Prod.mk.injEq] at h
                      obtain ⟨rfl, rfl⟩ := h
                      have hrne : r ≠ nil := by
                        intro he
                        subst he
                        simp only [calcHeight, wrap8] at hbeq hb2
                        omega
                      refine ⟨by simp [hlen], ?_⟩
                      intro x hx
                      rcases List.mem_append.1 hx with hx | hx
                      · exact hall x hx
                      · simp only [List.mem_singleton] at hx
                        subst hx
                        cases hroot : res1.root with
                        | nil => rw [hroot] at hrb; simp [rightChildBalance] at hrb
                        | node rl rk rv rb1 rr =>
                            rw [hroot] at hrb hbal1
                            simp only [rightChildBalance, Option.some.injEq] at hrb
                            subst hrb
                            have hne := hnz ht hrne rl rk rv rb1 rr hroot
                            obtain ⟨-, -, -, hr1⟩ := hbal1
                            omega
                    · simp at h
                  · rw [if_neg hb2] at h
                    simp only [Option.some.injEq, Prod.mk.injEq] at h
                    obtain ⟨rfl, rfl⟩ := h
                    exact ⟨hlen, hall⟩
              · rw [if_neg ht] at h
                simp only [Option.some.injEq, Prod.mk.injEq] at h
                obtain ⟨rfl, rfl⟩ := h
                exact ⟨hlen, hall⟩
        · simp only [insertHelperLog, if_neg h1, if_neg h2, Option.some.injEq,
            Prod.mk.injEq] at h
          obtain ⟨rfl, rfl⟩ := h
          exact ⟨rfl, fun x hx => absurd hx (List.not_mem_nil x)⟩

/-- C23, the tie-break case is unreachable on insert: for every tree satisfying the
core invariants and every pair `(k, v)`, `insert` returns, and at each of its calls of
`balanceLeft` or `balanceRight` (the entries of the call log, one for each call) the
balance factor of the heavy child is +1 or -1, never 0.  On removal the case is
reachable: in the tree 4(2(1, 3), 5), which satisfies the invariants, `remove(5)` calls
`balanceLeft` at the root while the left child 2 has balance factor 0. -/
theorem tie_break_unreachable_on_insert :
    (∀ (t : AVLNode K V) (k : K) (v : V), CoreInvariants t →
      ∃ res log, insertHelperLog t k v = some (res, log) ∧
        AVLTree.insert t (k, v) = some res.root ∧
        log.length = res.rebalances ∧
        ∀ x ∈ log, (x = 1 ∨ x = -1) ∧ x ≠ 0) ∧
    (∃ (t : AVLNode Nat Nat) (key : Nat) (res : RemoveResult Nat Nat) (log : List Int),
      CoreInvariants t ∧ removeHelperLog t key = some (res, log) ∧
      AVLTree.remove t key = some res.root ∧ CoreInvariants res.root ∧
      log.length = res.rebalances ∧ 0 ∈ log) := by
  constructor
  · intro t k v h
    obtain ⟨res, hres, -⟩ := insertHelper_balanced t k v h.2.2
    cases hlog : insertHelperLog t k v with
    | none =>
        have := insertHelperLog_fst t k v
        rw [hlog, hres] at this
        simp at this
    | some p =>
        obtain ⟨res1, log⟩ := p
        have hfst := insertHelperLog_fst t k v
        rw [hlog, hres] at hfst
        simp only [Option.map_some', Option.some.injEq] at hfst
        subst hfst
        obtain ⟨hlen, hall⟩ := insertHelperLog_spec t k v h.2.2 res1 log hlog
        refine ⟨res1, log, rfl, ?_, hlen, ?_⟩
        · simp only [AVLTree.insert, hres, Option.map_some']
        · intro x hx
          have := hall x hx
          exact ⟨this, by omega⟩
  · refine ⟨node (node (node nil 1 10 0 nil) 2 20 0 (node nil 3 30 0 nil)) 4 40 1
        (node nil 5 50 0 nil), 5,
      ⟨node (node nil 1 10 0 nil) 2 20 (-1) (node (node nil 3 30 0 nil) 4 40 1 nil),
        false, true, 1⟩, [0], by decide, ?_, ?_, by decide, rfl, by decide⟩
    · simp [removeHelperLog, recomputeBalanceLog, leftChildBalance, balanceLeft, rotateRight,
        calcHeight, wrap8]
    · simp [AVLTree.remove, removeHelper, recomputeBalance, balanceLeft, rotateRight,
        calcHeight, wrap8]

/-- Witness for C23: inserting 1 into the tree 3(2, -) rebalances once, with a heavy
child of balance factor +1. -/
theorem tie_break_unreachable_on_insert_witness :
    CoreInvariants (node (node nil 2 20 0 nil) 3 30 1 nil : AVLNode Nat Nat) ∧
    insertHelperLog (node (node nil 2 20 0 nil) 3 30 1 nil : AVLNode Nat Nat) 1 10 =
      some (⟨node (node nil 1 10 0 nil) 2 20 0 (node nil 3 30 0 nil), false, 1⟩, [1]) ∧
    ∃ res log,
      insertHelperLog (node (node nil 2 20 0 nil) 3 30 1 nil : AVLNode Nat Nat) 1 10 =
        some (res, log) ∧
      AVLTree.insert (node (node nil 2 20 0 nil) 3 30 1 nil : AVLNode Nat Nat) (1, 10) =
        some res.root ∧
      log.length = res.rebalances ∧
      ∀ x ∈ log, (x = 1 ∨ x = -1) ∧ x ≠ 0 :=
  ⟨by decide, rfl, tie_break_unreachable_on_insert.1 _ 1 10 (by decide)⟩

end RebalancingCallLog

/-! ## Removal by node interchange and removal by payload replacement -/

section PayloadReplacement

variable {K V : Type} [LinearOrder K]

open AVLTree

theorem copyUnfold_nil (key : K) :
    removeHelperByCopy (nil : AVLNode K V) key = some ⟨nil, false, false, 0⟩ := by
  rw [removeHelperByCopy.eq_def]

theorem copyUnfold_lt (l r : AVLNode K V) (k key : K) (v : V) (b : Int) (h : key < k) :
    removeHelperByCopy (node l k v b r) key =
      (removeHelperByCopy l key).bind fun res =>
        recomputeBalance (node res.root k v (if res.shorter then wrap8 (b + -1) else b) r)
          res.success res.rebalances := by
  rw [removeHelperByCopy.eq_def]
  simp only [if_pos h]

theorem copyUnfold_gt (l r : AVLNode K V) (k key : K) (v : V) (b : Int)
    (h1 : ¬ key < k) (h : key > k) :
    removeHelperByCopy (node l k v b r) key =
      (removeHelperByCopy r key).bind fun res =>
        recomputeBalance (node l k v (if res.shorter then wrap8 (b + 1) else b) res.root)
          res.success res.rebalances := by
  rw [removeHelperByCopy.eq_def]
  simp only [if_neg h1, if_pos h]

theorem copyUnfold_leftNil (r : AVLNode K V) (k key : K) (v : V) (b : Int)
    (h1 : ¬ key < k) (h2 : ¬ key > k) :
    removeHelperByCopy (node nil k v b r) key = some ⟨r, true, true, 0⟩ := by
  rw [removeHelperByCopy.eq_def]
  simp only [if_neg h1, if_neg h2]

theorem copyUnfold_rightNil (l : AVLNode K V) (k key : K) (v : V) (b : Int)
    (h1 : ¬ key < k) (h2 : ¬ key > k) (hl : l ≠ nil) :
    removeHelperByCopy (node l k v b nil) key = some ⟨l, true, true, 0⟩ := by
  cases l with
  | nil => exact absurd rfl hl
  | node ll lk lv lb lr =>
      rw [removeHelperByCopy.eq_def]
      simp only [if_neg h1, if_neg h2]

theorem copyUnfold_twoChildren (l r pl pr : AVLNode K V) (k key pk : K) (v pv : V)
    (b pb : Int) (h1 : ¬ key < k) (h2 : ¬ key > k) (hl : l ≠ nil) (hr : r ≠ nil)
    (hp : predecessor (node l k v b r) = node pl pk pv pb pr) :
    removeHelperByCopy (node l k v b r) key =
      (removeHelperByCopy l pk).bind fun res =>
        recomputeBalance (node res.root pk pv b r) res.success res.rebalances := by
  cases l with
  | nil => exact absurd rfl hl
  | node ll lk lv lb lr =>
      cases r with
      | nil => exact absurd rfl hr
      | node rl rk rv rb rr =>
          rw [removeHelperByCopy.eq_def]
          simp only [if_neg h1, if_neg h2, hp]

theorem removeHelper_placeAtRightmost (k : K) (v : V) (t : AVLNode K V) (ht : t ≠ nil)
    (hbst : BSTOrdered t) (hlt : ∀ x ∈ keys t, x < k) (pl pr : AVLNode K V) (pk : K)
    (pv : V) (pb : Int) (hp : rightmost t = node pl pk pv pb pr) :
    removeHelper (placeAtRightmost k v t) k = removeHelper t pk := by
  induction t with
  | nil => exact absurd rfl ht
  | node l k0 v0 b0 r _ ihr =>
      obtain ⟨hl, hr, hltL, hgtR⟩ := hbst
      cases r with
      | nil =>
          simp only [rightmost, node.injEq] at hp
          obtain ⟨rfl, rfl, rfl, rfl, rfl⟩ := hp
          simp only [placeAtRightmost]
          cases l with
          | nil =>
              rw [removeHelper_leftNil _ _ _ _ _ (lt_irrefl _) (lt_irrefl _),
                removeHelper_leftNil _ _ _ _ _ (lt_irrefl _) (lt_irrefl _)]
          | node ll lk lv lb lr =>
              rw [removeHelper_rightNil _ _ _ _ _ (lt_irrefl _) (lt_irrefl _) (by simp),
                removeHelper_rightNil _ _ _ _ _ (lt_irrefl _) (lt_irrefl _) (by simp)]
      | node rl rk rv rb rr =>
          have hk0 : k0 < k := hlt k0 (by simp [keys, inorder])
          have hp2 : rightmost (node rl rk rv rb rr) = node pl pk pv pb pr := by
            simpa only [rightmost] using hp
          obtain ⟨init, pl1, pk1, pv1, pb1, hq1, hq2, -⟩ :=
            rightmost_spec k v (node rl rk rv rb rr) (by simp)
          rw [hp2] at hq1
          simp only [node.injEq] at hq1
          obtain ⟨-, rfl, rfl, -, -⟩ := hq1
          have hpk : k0 < pk := hgtR pk (by simp [keys, hq2])
          have hltR : ∀ x ∈ keys (node rl rk rv rb rr), x < k := by
            intro x hx
            apply hlt x
            simp only [keys, inorder, List.map_append, List.map_cons, List.mem_append,
              List.mem_cons] at hx ⊢
            exact Or.inr (Or.inr hx)
          have ih := ihr (by simp) hr hltR hp2
          simp only [placeAtRightmost] at ih ⊢
          rw [removeHelper_gt _ _ _ _ _ _ (not_lt.2 (le_of_lt hk0)) hk0,
            removeHelper_gt _ _ _ _ _ _ (not_lt.2 (le_of_lt hpk)) hpk, ih]

theorem removeHelper_eq_byCopy (t : AVLNode K V) (hbst : BSTOrdered t) (key : K) :
    removeHelper t key = removeHelperByCopy t key := by
  induction t generalizing key with
  | nil => rw [copyUnfold_nil, removeHelper.eq_def]
  | node l k v b r ihl ihr =>
      obtain ⟨hl, hr, hltL, hgtR⟩ := hbst
      by_cases h1 : key < k
      · rw [removeHelper_lt _ _ _ _ _ _ h1, copyUnfold_lt _ _ _ _ _ _ h1, ihl hl]
      · by_cases h2 : key > k
        · rw [removeHelper_gt _ _ _ _ _ _ h1 h2, copyUnfold_gt _ _ _ _ _ _ h1 h2, ihr hr]
        · have hkey : key = k := le_antisymm (not_lt.1 h2) (not_lt.1 h1)
          subst hkey
          cases l with
          | nil => rw [removeHelper_leftNil _ _ _ _ _ h1 h2, copyUnfold_leftNil _ _ _ _ _ h1 h2]
          | node ll lk lv lb lr =>
              cases r with
              | nil =>
                  rw [removeHelper_rightNil _ _ _ _ _ h1 h2 (by simp),
                    copyUnfold_rightNil _ _ _ _ _ h1 h2 (by simp)]
              | node rl rk rv rb rr =>
                  cases lr with
                  | nil =>
                      rw [removeHelper_adjacent _ _ _ _ _ _ _ _ _ h1 h2 (by simp),
                        copyUnfold_twoChildren (node ll lk lv lb nil) (node rl rk rv rb rr)
                          ll nil key key lk v lv b lb h1 h2 (by simp) (by simp) rfl,
                        ← ihl hl]
                      cases ll with
                      | nil =>
                          rw [removeHelper_leftNil _ _ _ _ _ (lt_irrefl _) (lt_irrefl _)]
                          rfl
                      | node lll llk llv llb llr =>
                          rw [removeHelper_rightNil _ _ _ _ _ (lt_irrefl _) (lt_irrefl _)
                            (by simp)]
                          rfl
                  | node lrl lrk lrv lrb lrr =>
                      obtain ⟨init, pl, pk, pv, pb, hp1, -, -⟩ :=
                        rightmost_spec key v (node ll lk lv lb (node lrl lrk lrv lrb lrr))
                          (by simp)
                      have hp2 : rightmost (node lrl lrk lrv lrb lrr) = node pl pk pv pb nil := by
                        simpa only [rightmost] using hp1
                      rw [removeHelper_nonadjacent _ _ _ _ _ _ _ _ _ _ _ _ _ _ _ _ _ _ _ h1 h2
                          (by simp) hp2,
                        copyUnfold_twoChildren _ _ pl nil _ _ pk _ pv _ pb h1 h2 (by simp)
                          (by simp) (by simpa only [predecessor] using hp1),
                        ← ihl hl,
                        removeHelper_placeAtRightmost key v _ (by simp) hl hltL _ _ _ _ _ hp1]

/-- C24, node interchange is equivalent to payload replacement: for every tree
satisfying the core invariants and every key (in particular every key held by a
two-child node, with the in-order predecessor adjacent to it or not), `AVLTree::remove`
returns a tree, and it is the same tree (same shape, keys, values and stored balance
factors) as the one returned by the formulation that copies the key and value of the
in-order predecessor into the target node, removes the predecessor from the left
subtree of the target and unwinds with the same recompute-and-rebalance step; the two
helpers also agree on `shorter`, `success` and the number of rebalancing calls. -/
theorem interchange_equals_payload_replacement (t : AVLNode K V) (key : K)
    (h : CoreInvariants t) :
    ∃ t1, AVLTree.remove t key = some t1 ∧ removeByCopy t key = some t1 ∧
      removeHelper t key = removeHelperByCopy t key := by
  obtain ⟨t1, h1, -, -⟩ := remove_spec t key h
  have heq := removeHelper_eq_byCopy t h.1 key
  refine ⟨t1, h1, ?_, heq⟩
  rw [← h1]
  simp only [removeByCopy, AVLTree.remove, heq]

/-- Witness for C24: in the seven-node tree 5(3(1, 4), 8(7, 9)) the key 3 is held by a
two-child node whose predecessor 1 is its left child (adjacent configuration) and the
key 5 by a two-child node whose predecessor 4 is not its child (non-adjacent
configuration); payload replacement at 5 gives 4(3(1, -), 8(7, 9)). -/
theorem interchange_equals_payload_replacement_witness :
    CoreInvariants (node (node (node nil 1 10 0 nil) 3 30 0 (node nil 4 40 0 nil)) 5 50 0
      (node (node nil 7 70 0 nil) 8 80 0 (node nil 9 90 0 nil)) : AVLNode Nat Nat) ∧
    isAdjacent (node (node nil 1 10 0 nil) 3 30 0 (node nil 4 40 0 nil) :
      AVLNode Nat Nat) = true ∧
    isAdjacent (node (node (node nil 1 10 0 nil) 3 30 0 (node nil 4 40 0 nil)) 5 50 0
      (node (node nil 7 70 0 nil) 8 80 0 (node nil 9 90 0 nil)) : AVLNode Nat Nat) = false ∧
    removeByCopy (node (node (node nil 1 10 0 nil) 3 30 0 (node nil 4 40 0 nil)) 5 50 0
      (node (node nil 7 70 0 nil) 8 80 0 (node nil 9 90 0 nil)) : AVLNode Nat Nat) 5 =
      some (node (node (node nil 1 10 0 nil) 3 30 1 nil) 4 40 0
        (node (node nil 7 70 0 nil) 8 80 0 (node nil 9 90 0 nil))) ∧
    (∃ t1, AVLTree.remove (node (node (node nil 1 10 0 nil) 3 30 0 (node nil 4 40 0 nil)) 5
        50 0 (node (node nil 7 70 0 nil) 8 80 0 (node nil 9 90 0 nil)) : AVLNode Nat Nat) 3 =
        some t1 ∧
      removeByCopy (node (node (node nil 1 10 0 nil) 3 30 0 (node nil 4 40 0 nil)) 5
        50 0 (node (node nil 7 70 0 nil) 8 80 0 (node nil 9 90 0 nil)) : AVLNode Nat Nat) 3 =
        some t1 ∧
      removeHelper (node (node (node nil 1 10 0 nil) 3 30 0 (node nil 4 40 0 nil)) 5
        50 0 (node (node nil 7 70 0 nil) 8 80 0 (node nil 9 90 0 nil)) : AVLNode Nat Nat) 3 =
      removeHelperByCopy (node (node (node nil 1 10 0 nil) 3 30 0 (node nil 4 40 0 nil)) 5
        50 0 (node (node nil 7 70 0 nil) 8 80 0 (node nil 9 90 0 nil)) : AVLNode Nat Nat) 3) ∧
    (∃ t1, AVLTree.remove (node (node (node nil 1 10 0 nil) 3 30 0 (node nil 4 40 0 nil)) 5
        50 0 (node (node nil 7 70 0 nil) 8 80 0 (node nil 9 90 0 nil)) : AVLNode Nat Nat) 5 =
        some t1 ∧
      removeByCopy (node (node (node nil 1 10 0 nil) 3 30 0 (node nil 4 40 0 nil)) 5
        50 0 (node (node nil 7 70 0 nil) 8 80 0 (node nil 9 90 0 nil)) : AVLNode Nat Nat) 5 =
        some t1 ∧
      removeHelper (node (node (node nil 1 10 0 nil) 3 30 0 (node nil 4 40 0 nil)) 5
        50 0 (node (node nil 7 70 0 nil) 8 80 0 (node nil 9 90 0 nil)) : AVLNode Nat Nat) 5 =
      removeHelperByCopy (node (node (node nil 1 10 0 nil) 3 30 0 (node nil 4 40 0 nil)) 5
        50 0 (node (node nil 7 70 0 nil) 8 80 0 (node nil 9 90 0 nil)) : AVLNode Nat Nat) 5) :=
  ⟨by decide, rfl, rfl,
    by simp [removeByCopy, removeHelperByCopy, predecessor, rightmost, recomputeBalance,
      calcHeight, wrap8],
    interchange_equals_payload_replacement _ 3 (by decide),
    interchange_equals_payload_replacement _ 5 (by decide)⟩

end PayloadReplacement

/-! ## The shorter flag of removal -/

section ShorterPropagation

variable {K V : Type} [LinearOrder K]

open AVLTree

theorem removeHelper_eq_recompute (t x : AVLNode K V) (key : K) (s : Bool) (n : Nat)
    (hx : beforeRecompute t key = some (x, s, n)) :
    removeHelper t key = recomputeBalance x s n := by
  cases t with
  | nil => simp [beforeRecompute] at hx
  | node l k v b r =>
      by_cases h1 : key < k
      · simp only [beforeRecompute, if_pos h1] at hx
        rw [removeHelper_lt _ _ _ _ _ _ h1]
        cases hsub : removeHelper l key with
        | none => rw [hsub] at hx; simp at hx
        | some res =>
            rw [hsub] at hx
            simp only [Option.map_some', Option.some.injEq, Prod.mk.injEq] at hx
            obtain ⟨rfl, rfl, rfl⟩ := hx
            rfl
      · by_cases h2 : key > k
        · simp only [beforeRecompute, if_neg h1, if_pos h2] at hx
          rw [removeHelper_gt _ _ _ _ _ _ h1 h2]
          cases hsub : removeHelper r key with
          | none => rw [hsub] at hx; simp at hx
          | some res =>
              rw [hsub] at hx
              simp only [Option.map_some', Option.some.injEq, Prod.mk.injEq] at hx
              obtain ⟨rfl, rfl, rfl⟩ := hx
              rfl
        · cases l with
          | nil => simp [beforeRecompute, if_neg h1, if_neg h2] at hx
          | node ll lk lv lb lr =>
              cases r with
              | nil => simp [beforeRecompute, if_neg h1, if_neg h2] at hx
              | node rl rk rv rb rr =>
                  obtain ⟨sl, sk, sv, sb, sr, hsw, -⟩ :=
                    nodeSwap_twoChildren (node ll lk lv lb lr) (node rl rk rv rb rr) k v b
                      (by simp)
                  simp only [beforeRecompute, if_neg h1, if_neg h2, hsw] at hx
                  rw [AVLTree.removeHelper_twoChildren _ _ _ _ _ _ _ _ _ _ _ h1 h2 (by simp)
                    (by simp) hsw]
                  by_cases hA : isAdjacent
                      (node (node ll lk lv lb lr) k v b (node rl rk rv rb rr)) = true
                  · rw [if_pos hA] at hx ⊢
                    cases hsub : removeHelper sr key with
                    | none => rw [hsub] at hx; simp at hx
                    | some res =>
                        rw [hsub] at hx
                        simp only [Option.map_some', Option.some.injEq, Prod.mk.injEq] at hx
                        obtain ⟨rfl, rfl, rfl⟩ := hx
                        rfl
                  · rw [if_neg hA] at hx ⊢
                    cases hsub : removeHelper sl key with
                    | none => rw [hsub] at hx; simp at hx
                    | some res =>
                        rw [hsub] at hx
                        simp only [Option.map_some', Option.some.injEq, Prod.mk.injEq] at hx
                        obtain ⟨rfl, rfl, rfl⟩ := hx
                        rfl

theorem recomputeBalance_noRebalance (l r : AVLNode K V) (k : K) (v : V) (b : Int)
    (s : Bool) (n : Nat) (h1 : calcHeight l ≤ calcHeight r + 1)
    (h2 : calcHeight r ≤ calcHeight l + 1) :
    recomputeBalance (node l k v b r) s n =
      some ⟨node l k v ((calcHeight l : Int) - (calcHeight r : Int)) r,
        decide ((calcHeight l : Int) - (calcHeight r : Int) = 0), s, n⟩ := by
  have hw : wrap8 ((calcHeight l : Int) - (calcHeight r : Int)) =
      (calcHeight l : Int) - (calcHeight r : Int) := wrap8_of_small _ (by omega) (by omega)
  have hn2 : ¬ ((calcHeight l : Int) - (calcHeight r : Int) = 2) := by omega
  have hm2 : ¬ ((calcHeight l : Int) - (calcHeight r : Int) = -2) := by omega
  simp only [recomputeBalance, hw, if_neg hn2, if_neg hm2]

theorem beforeRecompute_heights (l r x : AVLNode K V) (k key : K) (v : V) (b : Int)
    (s : Bool) (n : Nat) (hbst : BSTOrdered (node l k v b r))
    (hbal : HeightBalanced (node l k v b r))
    (hx : beforeRecompute (node l k v b r) key = some (x, s, n)) :
    ∃ l1 k1 v1 b1 r1, x = node l1 k1 v1 b1 r1 ∧
      ((calcHeight r1 = calcHeight r ∧ calcHeight l1 ≤ calcHeight l ∧
          calcHeight l ≤ calcHeight l1 + 1) ∨
        (calcHeight l1 = calcHeight l ∧ calcHeight r1 ≤ calcHeight r ∧
          calcHeight r ≤ calcHeight r1 + 1)) := by
  obtain ⟨hbl, hbr, hltL, hgtR⟩ := hbst
  obtain ⟨hl, hr, -, -⟩ := hbal
  by_cases h1 : key < k
  · simp only [beforeRecompute, if_pos h1] at hx
    obtain ⟨res, hres, -, -, hle, hge⟩ := removeHelper_spec (size l) l (le_refl _) hbl hl key
    rw [hres] at hx
    simp only [Option.map_some', Option.some.injEq, Prod.mk.injEq] at hx
    obtain ⟨rfl, -, -⟩ := hx
    exact ⟨_, _, _, _, _, rfl, Or.inl ⟨rfl, hle, hge⟩⟩
  · by_cases h2 : key > k
    · simp only [beforeRecompute, if_neg h1, if_pos h2] at hx
      obtain ⟨res, hres, -, -, hle, hge⟩ := removeHelper_spec (size r) r (le_refl _) hbr hr key
      rw [hres] at hx
      simp only [Option.map_some', Option.some.injEq, Prod.mk.injEq] at hx
      obtain ⟨rfl, -, -⟩ := hx
      exact ⟨_, _, _, _, _, rfl, Or.inr ⟨rfl, hle, hge⟩⟩
    · have hkey : key = k := le_antisymm (not_lt.1 h2) (not_lt.1 h1)
      subst hkey
      cases l with
      | nil => simp [beforeRecompute] at hx
      | node ll lk lv lb lr =>
          cases r with
          | nil => simp [beforeRecompute] at hx
          | node rl rk rv rb rr =>
              cases lr with
              | nil =>
                  simp only [beforeRecompute, if_neg h1, if_neg h2, nodeSwap, predecessor,
                    rightmost, isAdjacent, if_true] at hx
                  rw [removeHelper_leftNil _ _ _ _ _ h1 h2] at hx
                  simp only [Option.map_some', Option.some.injEq, Prod.mk.injEq] at hx
                  obtain ⟨rfl, -, -⟩ := hx
                  refine ⟨_, _, _, _, _, rfl, Or.inl ⟨rfl, ?_, ?_⟩⟩ <;>
                    simp only [calcHeight] <;> omega
              | node lrl lrk lrv lrb lrr =>
                  obtain ⟨init, pl, pk, pv, pb, hp1, -, -⟩ :=
                    rightmost_spec key v (node ll lk lv lb (node lrl lrk lrv lrb lrr))
                      (by simp)
                  have hp2 : rightmost (node lrl lrk lrv lrb lrr) = node pl pk pv pb nil := by
                    simpa only [rightmost] using hp1
                  simp only [beforeRecompute, if_neg h1, if_neg h2, nodeSwap, predecessor,
                    rightmost, hp2, isAdjacent, Bool.false_eq_true, if_false] at hx
                  have hsp := removeHelper_placeAtRightmost key v
                    (node ll lk lv lb (node lrl lrk lrv lrb lrr)) (by simp) hbl hltL _ _ _ _ _
                    hp1
                  obtain ⟨res, hres, -, -, hle, hge⟩ := removeHelper_spec _
                    (node ll lk lv lb (node lrl lrk lrv lrb lrr)) (le_refl _) hbl hl pk
                  rw [hsp, hres] at hx
                  simp only [Option.map_some', Option.some.injEq, Prod.mk.injEq] at hx
                  obtain ⟨rfl, -, -⟩ := hx
                  exact ⟨_, _, _, _, _, rfl, Or.inl ⟨rfl, hle, hge⟩⟩

theorem beforeRecompute_reached (l r : AVLNode K V) (k key : K) (v : V) (b : Int)
    (hbst : BSTOrdered (node l k v b r)) (hbal : HeightBalanced (node l k v b r))
    (hstep : key = k → l ≠ nil ∧ r ≠ nil) :
    ∃ p, beforeRecompute (node l k v b r) key = some p := by
  obtain ⟨hbl, hbr, hltL, hgtR⟩ := hbst
  obtain ⟨hl, hr, -, -⟩ := hbal
  by_cases h1 : key < k
  · obtain ⟨res, hres, -⟩ := removeHelper_spec (size l) l (le_refl _) hbl hl key
    simp only [beforeRecompute, if_pos h1, hres, Option.map_some']
    exact ⟨_, rfl⟩
  · by_cases h2 : key > k
    · obtain ⟨res, hres, -⟩ := removeHelper_spec (size r) r (le_refl _) hbr hr key
      simp only [beforeRecompute, if_neg h1, if_pos h2, hres, Option.map_some']
      exact ⟨_, rfl⟩
    · have hkey : key = k := le_antisymm (not_lt.1 h2) (not_lt.1 h1)
      obtain ⟨hln, hrn⟩ := hstep hkey
      subst hkey
      cases l with
      | nil => exact absurd rfl hln
      | node ll lk lv lb lr =>
          cases r with
          | nil => exact absurd rfl hrn
          | node rl rk rv rb rr =>
              cases lr with
              | nil =>
                  simp only [beforeRecompute, if_neg h1, if_neg h2, nodeSwap, predecessor,
                    rightmost, isAdjacent, if_true]
                  rw [removeHelper_leftNil _ _ _ _ _ h1 h2]
                  exact ⟨_, rfl⟩
              | node lrl lrk lrv lrb lrr =>
                  obtain ⟨init, pl, pk, pv, pb, hp1, -, -⟩ :=
                    rightmost_spec key v (node ll lk lv lb (node lrl lrk lrv lrb lrr))
                      (by simp)
                  have hp2 : rightmost (node lrl lrk lrv lrb lrr) = node pl pk pv pb nil := by
                    simpa only [rightmost] using hp1
                  have hsp := removeHelper_placeAtRightmost key v
                    (node ll lk lv lb (node lrl lrk lrv lrb lrr)) (by simp) hbl hltL _ _ _ _ _
                    hp1
                  obtain ⟨res, hres, -⟩ := removeHelper_spec _
                    (node ll lk lv lb (node lrl lrk lrv lrb lrr)) (le_refl _) hbl hl pk
                  simp only [beforeRecompute, if_neg h1, if_neg h2, nodeSwap, predecessor,
                    rightmost, hp2, isAdjacent, Bool.false_eq_true, if_false]
                  rw [hsp, hres]
                  exact ⟨_, rfl⟩

/-- C19 (as amended), shorter propagation on remove when no rebalance happens: for
every subtree satisfying the core invariants and every key other than the key of a
subtree root with fewer than two children (that root is spliced out before any
recomputation), `removeHelper` reaches its recompute step at the subtree root, and if
the balance factor recomputed there is 0 then `removeHelper` returns the node with that
factor, `shorter` is set to true, and the returned subtree is one level shorter than the
input subtree when the balance factor of the input root was +1 or -1 and has the height
of the input subtree when it was 0; if the recomputed factor is +1 or -1 then the
returned subtree has the height of the input subtree and `shorter` is set to false.  In
both cases no rebalancing call is made at the subtree root. -/
theorem shorter_propagation_without_rebalance (l r : AVLNode K V) (k key : K) (v : V)
    (b : Int) (h : CoreInvariants (node l k v b r)) (hstep : key = k → l ≠ nil ∧ r ≠ nil) :
    ∃ l1 k1 v1 b1 r1 s n,
      beforeRecompute (node l k v b r) key = some (node l1 k1 v1 b1 r1, s, n) ∧
      ((calcHeight l1 : Int) - (calcHeight r1 : Int) = 0 →
        ∃ res, removeHelper (node l k v b r) key = some res ∧
          res.root = node l1 k1 v1 0 r1 ∧ res.shorter = true ∧ res.rebalances = n ∧
          (b ≠ 0 → calcHeight res.root + 1 = calcHeight (node l k v b r)) ∧
          (b = 0 → calcHeight res.root = calcHeight (node l k v b r))) ∧
      ((calcHeight l1 : Int) - (calcHeight r1 : Int) = 1 ∨
          (calcHeight l1 : Int) - (calcHeight r1 : Int) = -1 →
        ∃ res, removeHelper (node l k v b r) key = some res ∧
          res.root = node l1 k1 v1 ((calcHeight l1 : Int) - (calcHeight r1 : Int)) r1 ∧
          res.shorter = false ∧ res.rebalances = n ∧
          calcHeight res.root = calcHeight (node l k v b r)) := by
  obtain ⟨hbst, -, hbal⟩ := h
  obtain ⟨⟨x, s, n⟩, hx⟩ := beforeRecompute_reached l r k key v b hbst hbal hstep
  obtain ⟨l1, k1, v1, b1, r1, he, hh⟩ :=
    beforeRecompute_heights l r x k key v b s n hbst hbal hx
  subst he
  have heq := removeHelper_eq_recompute _ _ key s n hx
  obtain ⟨-, -, hb, hrange⟩ := hbal
  refine ⟨l1, k1, v1, b1, r1, s, n, hx, ?_, ?_⟩
  · intro hd
    have hnr := recomputeBalance_noRebalance l1 r1 k1 v1 b1 s n (by omega) (by omega)
    rw [hd] at hnr
    refine ⟨_, heq.trans hnr, rfl, rfl, rfl, ?_, ?_⟩
    · intro hb0
      simp only [calcHeight]
      omega
    · intro hb0
      simp only [calcHeight]
      omega
  · intro hd
    have hnr := recomputeBalance_noRebalance l1 r1 k1 v1 b1 s n (by omega) (by omega)
    refine ⟨_, heq.trans hnr, rfl, ?_, rfl, ?_⟩
    · show decide ((calcHeight l1 : Int) - (calcHeight r1 : Int) = 0) = false
      rw [decide_eq_false_iff_not]
      omega
    · simp only [calcHeight]
      omega

/-- Witness for C19 (as amended): removing 1 from the tree 2(1, -), whose root has
balance factor +1; the recompute step is reached at the root with the node 2 without
children, so the recomputed balance factor is 0, `shorter` is set and the returned
subtree is one level shorter. -/
theorem shorter_propagation_without_rebalance_witness :
    CoreInvariants (node (node nil 1 10 0 nil) 2 20 1 nil : AVLNode Nat Nat) ∧
    beforeRecompute (node (node nil 1 10 0 nil) 2 20 1 nil : AVLNode Nat Nat) 1 =
      some (node nil 2 20 0 nil, true, 0) ∧
    removeHelper (node (node nil 1 10 0 nil) 2 20 1 nil : AVLNode Nat Nat) 1 =
      some ⟨node nil 2 20 0 nil, true, true, 0⟩ ∧
    ∃ l1 k1 v1 b1 r1 s n,
      beforeRecompute (node (node nil 1 10 0 nil) 2 20 1 nil : AVLNode Nat Nat) 1 =
        some (node l1 k1 v1 b1 r1, s, n) ∧
      ((calcHeight l1 : Int) - (calcHeight r1 : Int) = 0 →
        ∃ res, removeHelper (node (node nil 1 10 0 nil) 2 20 1 nil : AVLNode Nat Nat) 1 =
            some res ∧
          res.root = node l1 k1 v1 0 r1 ∧ res.shorter = true ∧ res.rebalances = n ∧
          ((1 : Int) ≠ 0 → calcHeight res.root + 1 =
            calcHeight (node (node nil 1 10 0 nil) 2 20 1 nil : AVLNode Nat Nat)) ∧
          ((1 : Int) = 0 → calcHeight res.root =
            calcHeight (node (node nil 1 10 0 nil) 2 20 1 nil : AVLNode Nat Nat))) ∧
      ((calcHeight l1 : Int) - (calcHeight r1 : Int) = 1 ∨
          (calcHeight l1 : Int) - (calcHeight r1 : Int) = -1 →
        ∃ res, removeHelper (node (node nil 1 10 0 nil) 2 20 1 nil : AVLNode Nat Nat) 1 =
            some res ∧
          res.root = node l1 k1 v1 ((calcHeight l1 : Int) - (calcHeight r1 : Int)) r1 ∧
          res.shorter = false ∧ res.rebalances = n ∧
          calcHeight res.root =
            calcHeight (node (node nil 1 10 0 nil) 2 20 1 nil : AVLNode Nat Nat)) :=
  ⟨by decide, by simp [beforeRecompute, removeHelper, wrap8],
    by simp [removeHelper, recomputeBalance, calcHeight, wrap8],
    shorter_propagation_without_rebalance (node nil 1 10 0 nil) nil 2 1 20 1 (by decide)
      (by decide)⟩

end ShorterPropagation
